import Mathlib

/-!
# Verification of the MultiAVL ordered multiset (src/src/avl.rs)

The Rust source implements a multiset as an AVL tree of reference-counted
cells (`Rc<RefCell<Node<T>>>`) with weak parent back-references, a cached
size, and cached strong references to the minimum and maximum cell.

Shallow embedding used here:

* Every `Rc` cell is represented by a constructor `NodeT.node i data cnt ht l r`
  where `i : Nat` is the identity of the cell (so `Rc::ptr_eq` becomes equality
  of ids, and the `min_node` / `max_node` caches store ids).  `Option<NodeRef>`
  becomes the `NodeT.nil` constructor.  Fresh ids are drawn from a counter
  `nextId` carried in the tree state.
* The `parent` field of a cell is the structural parent: the code installs it
  in `link_node` exactly when a cell is placed into a child slot, so in the
  embedding the parent relation is derived from the ownership structure
  (definition `parentPairs`).
* The `i32` heights are embedded as `Int` (tree heights never approach the
  `i32` range), `usize` counters and sizes as `Nat`.
* Loops that walk the tree through pointers become structural recursion; the
  bottom-up `rebalance` walk (which visits exactly the nodes on the root path
  of its starting point, deepest first) becomes rebalancing on the unwind of
  the descending recursion, which visits the same cells in the same order.
  The intermediate `adjust_height` calls performed by `remove_node` /
  `link_node` during a splice are overwritten by the final `adjust_height` /
  `rebalance_node` calls of the enclosing operation before they are read, so
  each embedded operation records the net effect on every field.
-/

namespace MultiAVLSpec

/-- One `Rc<RefCell<Node<T>>>` cell (or the absence of one, `nil`):
id of the cell, `data`, `counter`, cached `height`, left and right child. -/
inductive NodeT (α : Type) : Type where
  | nil : NodeT α
  | node (i : Nat) (data : α) (cnt : Nat) (ht : Int) (l : NodeT α) (r : NodeT α) : NodeT α
  deriving DecidableEq

namespace NodeT

variable {α : Type}

/-- Height contribution of an optional child: `Some(v) => v.height + 1, None => 0`
(the `match` inside `adjust_height` and `get_balance_factor`). -/
def chH : NodeT α → Int
  | .nil => 0
  | .node _ _ _ h _ _ => h + 1

/-- Balance factor as computed by `Node::get_balance_factor`; the `0` for `nil`
matches the `c_balance = 0` default used by `need_double_rot` for a missing child. -/
def bfOf : NodeT α → Int
  | .nil => 0
  | .node _ _ _ _ l r => chH l - chH r

/-- Number of present children (`Node::count_children`). -/
def countChildren : NodeT α → Nat
  | .nil => 0
  | .node _ _ _ _ l r =>
      (match l with | .nil => 0 | _ => 1) + (match r with | .nil => 0 | _ => 1)

/-- Net effect of `MultiAVL::rotate_left(node)` on the subtree rooted at the
rotated cell.  When the cell has no right child the code returns early (after
`remove_right` has re-adjusted the cell's height).  Otherwise the right child is
promoted; the heights stored at the end are the ones written by the final
`adjust_height(&node); adjust_height(&right_child)` calls. -/
def rotateLeftT : NodeT α → NodeT α
  | .nil => .nil
  | .node i d c _ l .nil => .node i d c (max (chH l) 0) l .nil
  | .node i d c _ l (.node ri rd rc _ rl rr) =>
      let nl : NodeT α := .node i d c (max (chH l) (chH rl)) l rl
      .node ri rd rc (max (chH nl) (chH rr)) nl rr

/-- Net effect of `MultiAVL::rotate_right(node)`, mirror of `rotateLeftT`. -/
def rotateRightT : NodeT α → NodeT α
  | .nil => .nil
  | .node i d c _ .nil r => .node i d c (max 0 (chH r)) .nil r
  | .node i d c _ (.node li ld lc _ ll lr) r =>
      let nr : NodeT α := .node i d c (max (chH lr) (chH r)) lr r
      .node li ld lc (max (chH ll) (chH nr)) ll nr

/-- One step of the upward `rebalance` walk at a cell: `adjust_height` followed by
`rebalance_node` (which re-adjusts the height, reads the balance factor, and
applies a single or double rotation when the factor is `±2`, with
`need_double_rot` inspecting the child's balance factor). -/
def rebalanceStep : NodeT α → NodeT α
  | .nil => .nil
  | .node i d c _ l r =>
      if chH l - chH r = 2 then
        if bfOf l = -1 then
          rotateRightT (.node i d c (max (chH (rotateLeftT l)) (chH r)) (rotateLeftT l) r)
        else rotateRightT (.node i d c (max (chH l) (chH r)) l r)
      else if chH l - chH r = -2 then
        if bfOf r = 1 then
          rotateLeftT (.node i d c (max (chH l) (chH (rotateRightT r))) l (rotateRightT r))
        else rotateLeftT (.node i d c (max (chH l) (chH r)) l r)
      else .node i d c (max (chH l) (chH r)) l r

end NodeT

/-- State of `MultiAVL<T>`: root, cached size, cached min/max cell ids, plus the
id supply for newly allocated cells. -/
structure MultiAVL (α : Type) : Type where
  root : NodeT α
  size : Nat
  minNode : Option Nat
  maxNode : Option Nat
  nextId : Nat
  deriving DecidableEq

/-- State of `MultiAVLTreeIter<T>`: the weak reference `now` (as a cell id, `none`
when absent) and the repeat counter. -/
structure MIter : Type where
  now : Option Nat
  counter : Nat
  deriving DecidableEq

namespace MultiAVL

variable {α : Type} [LinearOrder α]

open NodeT

/-- The empty tree (`MultiAVL::new`). -/
def new : MultiAVL α := { root := .nil, size := 0, minNode := none, maxNode := none, nextId := 0 }

/-- Descent of `MultiAVL::insert`.  Arguments: the id for the cell that would be
newly allocated, the value, the subtree.  Returns the new subtree together with
`grew` (whether a new cell was created; on an equality hit the code returns
early and no rebalancing happens anywhere) and the `is_min` / `is_max` flags
(`is_min` stays `true` while the descent never goes right, `is_max` while it
never goes left).  On the unwind, every ancestor of a newly created cell gets a
`rebalanceStep`, matching `self.rebalance(parent)` walking to the root. -/
def insertAux (nid : Nat) (v : α) : NodeT α → NodeT α × Bool × Bool × Bool
  | .nil => (.node nid v 1 0 .nil .nil, true, true, true)
  | .node i d c h l r =>
      if v = d then (.node i d (c + 1) h l r, false, true, true)
      else if v < d then
        match insertAux nid v l with
        | (l2, grew, mn, _) =>
            ((if grew then rebalanceStep (.node i d c h l2 r) else .node i d c h l2 r),
              grew, mn, false)
      else
        match insertAux nid v r with
        | (r2, grew, _, mx) =>
            ((if grew then rebalanceStep (.node i d c h l r2) else .node i d c h l r2),
              grew, false, mx)

/-- `MultiAVL::insert`. -/
def insert (t : MultiAVL α) (v : α) : MultiAVL α :=
  match insertAux t.nextId v t.root with
  | (root2, grew, mn, mx) =>
      if grew then
        { root := root2, size := t.size + 1,
          minNode := if mn then some t.nextId else t.minNode,
          maxNode := if mx then some t.nextId else t.maxNode,
          nextId := t.nextId + 1 }
      else
        { t with root := root2, size := t.size + 1 }

/-- `MultiAVL::find_node` (used by `contains` and `erase`): BST search returning
the subtree rooted at the cell holding `v`, if any. -/
def findNode (v : α) : NodeT α → Option (NodeT α)
  | .nil => none
  | .node i d c h l r =>
      if v = d then some (.node i d c h l r)
      else if v < d then findNode v l
      else findNode v r

/-- `MultiAVL::contains`. -/
def contains (t : MultiAVL α) (v : α) : Bool := (findNode v t.root).isSome

/-- Walk of `MultiAVL::find_min_node`: id of the leftmost cell. -/
def leftmostId : NodeT α → Option Nat
  | .nil => none
  | .node i _ _ _ l _ => match l with | .nil => some i | _ => leftmostId l

/-- Walk of `MultiAVL::find_max_node`: id of the rightmost cell. -/
def rightmostId : NodeT α → Option Nat
  | .nil => none
  | .node i _ _ _ _ r => match r with | .nil => some i | _ => rightmostId r

/-- Outcome of `MultiAVL::erase_node` on a subtree: the value was not found
(`erase` is a no-op), or only the counter was decremented (counter still
positive: no structural change), or a cell was structurally removed.  In the
removed case `ti` is the id of the cell on which `erase_node` was first called
(checked against the extrema caches before dispatch) and `ri` the id of the
cell actually deallocated (the in-order predecessor's cell in the two-children
case, checked against the caches by the recursive `erase_node` call). -/
inductive EraseInfo : Type where
  | notFound : EraseInfo
  | decremented : EraseInfo
  | removed (ti ri : Nat) : EraseInfo
  deriving DecidableEq

/-- The predecessor hunt and splice inside `MultiAVL::erase_node_two_children`:
walks to the rightmost cell of the subtree `node i d c h l r`, removes that cell
(splicing up its left child, the 0/1-child case of the recursive
`erase_node` call), and returns its `data` and `counter` (which the code moves
into the target cell by the two `mem::swap` calls) together with its id.  The
`rebalanceStep` on the unwind matches the `rebalance` walk that starts at the
removed cell's parent. -/
def removeMaxCell (i : Nat) (d : α) (c : Nat) (h : Int) :
    NodeT α → NodeT α → NodeT α × α × Nat × Nat
  | l, .nil => (l, d, c, i)
  | l, .node ri rd rc rh rl rr =>
      match removeMaxCell ri rd rc rh rl rr with
      | (r2, pd, pc, pi) => (rebalanceStep (.node i d c h l r2), pd, pc, pi)

/-- Descent of `MultiAVL::erase` / `erase_node` guided by value comparison
(the path `find_node` takes).  At the found cell, `counter` is decremented; if
it remains positive nothing else changes, otherwise the 0-, 1- or 2-children
removal runs.  Ancestors of a structural removal get a `rebalanceStep` on the
unwind (the `rebalance` walk from the removal point's parent to the root);
when the found cell keeps a positive counter the code returns without touching
any ancestor. -/
def eraseAux (v : α) : NodeT α → NodeT α × EraseInfo
  | .nil => (.nil, .notFound)
  | .node i d c h l r =>
      if v = d then
        if c - 1 > 0 then (.node i d (c - 1) h l r, .decremented)
        else
          match l, r with
          | .nil, .nil => (.nil, .removed i i)
          | .nil, .node ri rd rc rh rl rr => (.node ri rd rc rh rl rr, .removed i i)
          | .node li ld lc lh ll lr, .nil => (.node li ld lc lh ll lr, .removed i i)
          | .node li ld lc lh ll lr, .node ri rd rc rh rl rr =>
              match removeMaxCell li ld lc lh ll lr with
              | (l2, pd, pc, pi) =>
                  (rebalanceStep (.node i pd pc h l2 (.node ri rd rc rh rl rr)),
                    .removed i pi)
      else if v < d then
        match eraseAux v l with
        | (l2, .removed ti ri) => (rebalanceStep (.node i d c h l2 r), .removed ti ri)
        | (_, .notFound) => (.node i d c h l r, .notFound)
        | (l2, .decremented) => (.node i d c h l2 r, .decremented)
      else
        match eraseAux v r with
        | (r2, .removed ti ri) => (rebalanceStep (.node i d c h l r2), .removed ti ri)
        | (_, .notFound) => (.node i d c h l r, .notFound)
        | (r2, .decremented) => (.node i d c h l r2, .decremented)

/-- Cache maintenance at the end of `MultiAVL::erase_node`: the `recalc_min` /
`recalc_max` flags fire when the cache holds the cell `erase_node` was called on
(`is_min_node` / `is_max_node`, a `ptr_eq` test) either at the outer call (`ti`)
or at the recursive call on the predecessor (`ri`); the cache is then
recomputed by `find_min_node` / `find_max_node` on the updated tree. -/
def applyErase (t : MultiAVL α) : NodeT α × EraseInfo → MultiAVL α
  | (_, .notFound) => t
  | (root2, .decremented) => { t with root := root2, size := t.size - 1 }
  | (root2, .removed ti ri) =>
      { root := root2, size := t.size - 1,
        minNode := if t.minNode = some ti ∨ t.minNode = some ri
                   then leftmostId root2 else t.minNode,
        maxNode := if t.maxNode = some ti ∨ t.maxNode = some ri
                   then rightmostId root2 else t.maxNode,
        nextId := t.nextId }

/-- `MultiAVL::erase`. -/
def erase (t : MultiAVL α) (v : α) : MultiAVL α := applyErase t (eraseAux v t.root)

/-- Test used to locate the cell an iterator points at: does the subtree contain
a cell with this id (the id is live)? -/
def containsId (tid : Nat) : NodeT α → Bool
  | .nil => false
  | .node i _ _ _ l r => i = tid || containsId tid l || containsId tid r

/-- Descent of `MultiAVL::erase_iter`'s call to `erase_node`, guided by the
identity of the target cell instead of by value; the case logic at the target
and the rebalancing unwind are those of `eraseAux`. -/
def eraseIdAux (tid : Nat) : NodeT α → NodeT α × EraseInfo
  | .nil => (.nil, .notFound)
  | .node i d c h l r =>
      if i = tid then
        if c - 1 > 0 then (.node i d (c - 1) h l r, .decremented)
        else
          match l, r with
          | .nil, .nil => (.nil, .removed i i)
          | .nil, .node ri rd rc rh rl rr => (.node ri rd rc rh rl rr, .removed i i)
          | .node li ld lc lh ll lr, .nil => (.node li ld lc lh ll lr, .removed i i)
          | .node li ld lc lh ll lr, .node ri rd rc rh rl rr =>
              match removeMaxCell li ld lc lh ll lr with
              | (l2, pd, pc, pi) =>
                  (rebalanceStep (.node i pd pc h l2 (.node ri rd rc rh rl rr)),
                    .removed i pi)
      else if containsId tid l then
        match eraseIdAux tid l with
        | (l2, .removed ti ri) => (rebalanceStep (.node i d c h l2 r), .removed ti ri)
        | (_, .notFound) => (.node i d c h l r, .notFound)
        | (l2, .decremented) => (.node i d c h l2 r, .decremented)
      else if containsId tid r then
        match eraseIdAux tid r with
        | (r2, .removed ti ri) => (rebalanceStep (.node i d c h l r2), .removed ti ri)
        | (_, .notFound) => (.node i d c h l r, .notFound)
        | (r2, .decremented) => (.node i d c h l r2, .decremented)
      else (.node i d c h l r, .notFound)

/-- `MultiAVL::erase_iter`: if the iterator's weak reference is absent or does
not upgrade to a live cell, this is a no-op; otherwise `erase_node` runs on
that cell. -/
def eraseIter (t : MultiAVL α) (it : MIter) : MultiAVL α :=
  match it.now with
  | none => t
  | some tid => applyErase t (eraseIdAux tid t.root)

/-- `MultiAVL::min_iter`: an iterator positioned at the cached minimum cell with
repeat counter 1 (`node_to_iter`); `None` when the tree is empty. -/
def minIter (t : MultiAVL α) : Option MIter :=
  t.minNode.map fun i => { now := some i, counter := 1 }

/-- `MultiAVL::max_iter`. -/
def maxIter (t : MultiAVL α) : Option MIter :=
  t.maxNode.map fun i => { now := some i, counter := 1 }

/-- `MultiAVL::iter`: `min_iter` when it exists, otherwise the exhausted
iterator `{ now: None, counter: 0 }`. -/
def iter (t : MultiAVL α) : MIter :=
  match minIter t with
  | some it => it
  | none => { now := none, counter := 0 }

/-- Reading the `data` field of the cell a (strong) cache reference points at
(`v.borrow().data.clone()` in `min_value` / `max_value`). -/
def lookupData (tid : Nat) : NodeT α → Option α
  | .nil => none
  | .node i d _ _ l r =>
      if i = tid then some d
      else match lookupData tid l with
           | some x => some x
           | none => lookupData tid r

/-- `MultiAVL::min_value`: the data of the cached minimum cell. -/
def minValue (t : MultiAVL α) : Option α :=
  match t.minNode with
  | none => none
  | some i => lookupData i t.root

/-- `MultiAVL::max_value`. -/
def maxValue (t : MultiAVL α) : Option α :=
  match t.maxNode with
  | none => none
  | some i => lookupData i t.root

/-- `MultiAVL::size`. -/
def sizeOf (t : MultiAVL α) : Nat := t.size

/-- `MultiAVL::is_empty`. -/
def isEmpty (t : MultiAVL α) : Bool := t.size = 0

end MultiAVL

namespace NodeT

variable {α : Type} [LinearOrder α]

/-- Upgrading the iterator's weak reference: the subtree rooted at the cell with
this id, if the cell is live. -/
def lookupCell (tid : Nat) : NodeT α → Option (NodeT α)
  | .nil => none
  | .node i d c h l r =>
      if i = tid then some (.node i d c h l r)
      else match lookupCell tid l with
           | some x => some x
           | none => lookupCell tid r

/-- In-order successor computation of `MultiAVLTreeIter::next`: if the current
cell has a right child, the leftmost cell of that right subtree; otherwise the
walk up the parent chain stops at the first ancestor reached from its left
child.  The accumulator `anc` is the nearest ancestor whose left subtree the
descent entered: exactly the ancestor the upward walk would stop at. -/
def succFrom (tid : Nat) (anc : Option Nat) : NodeT α → Option Nat
  | .nil => none
  | .node i _ _ _ l r =>
      if i = tid then
        match r with
        | .nil => anc
        | _ => MultiAVL.leftmostId r
      else if MultiAVL.containsId tid l then succFrom tid (some i) l
      else succFrom tid anc r

/-- `MultiAVLTreeIter::next` against a fixed tree `t`: returns the yielded value
(if any) and the updated iterator state.  An absent or dead `now` reference
yields nothing and leaves the state unchanged. -/
def iterNext (t : NodeT α) (it : MIter) : Option α × MIter :=
  match it.now with
  | none => (none, it)
  | some tid =>
      match lookupCell tid t with
      | none => (none, it)
      | some .nil => (none, it)
      | some (.node _ d c _ _ _) =>
          if it.counter + 1 ≤ c then (some d, { now := some tid, counter := it.counter + 1 })
          else (some d, { now := succFrom tid none t, counter := 1 })

/-- First `n` values produced by successive `next()` calls (stopping early at
the first `None`). -/
def iterTake (t : NodeT α) : MIter → Nat → List α
  | _, 0 => []
  | it, n + 1 =>
      match iterNext t it with
      | (some a, it2) => a :: iterTake t it2 n
      | (none, _) => []

/-- Iterator state after `n` calls to `next()`. -/
def iterAfter (t : NodeT α) : MIter → Nat → MIter
  | it, 0 => it
  | it, n + 1 => iterAfter t (iterNext t it).2 n

/-- Increment of the counter of the cell holding `v` (the `counter += 1` path of
`insert` when an equal value is found): no id, height or structure changes. -/
def bumpNode (v : α) : NodeT α → NodeT α
  | .nil => .nil
  | .node i d c h l r =>
      if v = d then .node i d (c + 1) h l r
      else if v < d then .node i d c h (bumpNode v l) r
      else .node i d c h l (bumpNode v r)

/-- Sequential effects of `MultiAVL::rotate_left(node)` applied to the left
child `x` of a parent cell `p`, field write by field write:
`remove_right(x)` re-adjusts `x` (to `max(chH xl, 0)`, then after
`link_right_node(x, rl)` to `max(chH xl, chH rl)`, the same value whether or
not `rl` is present), `remove_left(right_child)` re-adjusts the promoted cell
to `max(0, chH rr)`, `link_left_node(p, right_child)` writes into `p` the
height `max(promotedMid + 1, chH sibling)` computed from the promoted cell's
intermediate height, and the final `link_left_node` / `adjust_height` calls
leave `x` and the promoted cell with their correct new heights.  When `x` has
no right child the function returns after `remove_right` has re-adjusted `x`. -/
def rotateLeftAtL : NodeT α → NodeT α
  | .node pi pd pc _ (.node xi xd xc _ xl (.node ri rd rc _ rl rr)) sib =>
      let rcMid : Int := max 0 (chH rr)
      let xFin : NodeT α := .node xi xd xc (max (chH xl) (chH rl)) xl rl
      let rcFin : NodeT α := .node ri rd rc (max (chH xFin) (chH rr)) xFin rr
      .node pi pd pc (max (rcMid + 1) (chH sib)) rcFin sib
  | .node pi pd pc ph (.node xi xd xc _ xl .nil) sib =>
      .node pi pd pc ph (.node xi xd xc (max (chH xl) 0) xl .nil) sib
  | t => t

/-- Mirror of `rotateLeftAtL`: sequential effects of
`MultiAVL::rotate_right(node)` applied to the left child `x` of a parent cell. -/
def rotateRightAtL : NodeT α → NodeT α
  | .node pi pd pc _ (.node xi xd xc _ (.node li ld lc _ ll lr) xr) sib =>
      let lcMid : Int := max (chH ll) 0
      let xFin : NodeT α := .node xi xd xc (max (chH lr) (chH xr)) lr xr
      let lcFin : NodeT α := .node li ld lc (max (chH ll) (chH xFin)) ll xFin
      .node pi pd pc (max (lcMid + 1) (chH sib)) lcFin sib
  | .node pi pd pc ph (.node xi xd xc _ .nil xr) sib =>
      .node pi pd pc ph (.node xi xd xc (max 0 (chH xr)) .nil xr) sib
  | t => t

/-- Sequential effects of `MultiAVL::rotate_left(node)` applied to the right
child `x` of a parent cell `p`: the same field-write sequence as
`rotateLeftAtL`, except that the parent-slot check finds `x` in `p`'s right
slot, so it is `link_right_node(p, right_child)` that writes into `p` the
height `max(chH sibling, promotedMid + 1)` computed from the promoted cell's
intermediate height. -/
def rotateLeftAtR : NodeT α → NodeT α
  | .node pi pd pc _ sib (.node xi xd xc _ xl (.node ri rd rc _ rl rr)) =>
      let rcMid : Int := max 0 (chH rr)
      let xFin : NodeT α := .node xi xd xc (max (chH xl) (chH rl)) xl rl
      let rcFin : NodeT α := .node ri rd rc (max (chH xFin) (chH rr)) xFin rr
      .node pi pd pc (max (chH sib) (rcMid + 1)) sib rcFin
  | .node pi pd pc ph sib (.node xi xd xc _ xl .nil) =>
      .node pi pd pc ph sib (.node xi xd xc (max (chH xl) 0) xl .nil)
  | t => t

/-- Mirror of `rotateLeftAtR`: sequential effects of
`MultiAVL::rotate_right(node)` applied to the right child of a parent cell
(the `link_right_node(v, left_child)` branch, hit for instance by the
`rotate_right(&right_child)` call of the balance -2 double rotation). -/
def rotateRightAtR : NodeT α → NodeT α
  | .node pi pd pc _ sib (.node xi xd xc _ (.node li ld lc _ ll lr) xr) =>
      let lcMid : Int := max (chH ll) 0
      let xFin : NodeT α := .node xi xd xc (max (chH lr) (chH xr)) lr xr
      let lcFin : NodeT α := .node li ld lc (max (chH ll) (chH xFin)) ll xFin
      .node pi pd pc (max (chH sib) (lcMid + 1)) sib lcFin
  | .node pi pd pc ph sib (.node xi xd xc _ .nil xr) =>
      .node pi pd pc ph sib (.node xi xd xc (max 0 (chH xr)) .nil xr)
  | t => t

/-- In-order list of (cell id, cached height) pairs. -/
def heightMap : NodeT α → List (Nat × Int)
  | .nil => []
  | .node i _ _ h l r => heightMap l ++ (i, h) :: heightMap r

end NodeT

namespace MultiAVLSpecAbs

open MultiAVLSpec MultiAVLSpec.NodeT

variable {α : Type} [LinearOrder α]

/-- In-order list of the cells of a subtree: (id, data, counter) triples. -/
def cells : NodeT α → List (Nat × α × Nat)
  | .nil => []
  | .node i d c _ l r => cells l ++ (i, d, c) :: cells r

/-- In-order list of stored values (one entry per cell). -/
def dataList (t : NodeT α) : List α := (cells t).map fun e => e.2.1

/-- In-order list of cell ids. -/
def idList (t : NodeT α) : List Nat := (cells t).map fun e => e.1

/-- In-order list of (value, multiplicity) pairs: the multiset entries. -/
def entries (t : NodeT α) : List (α × Nat) := (cells t).map fun e => e.2

/-- The stored multiset, flattened: every value repeated its multiplicity. -/
def flat (t : NodeT α) : List α := (entries t).flatMap fun e => List.replicate e.2 e.1

/-- Sum of the `counter` fields, which invariant 5 ties to the `size` field. -/
def sumCnt (t : NodeT α) : Nat := ((cells t).map fun e => e.2.2).sum

/-- Invariant 3 (height correctness): every cached `height` equals
`max(height(left)+1, height(right)+1, 0)` recomputed from the children. -/
def HC : NodeT α → Prop
  | .nil => True
  | .node _ _ _ h l r => h = max (chH l) (chH r) ∧ HC l ∧ HC r

/-- Decision procedure for `HC`. -/
def decHC : (t : NodeT α) → Decidable (HC t)
  | .nil => .isTrue trivial
  | .node _ _ _ _ l r =>
      have := decHC l
      have := decHC r
      inferInstanceAs (Decidable (_ ∧ _ ∧ _))

instance (t : NodeT α) : Decidable (HC t) := decHC t

/-- Invariant 2 (AVL balance): `|height(left) - height(right)| ≤ 1` at every node,
computed from the cached heights as `get_balance_factor` does. -/
def BAL : NodeT α → Prop
  | .nil => True
  | .node _ _ _ _ l r => -1 ≤ chH l - chH r ∧ chH l - chH r ≤ 1 ∧ BAL l ∧ BAL r

/-- Decision procedure for `BAL`. -/
def decBAL : (t : NodeT α) → Decidable (BAL t)
  | .nil => .isTrue trivial
  | .node _ _ _ _ l r =>
      have := decBAL l
      have := decBAL r
      inferInstanceAs (Decidable (_ ∧ _ ∧ _ ∧ _))

instance (t : NodeT α) : Decidable (BAL t) := decBAL t

/-- Invariant 1 (BST order): values in the left subtree are smaller, values in
the right subtree larger, at every node. -/
def bstOrder : NodeT α → Prop
  | .nil => True
  | .node _ d _ _ l r =>
      (∀ x ∈ dataList l, x < d) ∧ (∀ x ∈ dataList r, d < x) ∧ bstOrder l ∧ bstOrder r

/-- Decision procedure for `bstOrder`. -/
def decBst : (t : NodeT α) → Decidable (bstOrder t)
  | .nil => .isTrue trivial
  | .node _ _ _ _ l r =>
      have := decBst l
      have := decBst r
      inferInstanceAs (Decidable (_ ∧ _ ∧ _ ∧ _))

instance (t : NodeT α) : Decidable (bstOrder t) := decBst t

/-- Parent relation maintained by the code through the `parent` back-references:
each cell paired with the id of the cell owning it (`none` for the root). -/
def parentPairs : NodeT α → Option Nat → List (Nat × Option Nat)
  | .nil, _ => []
  | .node i _ _ _ l r, p => parentPairs l (some i) ++ (i, p) :: parentPairs r (some i)

/-- All subtree occurrences (each live cell together with its children). -/
def subtrees : NodeT α → List (NodeT α)
  | .nil => []
  | .node i d c h l r => (NodeT.node i d c h l r) :: (subtrees l ++ subtrees r)

/-- Id of the root cell of a subtree, if present. -/
def rootId : NodeT α → Option Nat
  | .nil => none
  | .node i _ _ _ _ _ => some i

/-- Number of child slots, over all cells of the tree, in which the cell `pid`
owns the cell `cid`. -/
def ownerSlots (t : NodeT α) (pid cid : Nat) : Nat :=
  ((subtrees t).map fun s =>
      match s with
      | .nil => 0
      | .node i _ _ _ l r =>
          if i = pid then
            (if rootId l = some cid then 1 else 0) + (if rootId r = some cid then 1 else 0)
          else 0).sum

/-- Requirement on a single entry of `parentPairs`: an absent parent reference
is only allowed on the root cell, and a present one must resolve to the cell
that owns this cell in exactly one child slot. -/
def slotSpec (t : NodeT α) (p : Nat × Option Nat) : Prop :=
  match p.2 with
  | none => rootId t = some p.1
  | some pid => ownerSlots t pid p.1 = 1

instance (t : NodeT α) (p : Nat × Option Nat) : Decidable (slotSpec t p) :=
  match p with
  | (c, none) => inferInstanceAs (Decidable (rootId t = some c))
  | (c, some pid) => inferInstanceAs (Decidable (ownerSlots t pid c = 1))

/-- Invariant 4 (parent consistency): every non-root cell's parent reference
resolves to the cell that owns it in exactly one child slot, and the root cell
has no parent reference. -/
def parentOk (t : NodeT α) : Prop :=
  ∀ p ∈ parentPairs t none, slotSpec t p

instance (t : NodeT α) : Decidable (parentOk t) :=
  inferInstanceAs (Decidable (∀ p ∈ parentPairs t none, slotSpec t p))

/-- The six invariants of the specification (§3), read on the embedded state.
Size consistency is invariant 5, extrema consistency invariant 6. -/
def InvariantsSix (t : MultiAVL α) : Prop :=
  bstOrder t.root ∧ BAL t.root ∧ HC t.root ∧ parentOk t.root ∧
    (t.size = sumCnt t.root ∧ (t.size = 0 ↔ t.root = .nil)) ∧
    (t.root ≠ .nil → t.minNode = MultiAVL.leftmostId t.root ∧ t.maxNode = MultiAVL.rightmostId t.root)

instance (t : MultiAVL α) [DecidableEq α] : Decidable (InvariantsSix t) := by
  unfold InvariantsSix
  infer_instance

/-- Working invariant for the reachability induction: the six invariants plus
the bookkeeping facts the proofs thread through (sorted in-order data, positive
counters, distinct ids, id freshness, exact cache equalities). -/
def WF (t : MultiAVL α) : Prop :=
  (dataList t.root).Pairwise (· < ·) ∧ HC t.root ∧ BAL t.root ∧
    (∀ e ∈ cells t.root, 1 ≤ e.2.2) ∧ (idList t.root).Nodup ∧
    (∀ i ∈ idList t.root, i < t.nextId) ∧
    t.size = sumCnt t.root ∧
    t.minNode = MultiAVL.leftmostId t.root ∧ t.maxNode = MultiAVL.rightmostId t.root

instance (t : MultiAVL α) : Decidable (WF t) := by
  unfold WF
  infer_instance

/-- Effect of a structural insertion on the in-order cell list: the new cell
`(nid, v, 1)` enters at its sorted position. -/
def insCell (nid : Nat) (v : α) : List (Nat × α × Nat) → List (Nat × α × Nat)
  | [] => [(nid, v, 1)]
  | e :: rest => if v ≤ e.2.1 then (nid, v, 1) :: e :: rest else e :: insCell nid v rest

/-- Effect of a duplicate insertion on the in-order cell list: the counter of
the cell holding `v` is incremented. -/
def bumpCell (v : α) : List (Nat × α × Nat) → List (Nat × α × Nat)
  | [] => []
  | e :: rest =>
      if v = e.2.1 then (e.1, e.2.1, e.2.2 + 1) :: rest else e :: bumpCell v rest

/-- Effect of a counter-only erase on the in-order cell list: the counter of
the cell holding `v` is decremented. -/
def decCell (v : α) : List (Nat × α × Nat) → List (Nat × α × Nat)
  | [] => []
  | e :: rest =>
      if v = e.2.1 then (e.1, e.2.1, e.2.2 - 1) :: rest else e :: decCell v rest

/-- Multiplicity of `v` as the code reads it: the `counter` of the cell found
by `find_node`, `0` when absent. -/
def cntOf (v : α) (t : NodeT α) : Nat :=
  match MultiAVL.findNode v t with
  | some (.node _ _ c _ _ _) => c
  | _ => 0

/-- Total multiplicity of `v` in a cell list (the counter of the cell holding
`v`, once cells are unique per value). -/
def cntCells (v : α) (cs : List (Nat × α × Nat)) : Nat :=
  (cs.map fun e => if e.2.1 = v then e.2.2 else 0).sum

/-- Element-by-element insertion of a list of values into a fresh tree. -/
def buildList (l : List α) : MultiAVL α :=
  l.foldl (fun s v => s.insert v) MultiAVL.new

/-- States reachable from `MultiAVL::new` by the public mutating operations. -/
inductive Reachable : MultiAVL α → Prop where
  | new : Reachable MultiAVL.new
  | insert (t : MultiAVL α) (v : α) : Reachable t → Reachable (t.insert v)
  | erase (t : MultiAVL α) (v : α) : Reachable t → Reachable (t.erase v)
  | eraseIter (t : MultiAVL α) (it : MIter) : Reachable t → Reachable (t.eraseIter it)

end MultiAVLSpecAbs

end MultiAVLSpec

/-! ## Basic lemmas about the embedded structures -/

namespace MultiAVLSpec

open NodeT MultiAVL MultiAVLSpecAbs

variable {α : Type} [LinearOrder α]

@[simp] theorem chH_nil : chH (NodeT.nil : NodeT α) = 0 := rfl

@[simp] theorem chH_node (i : Nat) (d : α) (c : Nat) (h : Int) (l r : NodeT α) :
    chH (NodeT.node i d c h l r) = h + 1 := rfl

@[simp] theorem cells_nil : cells (NodeT.nil : NodeT α) = [] := rfl

@[simp] theorem cells_node (i : Nat) (d : α) (c : Nat) (h : Int) (l r : NodeT α) :
    cells (NodeT.node i d c h l r) = cells l ++ (i, d, c) :: cells r := rfl

@[simp] theorem HC_nil : HC (NodeT.nil : NodeT α) := trivial

@[simp] theorem HC_node (i : Nat) (d : α) (c : Nat) (h : Int) (l r : NodeT α) :
    HC (NodeT.node i d c h l r) ↔ h = max (chH l) (chH r) ∧ HC l ∧ HC r := Iff.rfl

@[simp] theorem BAL_nil : BAL (NodeT.nil : NodeT α) := trivial

@[simp] theorem BAL_node (i : Nat) (d : α) (c : Nat) (h : Int) (l r : NodeT α) :
    BAL (NodeT.node i d c h l r) ↔
      -1 ≤ chH l - chH r ∧ chH l - chH r ≤ 1 ∧ BAL l ∧ BAL r := Iff.rfl

@[simp] theorem bstOrder_nil : bstOrder (NodeT.nil : NodeT α) := trivial

@[simp] theorem bstOrder_node (i : Nat) (d : α) (c : Nat) (h : Int) (l r : NodeT α) :
    bstOrder (NodeT.node i d c h l r) ↔
      (∀ x ∈ dataList l, x < d) ∧ (∀ x ∈ dataList r, d < x) ∧ bstOrder l ∧ bstOrder r :=
  Iff.rfl

@[simp] theorem dataList_nil : dataList (NodeT.nil : NodeT α) = [] := rfl

@[simp] theorem dataList_node (i : Nat) (d : α) (c : Nat) (h : Int) (l r : NodeT α) :
    dataList (NodeT.node i d c h l r) = dataList l ++ d :: dataList r := by
  simp [dataList]

@[simp] theorem idList_nil : idList (NodeT.nil : NodeT α) = [] := rfl

@[simp] theorem idList_node (i : Nat) (d : α) (c : Nat) (h : Int) (l r : NodeT α) :
    idList (NodeT.node i d c h l r) = idList l ++ i :: idList r := by
  simp [idList]

@[simp] theorem sumCnt_nil : sumCnt (NodeT.nil : NodeT α) = 0 := rfl

@[simp] theorem sumCnt_node (i : Nat) (d : α) (c : Nat) (h : Int) (l r : NodeT α) :
    sumCnt (NodeT.node i d c h l r) = sumCnt l + (c + sumCnt r) := by
  simp [sumCnt]

theorem chH_nonneg : ∀ {t : NodeT α}, HC t → 0 ≤ chH t
  | .nil, _ => le_refl 0
  | .node i d c h l r, hc => by
      obtain ⟨hh, hcl, hcr⟩ := (HC_node i d c h l r).1 hc
      have := chH_nonneg hcl
      have := chH_nonneg hcr
      simp only [chH_node]
      omega

theorem chH_pos_node (i : Nat) (d : α) (c : Nat) (h : Int) (l r : NodeT α)
    (hc : HC (NodeT.node i d c h l r)) : 1 ≤ chH (NodeT.node i d c h l r) := by
  obtain ⟨hh, hcl, hcr⟩ := (HC_node i d c h l r).1 hc
  have := chH_nonneg hcl
  have := chH_nonneg hcr
  simp only [chH_node]
  omega

theorem chH_eq_zero_iff_nil {t : NodeT α} (hc : HC t) : chH t = 0 ↔ t = .nil := by
  cases t with
  | nil => simp
  | node i d c h l r =>
      have := chH_pos_node i d c h l r hc
      simp only [chH_node] at this ⊢
      constructor
      · intro hz
        omega
      · intro hcontr
        exact absurd hcontr (by simp)

theorem rebalanceStep_eq_doubleL (i : Nat) (d : α) (c : Nat) (h : Int) (l r : NodeT α)
    (h1 : chH l - chH r = 2) (h2 : bfOf l = -1) :
    rebalanceStep (NodeT.node i d c h l r) =
      rotateRightT (NodeT.node i d c (max (chH (rotateLeftT l)) (chH r)) (rotateLeftT l) r) := by
  simp only [rebalanceStep]
  rw [if_pos h1, if_pos h2]

theorem rebalanceStep_eq_singleL (i : Nat) (d : α) (c : Nat) (h : Int) (l r : NodeT α)
    (h1 : chH l - chH r = 2) (h2 : ¬bfOf l = -1) :
    rebalanceStep (NodeT.node i d c h l r) =
      rotateRightT (NodeT.node i d c (max (chH l) (chH r)) l r) := by
  simp only [rebalanceStep]
  rw [if_pos h1, if_neg h2]

theorem rebalanceStep_eq_doubleR (i : Nat) (d : α) (c : Nat) (h : Int) (l r : NodeT α)
    (h1 : chH l - chH r = -2) (h2 : bfOf r = 1) :
    rebalanceStep (NodeT.node i d c h l r) =
      rotateLeftT (NodeT.node i d c (max (chH l) (chH (rotateRightT r))) l (rotateRightT r)) := by
  simp only [rebalanceStep]
  rw [if_neg (by omega), if_pos h1, if_pos h2]

theorem rebalanceStep_eq_singleR (i : Nat) (d : α) (c : Nat) (h : Int) (l r : NodeT α)
    (h1 : chH l - chH r = -2) (h2 : ¬bfOf r = 1) :
    rebalanceStep (NodeT.node i d c h l r) =
      rotateLeftT (NodeT.node i d c (max (chH l) (chH r)) l r) := by
  simp only [rebalanceStep]
  rw [if_neg (by omega), if_pos h1, if_neg h2]

theorem rebalanceStep_eq_bal (i : Nat) (d : α) (c : Nat) (h : Int) (l r : NodeT α)
    (h1 : ¬chH l - chH r = 2) (h2 : ¬chH l - chH r = -2) :
    rebalanceStep (NodeT.node i d c h l r) = NodeT.node i d c (max (chH l) (chH r)) l r := by
  simp only [rebalanceStep]
  rw [if_neg h1, if_neg h2]

/-- Main structural property of one rebalancing step: on a cell whose subtrees
are height-correct, balanced, and whose height mismatch is at most 2, the step
produces a height-correct balanced subtree with the same in-order cell list,
and its height contribution is `max (chH l) (chH r)` or that plus one (with
the latter exactly when no rotation fires). -/
theorem rebalanceStep_spec (i : Nat) (d : α) (c : Nat) (h : Int) (l r : NodeT α)
    (hcl : HC l) (hcr : HC r) (hbl : BAL l) (hbr : BAL r)
    (hlo : -2 ≤ chH l - chH r) (hhi : chH l - chH r ≤ 2) :
    HC (rebalanceStep (NodeT.node i d c h l r)) ∧
    BAL (rebalanceStep (NodeT.node i d c h l r)) ∧
    cells (rebalanceStep (NodeT.node i d c h l r)) = cells l ++ (i, d, c) :: cells r ∧
    max (chH l) (chH r) ≤ chH (rebalanceStep (NodeT.node i d c h l r)) ∧
    chH (rebalanceStep (NodeT.node i d c h l r)) ≤ max (chH l) (chH r) + 1 ∧
    (-1 ≤ chH l - chH r → chH l - chH r ≤ 1 →
      chH (rebalanceStep (NodeT.node i d c h l r)) = max (chH l) (chH r) + 1) := by
  have hlnn : 0 ≤ chH l := chH_nonneg hcl
  have hrnn : 0 ≤ chH r := chH_nonneg hcr
  by_cases h2 : chH l - chH r = 2
  · cases l with
    | nil => simp only [chH_nil] at h2; omega
    | node li ld lc lh ll lr =>
        obtain ⟨hlh, hcll, hclr⟩ := (HC_node li ld lc lh ll lr).1 hcl
        obtain ⟨hb1, hb2, hbll, hblr⟩ := (BAL_node li ld lc lh ll lr).1 hbl
        have hlln : 0 ≤ chH ll := chH_nonneg hcll
        have hlrn : 0 ≤ chH lr := chH_nonneg hclr
        have h2n : chH (NodeT.node li ld lc lh ll lr) = lh + 1 := rfl
        by_cases hd : chH ll - chH lr = -1
        · -- left-right zigzag: double rotation
          cases lr with
          | nil => simp only [chH_nil] at hd; omega
          | node mi md mc mh ml mr =>
              obtain ⟨hmh, hcml, hcmr⟩ := (HC_node mi md mc mh ml mr).1 hclr
              obtain ⟨hv1, hv2, hbml, hbmr⟩ := (BAL_node mi md mc mh ml mr).1 hblr
              have hmln : 0 ≤ chH ml := chH_nonneg hcml
              have hmrn : 0 ≤ chH mr := chH_nonneg hcmr
              simp only [chH_node] at hd hb1 hb2 hlh h2
              rw [rebalanceStep_eq_doubleL i d c h _ r (by simp only [chH_node]; omega)
                (by simp only [bfOf, chH_node]; omega)]
              simp only [rotateLeftT, rotateRightT, chH_node]
              refine ⟨?_, ?_, ?_, ?_, ?_, ?_⟩
              · simp only [HC_node, chH_node]
                refine ⟨?_, ⟨?_, hcll, hcml⟩, ⟨?_, hcmr, hcr⟩⟩ <;> first | trivial | omega
              · simp only [BAL_node, chH_node]
                refine ⟨?_, ?_, ⟨?_, ?_, hbll, hbml⟩, ⟨?_, ?_, hbmr, hbr⟩⟩ <;>
                  first | trivial | omega
              · simp [List.append_assoc]
              · omega
              · omega
              · intro hg1 hg2; omega
        · -- single right rotation
          simp only [chH_node] at hb1 hb2 hlh h2
          rw [rebalanceStep_eq_singleL i d c h _ r (by simp only [chH_node]; omega)
            (by simp only [bfOf, chH_node]; omega)]
          simp only [rotateRightT, chH_node]
          refine ⟨?_, ?_, ?_, ?_, ?_, ?_⟩
          · simp only [HC_node, chH_node]
            refine ⟨?_, hcll, ⟨?_, hclr, hcr⟩⟩ <;> first | trivial | omega
          · simp only [BAL_node, chH_node]
            refine ⟨?_, ?_, hbll, ⟨?_, ?_, hblr, hbr⟩⟩ <;> first | trivial | omega
          · simp [List.append_assoc]
          · omega
          · omega
          · intro hg1 hg2; omega
  · by_cases h3 : chH l - chH r = -2
    · cases r with
      | nil => simp only [chH_nil] at h3; omega
      | node ri rd rcc rh rl rr =>
          obtain ⟨hrh, hcrl, hcrr⟩ := (HC_node ri rd rcc rh rl rr).1 hcr
          obtain ⟨hc1, hc2, hbrl, hbrr⟩ := (BAL_node ri rd rcc rh rl rr).1 hbr
          have hrln : 0 ≤ chH rl := chH_nonneg hcrl
          have hrrn : 0 ≤ chH rr := chH_nonneg hcrr
          by_cases hd : chH rl - chH rr = 1
          · -- right-left zigzag: double rotation
            cases rl with
            | nil =>
                simp only [chH_nil] at hd
                omega
            | node mi md mc mh ml mr =>
                obtain ⟨hmh, hcml, hcmr⟩ := (HC_node mi md mc mh ml mr).1 hcrl
                obtain ⟨hv1, hv2, hbml, hbmr⟩ := (BAL_node mi md mc mh ml mr).1 hbrl
                have hmln : 0 ≤ chH ml := chH_nonneg hcml
                have hmrn : 0 ≤ chH mr := chH_nonneg hcmr
                simp only [chH_node] at hd hc1 hc2 hrh h3
                rw [rebalanceStep_eq_doubleR i d c h l _ (by simp only [chH_node]; omega)
                  (by simp only [bfOf, chH_node]; omega)]
                simp only [rotateLeftT, rotateRightT, chH_node]
                refine ⟨?_, ?_, ?_, ?_, ?_, ?_⟩
                · simp only [HC_node, chH_node]
                  refine ⟨?_, ⟨?_, hcl, hcml⟩, ⟨?_, hcmr, hcrr⟩⟩ <;> first | trivial | omega
                · simp only [BAL_node, chH_node]
                  refine ⟨?_, ?_, ⟨?_, ?_, hbl, hbml⟩, ⟨?_, ?_, hbmr, hbrr⟩⟩ <;>
                    first | trivial | omega
                · simp [List.append_assoc]
                · omega
                · omega
                · intro hg1 hg2; omega
          · -- single left rotation
            simp only [chH_node] at hc1 hc2 hrh h3
            rw [rebalanceStep_eq_singleR i d c h l _ (by simp only [chH_node]; omega)
              (by simp only [bfOf, chH_node]; omega)]
            simp only [rotateLeftT, chH_node]
            refine ⟨?_, ?_, ?_, ?_, ?_, ?_⟩
            · simp only [HC_node, chH_node]
              refine ⟨?_, ⟨?_, hcl, hcrl⟩, hcrr⟩ <;> first | trivial | omega
            · simp only [BAL_node, chH_node]
              refine ⟨?_, ?_, ⟨?_, ?_, hbl, hbrl⟩, hbrr⟩ <;> first | trivial | omega
            · simp [List.append_assoc]
            · omega
            · omega
            · intro hg1 hg2; omega
    · -- no rotation: the factor stays within 1
      rw [rebalanceStep_eq_bal i d c h l r h2 h3]
      refine ⟨?_, ?_, ?_, ?_, ?_, ?_⟩
      · exact (HC_node _ _ _ _ _ _).2 ⟨rfl, hcl, hcr⟩
      · exact (BAL_node _ _ _ _ _ _).2 ⟨by omega, by omega, hbl, hbr⟩
      · simp
      · simp only [chH_node]; omega
      · simp only [chH_node]; omega
      · intro hg1 hg2
        simp only [chH_node] <;> omega

/-! ## List-level lemmas about the cell-list effect of the operations -/

theorem insCell_app_le (nid : Nat) (v : α) (A B : List (Nat × α × Nat)) (e : Nat × α × Nat)
    (he : v ≤ e.2.1) : insCell nid v (A ++ e :: B) = insCell nid v A ++ e :: B := by
  induction A with
  | nil => simp [insCell, if_pos he]
  | cons a A ih =>
      by_cases hva : v ≤ a.2.1 <;> simp [insCell, hva, ih]

theorem insCell_app_gt (nid : Nat) (v : α) (A B : List (Nat × α × Nat)) (e : Nat × α × Nat)
    (hA : ∀ x ∈ A, x.2.1 < v) (he : e.2.1 < v) :
    insCell nid v (A ++ e :: B) = A ++ e :: insCell nid v B := by
  induction A with
  | nil => simp [insCell, not_le.2 he]
  | cons a A ih =>
      have ha : a.2.1 < v := hA a (List.mem_cons_self a A)
      simp [insCell, not_le.2 ha, ih fun x hx => hA x (List.mem_cons_of_mem a hx)]

theorem bumpCell_app_ne (v : α) (A B : List (Nat × α × Nat)) (e : Nat × α × Nat)
    (hA : ∀ x ∈ A, ¬x.2.1 = v) (he : e.2.1 = v) :
    bumpCell v (A ++ e :: B) = A ++ (e.1, e.2.1, e.2.2 + 1) :: B := by
  induction A with
  | nil => simp only [List.nil_append, bumpCell, if_pos he.symm]
  | cons a A ih =>
      have ha := hA a (List.mem_cons_self a A)
      have hne : ¬v = a.2.1 := fun h => ha (Eq.symm h)
      simp only [List.cons_append, bumpCell, if_neg hne, List.append_eq]
      rw [ih fun x hx => hA x (List.mem_cons_of_mem a hx)]

theorem bumpCell_app_mem (v : α) (A B : List (Nat × α × Nat))
    (hv : v ∈ A.map fun e => e.2.1) : bumpCell v (A ++ B) = bumpCell v A ++ B := by
  induction A with
  | nil => simp at hv
  | cons a A ih =>
      by_cases hva : v = a.2.1
      · simp [bumpCell, hva]
      · have : v ∈ A.map fun e => e.2.1 := by
          rcases List.mem_map.1 hv with ⟨x, hx, hxe⟩
          rcases List.mem_cons.1 hx with rfl | hx2
          · exact absurd hxe.symm (by simpa using hva)
          · exact List.mem_map.2 ⟨x, hx2, hxe⟩
        simp [bumpCell, hva, ih this]

theorem bumpCell_app_right (v : α) (A B : List (Nat × α × Nat)) (e : Nat × α × Nat)
    (hA : ∀ x ∈ A, ¬x.2.1 = v) (he : ¬e.2.1 = v) :
    bumpCell v (A ++ e :: B) = A ++ e :: bumpCell v B := by
  induction A with
  | nil =>
      simp only [List.nil_append, bumpCell, if_neg fun h => he (Eq.symm h)]
  | cons a A ih =>
      have ha := hA a (List.mem_cons_self a A)
      simp only [List.cons_append, bumpCell, if_neg fun h => ha (Eq.symm h), List.append_eq]
      rw [ih fun x hx => hA x (List.mem_cons_of_mem a hx)]

theorem mem_map21_insCell (nid : Nat) (v x : α) (L : List (Nat × α × Nat)) :
    (x ∈ (insCell nid v L).map fun e => e.2.1) ↔ x = v ∨ x ∈ L.map fun e => e.2.1 := by
  induction L with
  | nil => simp [insCell]
  | cons a A ih =>
      by_cases hva : v ≤ a.2.1
      · simp [insCell, hva]
      · simp [insCell, hva, ih]
        tauto

theorem mem_map1_insCell (nid : Nat) (v : α) (x : Nat) (L : List (Nat × α × Nat)) :
    (x ∈ (insCell nid v L).map fun e => e.1) ↔ x = nid ∨ x ∈ L.map fun e => e.1 := by
  induction L with
  | nil => simp [insCell]
  | cons a A ih =>
      by_cases hva : v ≤ a.2.1
      · simp [insCell, hva]
      · simp [insCell, hva, ih]
        tauto

theorem insCell_pairwise (nid : Nat) (v : α) (L : List (Nat × α × Nat))
    (hs : (L.map fun e => e.2.1).Pairwise (· < ·)) (hv : ¬v ∈ L.map fun e => e.2.1) :
    ((insCell nid v L).map fun e => e.2.1).Pairwise (· < ·) := by
  induction L with
  | nil => simp [insCell]
  | cons a A ih =>
      simp only [List.map_cons, List.pairwise_cons] at hs
      obtain ⟨ha, hA⟩ := hs
      have hvne : ¬v = a.2.1 := fun h => hv (by simp [h])
      have hvA : ¬v ∈ A.map fun e => e.2.1 := fun h => hv (by simp [h])
      by_cases hva : v ≤ a.2.1
      · have hlt : v < a.2.1 := lt_of_le_of_ne hva hvne
        simp only [insCell, if_pos hva, List.map_cons, List.pairwise_cons]
        refine ⟨?_, ha, hA⟩
        intro b hb
        simp only [List.mem_cons] at hb
        rcases hb with rfl | hb
        · exact hlt
        · exact lt_trans hlt (ha b hb)
      · simp only [insCell, if_neg hva, List.map_cons, List.pairwise_cons]
        refine ⟨?_, ih hA hvA⟩
        intro b hb
        rcases (mem_map21_insCell nid v b A).1 hb with rfl | hb
        · exact lt_of_not_le hva
        · exact ha b hb
  

theorem insCell_nodup (nid : Nat) (v : α) (L : List (Nat × α × Nat))
    (hn : (L.map fun e => e.1).Nodup) (hv : ¬nid ∈ L.map fun e => e.1) :
    ((insCell nid v L).map fun e => e.1).Nodup := by
  induction L with
  | nil => simp [insCell]
  | cons a A ih =>
      simp only [List.map_cons, List.nodup_cons] at hn
      obtain ⟨ha, hA⟩ := hn
      have h1 : ¬nid = a.1 := fun h => hv (by simp [h])
      have h2 : ¬nid ∈ A.map fun e => e.1 := fun h => hv (by simp [h])
      by_cases hva : v ≤ a.2.1
      · simp only [insCell, if_pos hva, List.map_cons, List.nodup_cons]
        exact ⟨by simp only [List.mem_cons]; tauto, ha, hA⟩
      · simp only [insCell, if_neg hva, List.map_cons, List.nodup_cons]
        refine ⟨?_, ih hA h2⟩
        intro hmem
        rcases (mem_map1_insCell nid v a.1 A).1 hmem with h | h
        · exact h1 h.symm
        · exact ha h

theorem insCell_cntSum (nid : Nat) (v : α) (L : List (Nat × α × Nat)) :
    ((insCell nid v L).map fun e => e.2.2).sum = (L.map fun e => e.2.2).sum + 1 := by
  induction L with
  | nil => simp [insCell]
  | cons a A ih =>
      by_cases hva : v ≤ a.2.1 <;> simp [insCell, hva, ih] <;> omega

theorem bumpCell_map1 (v : α) (L : List (Nat × α × Nat)) :
    (bumpCell v L).map (fun e => e.1) = L.map fun e => e.1 := by
  induction L with
  | nil => simp [bumpCell]
  | cons a A ih => by_cases hva : v = a.2.1 <;> simp [bumpCell, hva, ih]

theorem bumpCell_map21 (v : α) (L : List (Nat × α × Nat)) :
    (bumpCell v L).map (fun e => e.2.1) = L.map fun e => e.2.1 := by
  induction L with
  | nil => simp [bumpCell]
  | cons a A ih => by_cases hva : v = a.2.1 <;> simp [bumpCell, hva, ih]

theorem bumpCell_cntSum (v : α) (L : List (Nat × α × Nat))
    (hv : v ∈ L.map fun e => e.2.1) :
    ((bumpCell v L).map fun e => e.2.2).sum = (L.map fun e => e.2.2).sum + 1 := by
  induction L with
  | nil => simp at hv
  | cons a A ih =>
      by_cases hva : v = a.2.1
      · simp [bumpCell, hva]
        omega
      · have : v ∈ A.map fun e => e.2.1 := by
          rcases List.mem_map.1 hv with ⟨x, hx, hxe⟩
          rcases List.mem_cons.1 hx with rfl | hx2
          · exact absurd hxe.symm (by simpa using hva)
          · exact List.mem_map.2 ⟨x, hx2, hxe⟩
        simp [bumpCell, hva, ih this]
        omega

theorem bumpCell_cnt_pos (v : α) (L : List (Nat × α × Nat))
    (hp : ∀ e ∈ L, 1 ≤ e.2.2) : ∀ e ∈ bumpCell v L, 1 ≤ e.2.2 := by
  induction L with
  | nil => simp [bumpCell]
  | cons a A ih =>
      by_cases hva : v = a.2.1
      · simp only [bumpCell, if_pos hva]
        intro e he
        rcases List.mem_cons.1 he with rfl | he2
        · simp
        · exact hp e (List.mem_cons_of_mem a he2)
      · simp only [bumpCell, if_neg hva]
        intro e he
        rcases List.mem_cons.1 he with rfl | he2
        · exact hp _ (List.mem_cons_self _ _)
        · exact ih (fun x hx => hp x (List.mem_cons_of_mem _ hx)) e he2

theorem insCell_cnt_pos (nid : Nat) (v : α) (L : List (Nat × α × Nat))
    (hp : ∀ e ∈ L, 1 ≤ e.2.2) : ∀ e ∈ insCell nid v L, 1 ≤ e.2.2 := by
  induction L with
  | nil =>
      intro e he
      simp only [insCell, List.mem_singleton] at he
      simp [he]
  | cons a A ih =>
      by_cases hva : v ≤ a.2.1
      · simp only [insCell, if_pos hva]
        intro e he
        rcases List.mem_cons.1 he with rfl | he2
        · simp
        · exact hp e he2
      · simp only [insCell, if_neg hva]
        intro e he
        rcases List.mem_cons.1 he with rfl | he2
        · exact hp _ (List.mem_cons_self _ _)
        · exact ih (fun x hx => hp x (List.mem_cons_of_mem _ hx)) e he2

/-! ## Specification of the insert descent -/

theorem pairwise_decomp (i : Nat) (d : α) (c : Nat) (h : Int) (l r : NodeT α)
    (hs : (dataList (NodeT.node i d c h l r)).Pairwise (· < ·)) :
    (dataList l).Pairwise (· < ·) ∧ (dataList r).Pairwise (· < ·) ∧
    (∀ x ∈ dataList l, x < d) ∧ (∀ x ∈ dataList r, d < x) := by
  rw [dataList_node, List.pairwise_append] at hs
  obtain ⟨h1, h2, h3⟩ := hs
  rw [List.pairwise_cons] at h2
  exact ⟨h1, h2.2, fun x hx => h3 x hx d (List.mem_cons_self _ _), h2.1⟩

theorem insertAux_spec (nid : Nat) (v : α) :
    ∀ (t t2 : NodeT α) (grew mn mx : Bool),
      insertAux nid v t = (t2, grew, mn, mx) → HC t → BAL t →
      (dataList t).Pairwise (· < ·) →
      HC t2 ∧ BAL t2 ∧ chH t ≤ chH t2 ∧ chH t2 ≤ chH t + 1 ∧
      (grew = true →
        cells t2 = insCell nid v (cells t) ∧ ¬v ∈ dataList t ∧
        (mn = true ↔ ∀ x ∈ dataList t, v < x) ∧ (mx = true ↔ ∀ x ∈ dataList t, x < v)) ∧
      (grew = false → cells t2 = bumpCell v (cells t) ∧ v ∈ dataList t ∧ chH t2 = chH t)
  | .nil, t2, grew, mn, mx, heq, _, _, _ => by
      simp only [insertAux, Prod.mk.injEq] at heq
      obtain ⟨rfl, rfl, rfl, rfl⟩ := heq
      refine ⟨⟨by simp, trivial, trivial⟩, ⟨by simp, by simp, trivial, trivial⟩, ?_, ?_, ?_, ?_⟩
      · simp [chH]
      · simp [chH]
      · intro
        refine ⟨rfl, by simp, by simp, by simp⟩
      · intro hcontr
        simp at hcontr
  | .node i d c h l r, t2, grew, mn, mx, heq, hc, hb, hs => by
      obtain ⟨hh, hcl, hcr⟩ := (HC_node i d c h l r).1 hc
      obtain ⟨hb1, hb2, hbl, hbr⟩ := (BAL_node i d c h l r).1 hb
      obtain ⟨hsl, hsr, hdl, hdr⟩ := pairwise_decomp i d c h l r hs
      by_cases hvd : v = d
      · simp only [insertAux, if_pos hvd, Prod.mk.injEq] at heq
        obtain ⟨rfl, rfl, rfl, rfl⟩ := heq
        refine ⟨⟨hh, hcl, hcr⟩, ⟨hb1, hb2, hbl, hbr⟩, by simp, by simp, ?_, ?_⟩
        · intro hcontr; simp at hcontr
        · intro
          refine ⟨?_, ?_, by simp⟩
          · rw [cells_node, cells_node,
              bumpCell_app_ne v (cells l) (cells r) (i, d, c)
                (fun x hx hxv => absurd (hdl x.2.1 (List.mem_map.2 ⟨x, hx, rfl⟩))
                  (by rw [hxv, hvd]; exact lt_irrefl d)) (by simp [hvd])]
          · rw [dataList_node]
            exact List.mem_append.2 (Or.inr (by simp [hvd]))
      · by_cases hvlt : v < d
        · rcases hl : insertAux nid v l with ⟨l2, grewl, mnl, mxl⟩
          have IH := insertAux_spec nid v l l2 grewl mnl mxl hl hcl hbl hsl
          obtain ⟨ihc, ihb, ihh1, ihh2, ihgt, ihgf⟩ := IH
          cases grewl with
          | true =>
              obtain ⟨hcells, hnotin, hmn, hmx⟩ := ihgt rfl
              simp only [insertAux, if_neg hvd, if_pos hvlt, hl, if_true, Prod.mk.injEq] at heq
              obtain ⟨rfl, rfl, rfl, rfl⟩ := heq
              have hRS := rebalanceStep_spec i d c h l2 r ihc hcr ihb hbr
                (by simp only [chH_node] at *; omega) (by simp only [chH_node] at *; omega)
              obtain ⟨hc2, hbal2, hcells2, hge, hle, hiff⟩ := hRS
              refine ⟨hc2, hbal2, ?_, ?_, ?_, ?_⟩
              · by_cases hw : chH l2 - chH r = 2
                · simp only [chH_node]; omega
                · have := hiff (by omega) (by omega)
                  simp only [chH_node]; omega
              · simp only [chH_node]; omega
              · intro
                refine ⟨?_, ?_, ?_, ?_⟩
                · rw [hcells2, hcells, cells_node,
                    insCell_app_le nid v (cells l) (cells r) (i, d, c) (le_of_lt hvlt)]
                · rw [dataList_node]
                  intro hmem
                  rcases List.mem_append.1 hmem with hx | hx
                  · exact hnotin hx
                  · rcases List.mem_cons.1 hx with rfl | hx
                    · exact hvd rfl
                    · exact lt_asymm hvlt (hdr v hx)
                · constructor
                  · intro hm x hx
                    rw [dataList_node] at hx
                    rcases List.mem_append.1 hx with hx | hx
                    · exact (hmn.1 hm) x hx
                    · rcases List.mem_cons.1 hx with rfl | hx
                      · exact hvlt
                      · exact lt_trans hvlt (hdr x hx)
                  · intro hall
                    exact hmn.2 fun x hx => hall x (by rw [dataList_node]; exact List.mem_append.2 (Or.inl hx))
                · simp only [Bool.false_eq_true, false_iff]
                  intro hall
                  exact lt_asymm hvlt (hall d (by rw [dataList_node]; exact List.mem_append.2 (Or.inr (List.mem_cons_self _ _))))
              · intro hcontr; simp at hcontr
          | false =>
              obtain ⟨hcells, hin, hhl⟩ := ihgf rfl
              simp only [insertAux, if_neg hvd, if_pos hvlt, hl, Bool.false_eq_true, if_false,
                Prod.mk.injEq] at heq
              obtain ⟨rfl, rfl, rfl, rfl⟩ := heq
              refine ⟨⟨by simp only [chH_node] at *; omega, ihc, hcr⟩,
                ⟨by simp only [chH_node] at *; omega, by simp only [chH_node] at *; omega, ihb, hbr⟩,
                by simp, by simp, ?_, ?_⟩
              · intro hcontr; simp at hcontr
              · intro
                refine ⟨?_, ?_, by simp⟩
                · simp only [cells_node]
                  rw [hcells, bumpCell_app_mem v (cells l) _ hin]
                · rw [dataList_node]
                  exact List.mem_append.2 (Or.inl hin)
        · have hdv : d < v := lt_of_le_of_ne (not_lt.1 hvlt) fun hcontr => hvd hcontr.symm
          rcases hr : insertAux nid v r with ⟨r2, grewr, mnr, mxr⟩
          have IH := insertAux_spec nid v r r2 grewr mnr mxr hr hcr hbr hsr
          obtain ⟨ihc, ihb, ihh1, ihh2, ihgt, ihgf⟩ := IH
          cases grewr with
          | true =>
              obtain ⟨hcells, hnotin, hmn, hmx⟩ := ihgt rfl
              simp only [insertAux, if_neg hvd, if_neg hvlt, hr, if_true, Prod.mk.injEq] at heq
              obtain ⟨rfl, rfl, rfl, rfl⟩ := heq
              have hRS := rebalanceStep_spec i d c h l r2 hcl ihc hbl ihb
                (by simp only [chH_node] at *; omega) (by simp only [chH_node] at *; omega)
              obtain ⟨hc2, hbal2, hcells2, hge, hle, hiff⟩ := hRS
              refine ⟨hc2, hbal2, ?_, ?_, ?_, ?_⟩
              · by_cases hw : chH l - chH r2 = -2
                · simp only [chH_node]; omega
                · have := hiff (by omega) (by omega)
                  simp only [chH_node]; omega
              · simp only [chH_node]; omega
              · intro
                refine ⟨?_, ?_, ?_, ?_⟩
                · rw [hcells2, hcells, cells_node,
                    insCell_app_gt nid v (cells l) (cells r) (i, d, c)
                      (fun x hx => lt_trans (hdl x.2.1 (List.mem_map.2 ⟨x, hx, rfl⟩)) hdv) hdv]
                · rw [dataList_node]
                  intro hmem
                  rcases List.mem_append.1 hmem with hx | hx
                  · exact lt_asymm hdv (hdl v hx)
                  · rcases List.mem_cons.1 hx with rfl | hx
                    · exact hvd rfl
                    · exact hnotin hx
                · simp only [Bool.false_eq_true, false_iff]
                  intro hall
                  exact lt_asymm hdv (hall d (by rw [dataList_node]; exact List.mem_append.2 (Or.inr (List.mem_cons_self _ _))))
                · constructor
                  · intro hm x hx
                    rw [dataList_node] at hx
                    rcases List.mem_append.1 hx with hx | hx
                    · exact lt_trans (hdl x hx) hdv
                    · rcases List.mem_cons.1 hx with rfl | hx
                      · exact hdv
                      · exact (hmx.1 hm) x hx
                  · intro hall
                    exact hmx.2 fun x hx => hall x (by rw [dataList_node]; exact List.mem_append.2 (Or.inr (List.mem_cons_of_mem _ hx)))
              · intro hcontr; simp at hcontr
          | false =>
              obtain ⟨hcells, hin, hhr⟩ := ihgf rfl
              simp only [insertAux, if_neg hvd, if_neg hvlt, hr, Bool.false_eq_true, if_false,
                Prod.mk.injEq] at heq
              obtain ⟨rfl, rfl, rfl, rfl⟩ := heq
              refine ⟨⟨by simp only [chH_node] at *; omega, hcl, ihc⟩,
                ⟨by simp only [chH_node] at *; omega, by simp only [chH_node] at *; omega, hbl, ihb⟩,
                by simp, by simp, ?_, ?_⟩
              · intro hcontr; simp at hcontr
              · intro
                refine ⟨?_, ?_, by simp⟩
                · simp only [cells_node]
                  rw [hcells, bumpCell_app_right v (cells l) (cells r) (i, d, c)
                    (fun x hx hxv => lt_asymm hdv (hxv ▸ hdl x.2.1 (List.mem_map.2 ⟨x, hx, rfl⟩)))
                    fun hcontr => hvd hcontr.symm]
                · rw [dataList_node]
                  exact List.mem_append.2 (Or.inr (List.mem_cons_of_mem _ hin))
  

/-! ## Specification of the erase machinery -/

theorem decCell_app_ne (v : α) (A B : List (Nat × α × Nat)) (e : Nat × α × Nat)
    (hA : ∀ x ∈ A, ¬x.2.1 = v) (he : e.2.1 = v) :
    decCell v (A ++ e :: B) = A ++ (e.1, e.2.1, e.2.2 - 1) :: B := by
  induction A with
  | nil => simp only [List.nil_append, decCell, if_pos he.symm]
  | cons a A ih =>
      have ha := hA a (List.mem_cons_self a A)
      simp only [List.cons_append, decCell, if_neg fun h => ha (Eq.symm h), List.append_eq]
      rw [ih fun x hx => hA x (List.mem_cons_of_mem a hx)]

theorem decCell_app_mem (v : α) (A B : List (Nat × α × Nat))
    (hv : v ∈ A.map fun e => e.2.1) : decCell v (A ++ B) = decCell v A ++ B := by
  induction A with
  | nil => simp at hv
  | cons a A ih =>
      by_cases hva : v = a.2.1
      · simp [decCell, hva]
      · have : v ∈ A.map fun e => e.2.1 := by
          rcases List.mem_map.1 hv with ⟨x, hx, hxe⟩
          rcases List.mem_cons.1 hx with rfl | hx2
          · exact absurd hxe.symm (by simpa using hva)
          · exact List.mem_map.2 ⟨x, hx2, hxe⟩
        simp [decCell, hva, ih this]

theorem decCell_app_right (v : α) (A B : List (Nat × α × Nat)) (e : Nat × α × Nat)
    (hA : ∀ x ∈ A, ¬x.2.1 = v) (he : ¬e.2.1 = v) :
    decCell v (A ++ e :: B) = A ++ e :: decCell v B := by
  induction A with
  | nil =>
      simp only [List.nil_append, decCell, if_neg fun h => he (Eq.symm h)]
  | cons a A ih =>
      have ha := hA a (List.mem_cons_self a A)
      simp only [List.cons_append, decCell, if_neg fun h => ha (Eq.symm h), List.append_eq]
      rw [ih fun x hx => hA x (List.mem_cons_of_mem a hx)]

theorem removeMaxCell_spec :
    ∀ (i : Nat) (d : α) (c : Nat) (h : Int) (l r t2 : NodeT α) (pd : α) (pc pi2 : Nat),
      removeMaxCell i d c h l r = (t2, pd, pc, pi2) →
      HC (NodeT.node i d c h l r) → BAL (NodeT.node i d c h l r) →
      cells (NodeT.node i d c h l r) = cells t2 ++ [(pi2, pd, pc)] ∧
      HC t2 ∧ BAL t2 ∧
      chH (NodeT.node i d c h l r) - 1 ≤ chH t2 ∧ chH t2 ≤ chH (NodeT.node i d c h l r)
  | i, d, c, h, l, .nil, t2, pd, pc, pi2, heq, hc, hb => by
      simp only [removeMaxCell, Prod.mk.injEq] at heq
      obtain ⟨rfl, rfl, rfl, rfl⟩ := heq
      obtain ⟨hh, hcl, _⟩ := (HC_node i d c h l .nil).1 hc
      obtain ⟨hb1, hb2, hbl, _⟩ := (BAL_node i d c h l .nil).1 hb
      have := chH_nonneg hcl
      refine ⟨by simp, hcl, hbl, ?_, ?_⟩ <;> simp only [chH_node, chH_nil] at * <;> omega
  | i, d, c, h, l, .node ri rd rcc rh rl rr, t2, pd, pc, pi2, heq, hc, hb => by
      obtain ⟨hh, hcl, hcr⟩ := (HC_node _ _ _ _ _ _).1 hc
      obtain ⟨hb1, hb2, hbl, hbr⟩ := (BAL_node _ _ _ _ _ _).1 hb
      rcases hrec : removeMaxCell ri rd rcc rh rl rr with ⟨r2, pd2, pc2, pj⟩
      have IH := removeMaxCell_spec ri rd rcc rh rl rr r2 pd2 pc2 pj hrec hcr hbr
      obtain ⟨ihcells, ihc, ihb, ihh1, ihh2⟩ := IH
      simp only [removeMaxCell, hrec, Prod.mk.injEq] at heq
      obtain ⟨rfl, rfl, rfl, rfl⟩ := heq
      have hlnn := chH_nonneg hcl
      have hrnn := chH_nonneg ihc
      have hRS := rebalanceStep_spec i d c h l r2 hcl ihc hbl ihb
        (by simp only [chH_node] at *; omega) (by simp only [chH_node] at *; omega)
      obtain ⟨hc2, hbal2, hcells2, hge, hle, hiff⟩ := hRS
      refine ⟨?_, hc2, hbal2, ?_, ?_⟩
      · rw [cells_node, hcells2, ihcells]
        simp [List.append_assoc]
      · by_cases hw : chH l - chH r2 = 2
        · simp only [chH_node] at *; omega
        · have := hiff (by simp only [chH_node] at *; omega) (by simp only [chH_node] at *; omega)
          simp only [chH_node] at *; omega
      · simp only [chH_node] at *; omega

/-- Specification of the erase descent.  In the `removed` case the in-order
cell list of the result is the original list with the cell holding `v` spliced
out; in the two-children case the predecessor cell `ri` is the one that
disappears, its `data` and `counter` having been swapped into the target cell
`ti`. -/
theorem eraseAux_spec (v : α) :
    ∀ (t t2 : NodeT α) (info : EraseInfo),
      eraseAux v t = (t2, info) → HC t → BAL t →
      (dataList t).Pairwise (· < ·) → (∀ e ∈ cells t, 1 ≤ e.2.2) →
      (info = .notFound → t2 = t ∧ ¬v ∈ dataList t) ∧
      (info = .decremented → HC t2 ∧ BAL t2 ∧ chH t2 = chH t ∧
        cells t2 = decCell v (cells t) ∧ v ∈ dataList t ∧ (∀ e ∈ cells t2, 1 ≤ e.2.2)) ∧
      (∀ ti ri, info = .removed ti ri →
        HC t2 ∧ BAL t2 ∧ chH t - 1 ≤ chH t2 ∧ chH t2 ≤ chH t ∧
        (∀ e ∈ cells t2, 1 ≤ e.2.2) ∧
        ∃ X Y, cells t = X ++ (ti, v, 1) :: Y ∧
          ((ri = ti ∧ cells t2 = X ++ Y) ∨
           (∃ X2 pd pc, X = X2 ++ [(ri, pd, pc)] ∧ cells t2 = X2 ++ (ti, pd, pc) :: Y)))
  | .nil, t2, info, heq, _, _, _, _ => by
      simp only [eraseAux, Prod.mk.injEq] at heq
      obtain ⟨rfl, rfl⟩ := heq
      refine ⟨?_, ?_, ?_⟩
      · intro _
        exact ⟨rfl, by simp⟩
      · intro hcontr
        exact absurd hcontr (by simp)
      · intro ti ri hcontr
        exact absurd hcontr (by simp)
  | .node i d c h l r, t2, info, heq, hc, hb, hs, hp => by
      obtain ⟨hh, hcl, hcr⟩ := (HC_node i d c h l r).1 hc
      obtain ⟨hb1, hb2, hbl, hbr⟩ := (BAL_node i d c h l r).1 hb
      obtain ⟨hsl, hsr, hdl, hdr⟩ := pairwise_decomp i d c h l r hs
      have hpl : ∀ e ∈ cells l, 1 ≤ e.2.2 := fun e he =>
        hp e (by rw [cells_node]; exact List.mem_append.2 (Or.inl he))
      have hpr : ∀ e ∈ cells r, 1 ≤ e.2.2 := fun e he =>
        hp e (by rw [cells_node]; exact List.mem_append.2 (Or.inr (List.mem_cons_of_mem _ he)))
      have hpc : 1 ≤ c :=
        hp (i, d, c) (by rw [cells_node]; exact List.mem_append.2 (Or.inr (List.mem_cons_self _ _)))
      by_cases hvd : v = d
      · by_cases hcc : c - 1 > 0
        · -- counter stays positive: no structural change
          simp only [eraseAux, if_pos hvd, if_pos hcc, Prod.mk.injEq] at heq
          obtain ⟨rfl, rfl⟩ := heq
          refine ⟨fun hcontr => absurd hcontr (by simp), fun _ => ?_, fun ti ri hcontr => absurd hcontr (by simp)⟩
          refine ⟨⟨hh, hcl, hcr⟩, ⟨hb1, hb2, hbl, hbr⟩, by simp, ?_, ?_, ?_⟩
          · rw [cells_node, cells_node,
              decCell_app_ne v (cells l) (cells r) (i, d, c)
                (fun x hx hxv => absurd (hdl x.2.1 (List.mem_map.2 ⟨x, hx, rfl⟩))
                  (by rw [hxv, hvd]; exact lt_irrefl d)) (by simp [hvd])]
          · rw [dataList_node]
            exact List.mem_append.2 (Or.inr (by simp [hvd]))
          · intro e he
            rw [cells_node] at he
            rcases List.mem_append.1 he with hx | hx
            · exact hpl e hx
            · rcases List.mem_cons.1 hx with rfl | hx
              · simp only []
                omega
              · exact hpr e hx
        · -- the counter reaches zero: structural removal
          have hc1 : c = 1 := by omega
          cases l with
          | nil =>
              cases r with
              | nil =>
                  simp only [eraseAux, if_pos hvd, if_neg hcc, Prod.mk.injEq] at heq
                  obtain ⟨rfl, rfl⟩ := heq
                  refine ⟨fun hcontr => absurd hcontr (by simp), fun hcontr => absurd hcontr (by simp),
                    fun ti ri hinfo => ?_⟩
                  injection hinfo with h1 h2
                  subst h1; subst h2; subst hc1; subst hvd
                  refine ⟨trivial, trivial, by simp only [chH_node, chH_nil] at *; omega,
                    by simp only [chH_node, chH_nil] at *; omega, by simp, ?_⟩
                  exact ⟨[], [], by simp, Or.inl ⟨rfl, by simp⟩⟩
              | node ri2 rd2 rc2 rh2 rl2 rr2 =>
                  simp only [eraseAux, if_pos hvd, if_neg hcc, Prod.mk.injEq] at heq
                  obtain ⟨rfl, rfl⟩ := heq
                  refine ⟨fun hcontr => absurd hcontr (by simp), fun hcontr => absurd hcontr (by simp),
                    fun ti ri hinfo => ?_⟩
                  injection hinfo with h1 h2
                  subst h1; subst h2; subst hc1; subst hvd
                  have hposr := chH_pos_node ri2 rd2 rc2 rh2 rl2 rr2 hcr
                  refine ⟨hcr, hbr, ?_, ?_, hpr, ?_⟩
                  · first | omega | (simp only [chH_node, chH_nil] at * <;> omega)
                  · first | omega | (simp only [chH_node, chH_nil] at * <;> omega)
                  · exact ⟨[], cells (NodeT.node ri2 rd2 rc2 rh2 rl2 rr2), by simp,
                      Or.inl ⟨rfl, by simp⟩⟩
          | node li ld lc lh ll lr =>
              cases r with
              | nil =>
                  simp only [eraseAux, if_pos hvd, if_neg hcc, Prod.mk.injEq] at heq
                  obtain ⟨rfl, rfl⟩ := heq
                  refine ⟨fun hcontr => absurd hcontr (by simp), fun hcontr => absurd hcontr (by simp),
                    fun ti ri hinfo => ?_⟩
                  injection hinfo with h1 h2
                  subst h1; subst h2; subst hc1; subst hvd
                  have hposl := chH_pos_node li ld lc lh ll lr hcl
                  refine ⟨hcl, hbl, ?_, ?_, hpl, ?_⟩
                  · first | omega | (simp only [chH_node, chH_nil] at * <;> omega)
                  · first | omega | (simp only [chH_node, chH_nil] at * <;> omega)
                  · exact ⟨cells (NodeT.node li ld lc lh ll lr), [], by simp,
                      Or.inl ⟨rfl, by simp⟩⟩
              | node ri2 rd2 rc2 rh2 rl2 rr2 =>
                  rcases hrm : removeMaxCell li ld lc lh ll lr with ⟨l2, pd, pc, pj⟩
                  have hRM := removeMaxCell_spec li ld lc lh ll lr l2 pd pc pj hrm hcl hbl
                  obtain ⟨rmcells, rmhc, rmhb, rmh1, rmh2⟩ := hRM
                  simp only [eraseAux, if_pos hvd, if_neg hcc, hrm, Prod.mk.injEq] at heq
                  obtain ⟨rfl, rfl⟩ := heq
                  refine ⟨fun hcontr => absurd hcontr (by simp), fun hcontr => absurd hcontr (by simp),
                    fun ti ri hinfo => ?_⟩
                  injection hinfo with h1 h2
                  subst h1; subst h2; subst hc1; subst hvd
                  have hposl := chH_pos_node li ld lc lh ll lr hcl
                  have hposr := chH_pos_node ri2 rd2 rc2 rh2 rl2 rr2 hcr
                  have hnnl2 := chH_nonneg rmhc
                  have hRS := rebalanceStep_spec i pd pc h l2 (NodeT.node ri2 rd2 rc2 rh2 rl2 rr2)
                    rmhc hcr rmhb hbr
                    (by first | omega | (simp only [chH_node, chH_nil] at * <;> omega)) (by first | omega | (simp only [chH_node, chH_nil] at * <;> omega))
                  obtain ⟨hc2, hbal2, hcells2, hge, hle, hiff⟩ := hRS
                  refine ⟨hc2, hbal2, ?_, ?_, ?_, ?_⟩
                  · have h3way : chH l2 - chH (NodeT.node ri2 rd2 rc2 rh2 rl2 rr2) ≤ -2 ∨
                        2 ≤ chH l2 - chH (NodeT.node ri2 rd2 rc2 rh2 rl2 rr2) ∨
                        (-1 ≤ chH l2 - chH (NodeT.node ri2 rd2 rc2 rh2 rl2 rr2) ∧
                          chH l2 - chH (NodeT.node ri2 rd2 rc2 rh2 rl2 rr2) ≤ 1) := by omega
                    rcases h3way with hw | hw | ⟨hw1, hw2⟩
                    · first | omega | (simp only [chH_node, chH_nil] at * <;> omega)
                    · first | omega | (simp only [chH_node, chH_nil] at * <;> omega)
                    · have := hiff hw1 hw2
                      first | omega | (simp only [chH_node, chH_nil] at * <;> omega)
                  · first | omega | (simp only [chH_node, chH_nil] at * <;> omega)
                  · intro e he
                    rw [hcells2] at he
                    rcases List.mem_append.1 he with hx | hx
                    · refine hpl e ?_
                      rw [rmcells]
                      exact List.mem_append.2 (Or.inl hx)
                    · rcases List.mem_cons.1 hx with rfl | hx
                      · refine hpl (pj, pd, pc) ?_
                        rw [rmcells]
                        exact List.mem_append.2 (Or.inr (List.mem_cons_self _ _))
                      · exact hpr e hx
                  · refine ⟨cells (NodeT.node li ld lc lh ll lr),
                      cells (NodeT.node ri2 rd2 rc2 rh2 rl2 rr2), by simp,
                      Or.inr ⟨cells l2, pd, pc, rmcells, ?_⟩⟩
                    rw [hcells2]
      · by_cases hvlt : v < d
        · rcases hrecl : eraseAux v l with ⟨l2, infol⟩
          have IH := eraseAux_spec v l l2 infol hrecl hcl hbl hsl hpl
          obtain ⟨ihn, ihd, ihr⟩ := IH
          cases infol with
          | notFound =>
              obtain ⟨rfl, hnotin⟩ := ihn rfl
              simp only [eraseAux, if_neg hvd, if_pos hvlt, hrecl, Prod.mk.injEq] at heq
              obtain ⟨rfl, rfl⟩ := heq
              refine ⟨fun _ => ⟨rfl, ?_⟩, fun hcontr => absurd hcontr (by simp),
                fun ti ri hcontr => absurd hcontr (by simp)⟩
              rw [dataList_node]
              intro hmem
              rcases List.mem_append.1 hmem with hx | hx
              · exact hnotin hx
              · rcases List.mem_cons.1 hx with rfl | hx
                · exact hvd rfl
                · exact lt_asymm hvlt (hdr v hx)
          | decremented =>
              obtain ⟨dhc, dhb, dhh, dcells, dmem, dpos⟩ := ihd rfl
              simp only [eraseAux, if_neg hvd, if_pos hvlt, hrecl, Prod.mk.injEq] at heq
              obtain ⟨rfl, rfl⟩ := heq
              refine ⟨fun hcontr => absurd hcontr (by simp), fun _ => ?_, fun ti ri hcontr => absurd hcontr (by simp)⟩
              refine ⟨?_, ?_, ?_, ?_, ?_, ?_⟩
              · exact (HC_node _ _ _ _ _ _).2
                  ⟨by first | omega | (simp only [chH_node, chH_nil] at * <;> omega), dhc, hcr⟩
              · exact (BAL_node _ _ _ _ _ _).2
                  ⟨by first | omega | (simp only [chH_node, chH_nil] at * <;> omega),
                    by first | omega | (simp only [chH_node, chH_nil] at * <;> omega), dhb, hbr⟩
              · first | omega | (simp only [chH_node, chH_nil] at * <;> omega)
              · simp only [cells_node]
                rw [dcells, decCell_app_mem v (cells l) _ dmem]
              · rw [dataList_node]
                exact List.mem_append.2 (Or.inl dmem)
              · intro e he
                rw [cells_node] at he
                rcases List.mem_append.1 he with hx | hx
                · exact dpos e hx
                · rcases List.mem_cons.1 hx with rfl | hx
                  · exact hpc
                  · exact hpr e hx
          | removed ti0 ri0 =>
              obtain ⟨rhc, rhb, rh1, rh2, rpos, X, Y, hXY, hsplit⟩ := ihr ti0 ri0 rfl
              simp only [eraseAux, if_neg hvd, if_pos hvlt, hrecl, Prod.mk.injEq] at heq
              obtain ⟨rfl, rfl⟩ := heq
              refine ⟨fun hcontr => absurd hcontr (by simp), fun hcontr => absurd hcontr (by simp),
                fun ti ri hinfo => ?_⟩
              injection hinfo with h1 h2
              subst h1; subst h2
              have hRS := rebalanceStep_spec i d c h l2 r rhc hcr rhb hbr
                (by first | omega | (simp only [chH_node, chH_nil] at * <;> omega)) (by first | omega | (simp only [chH_node, chH_nil] at * <;> omega))
              obtain ⟨hc2, hbal2, hcells2, hge, hle, hiff⟩ := hRS
              refine ⟨hc2, hbal2, ?_, ?_, ?_, ?_⟩
              · have h3way : chH l2 - chH r ≤ -2 ∨ 2 ≤ chH l2 - chH r ∨
                    (-1 ≤ chH l2 - chH r ∧ chH l2 - chH r ≤ 1) := by omega
                rcases h3way with hw | hw | ⟨hw1, hw2⟩
                · first | omega | (simp only [chH_node, chH_nil] at * <;> omega)
                · first | omega | (simp only [chH_node, chH_nil] at * <;> omega)
                · have := hiff hw1 hw2
                  first | omega | (simp only [chH_node, chH_nil] at * <;> omega)
              · first | omega | (simp only [chH_node, chH_nil] at * <;> omega)
              · intro e he
                rw [hcells2] at he
                rcases List.mem_append.1 he with hx | hx
                · exact rpos e hx
                · rcases List.mem_cons.1 hx with rfl | hx
                  · exact hpc
                  · exact hpr e hx
              · refine ⟨X, Y ++ (i, d, c) :: cells r, by rw [cells_node, hXY]; simp, ?_⟩
                rcases hsplit with ⟨hri, hA⟩ | ⟨X2, pd, pc, hX2, hA⟩
                · exact Or.inl ⟨hri, by rw [hcells2, hA]; simp⟩
                · exact Or.inr ⟨X2, pd, pc, hX2, by rw [hcells2, hA]; simp⟩
        · have hdv : d < v := lt_of_le_of_ne (not_lt.1 hvlt) fun hcontr => hvd hcontr.symm
          rcases hrecr : eraseAux v r with ⟨r2, infor⟩
          have IH := eraseAux_spec v r r2 infor hrecr hcr hbr hsr hpr
          obtain ⟨ihn, ihd, ihr⟩ := IH
          cases infor with
          | notFound =>
              obtain ⟨rfl, hnotin⟩ := ihn rfl
              simp only [eraseAux, if_neg hvd, if_neg hvlt, hrecr, Prod.mk.injEq] at heq
              obtain ⟨rfl, rfl⟩ := heq
              refine ⟨fun _ => ⟨rfl, ?_⟩, fun hcontr => absurd hcontr (by simp),
                fun ti ri hcontr => absurd hcontr (by simp)⟩
              rw [dataList_node]
              intro hmem
              rcases List.mem_append.1 hmem with hx | hx
              · exact lt_asymm hdv (hdl v hx)
              · rcases List.mem_cons.1 hx with rfl | hx
                · exact hvd rfl
                · exact hnotin hx
          | decremented =>
              obtain ⟨dhc, dhb, dhh, dcells, dmem, dpos⟩ := ihd rfl
              simp only [eraseAux, if_neg hvd, if_neg hvlt, hrecr, Prod.mk.injEq] at heq
              obtain ⟨rfl, rfl⟩ := heq
              refine ⟨fun hcontr => absurd hcontr (by simp), fun _ => ?_, fun ti ri hcontr => absurd hcontr (by simp)⟩
              refine ⟨?_, ?_, ?_, ?_, ?_, ?_⟩
              · exact (HC_node _ _ _ _ _ _).2
                  ⟨by first | omega | (simp only [chH_node, chH_nil] at * <;> omega), hcl, dhc⟩
              · exact (BAL_node _ _ _ _ _ _).2
                  ⟨by first | omega | (simp only [chH_node, chH_nil] at * <;> omega),
                    by first | omega | (simp only [chH_node, chH_nil] at * <;> omega), hbl, dhb⟩
              · first | omega | (simp only [chH_node, chH_nil] at * <;> omega)
              · simp only [cells_node]
                rw [dcells, decCell_app_right v (cells l) (cells r) (i, d, c)
                  (fun x hx hxv => lt_asymm hdv (hxv ▸ hdl x.2.1 (List.mem_map.2 ⟨x, hx, rfl⟩)))
                  fun hcontr => hvd hcontr.symm]
              · rw [dataList_node]
                exact List.mem_append.2 (Or.inr (List.mem_cons_of_mem _ dmem))
              · intro e he
                rw [cells_node] at he
                rcases List.mem_append.1 he with hx | hx
                · exact hpl e hx
                · rcases List.mem_cons.1 hx with rfl | hx
                  · exact hpc
                  · exact dpos e hx
          | removed ti0 ri0 =>
              obtain ⟨rhc, rhb, rh1, rh2, rpos, X, Y, hXY, hsplit⟩ := ihr ti0 ri0 rfl
              simp only [eraseAux, if_neg hvd, if_neg hvlt, hrecr, Prod.mk.injEq] at heq
              obtain ⟨rfl, rfl⟩ := heq
              refine ⟨fun hcontr => absurd hcontr (by simp), fun hcontr => absurd hcontr (by simp),
                fun ti ri hinfo => ?_⟩
              injection hinfo with h1 h2
              subst h1; subst h2
              have hRS := rebalanceStep_spec i d c h l r2 hcl rhc hbl rhb
                (by first | omega | (simp only [chH_node, chH_nil] at * <;> omega)) (by first | omega | (simp only [chH_node, chH_nil] at * <;> omega))
              obtain ⟨hc2, hbal2, hcells2, hge, hle, hiff⟩ := hRS
              refine ⟨hc2, hbal2, ?_, ?_, ?_, ?_⟩
              · have h3way : chH l - chH r2 ≤ -2 ∨ 2 ≤ chH l - chH r2 ∨
                    (-1 ≤ chH l - chH r2 ∧ chH l - chH r2 ≤ 1) := by omega
                rcases h3way with hw | hw | ⟨hw1, hw2⟩
                · first | omega | (simp only [chH_node, chH_nil] at * <;> omega)
                · first | omega | (simp only [chH_node, chH_nil] at * <;> omega)
                · have := hiff hw1 hw2
                  first | omega | (simp only [chH_node, chH_nil] at * <;> omega)
              · first | omega | (simp only [chH_node, chH_nil] at * <;> omega)
              · intro e he
                rw [hcells2] at he
                rcases List.mem_append.1 he with hx | hx
                · exact hpl e hx
                · rcases List.mem_cons.1 hx with rfl | hx
                  · exact hpc
                  · exact rpos e hx
              · refine ⟨cells l ++ (i, d, c) :: X, Y, by rw [cells_node, hXY]; simp, ?_⟩
                rcases hsplit with ⟨hri, hA⟩ | ⟨X2, pd, pc, hX2, hA⟩
                · exact Or.inl ⟨hri, by rw [hcells2, hA]; simp⟩
                · refine Or.inr ⟨cells l ++ (i, d, c) :: X2, pd, pc, by rw [hX2]; simp, ?_⟩
                  rw [hcells2, hA]
                  simp

/-! ## Cache and id lemmas -/

theorem decCell_map1 (v : α) (L : List (Nat × α × Nat)) :
    (decCell v L).map (fun e => e.1) = L.map fun e => e.1 := by
  induction L with
  | nil => simp [decCell]
  | cons a A ih => by_cases hva : v = a.2.1 <;> simp [decCell, hva, ih]

theorem decCell_map21 (v : α) (L : List (Nat × α × Nat)) :
    (decCell v L).map (fun e => e.2.1) = L.map fun e => e.2.1 := by
  induction L with
  | nil => simp [decCell]
  | cons a A ih => by_cases hva : v = a.2.1 <;> simp [decCell, hva, ih]

theorem decCell_cntSum (v : α) (L : List (Nat × α × Nat))
    (hv : v ∈ L.map fun e => e.2.1) (hp : ∀ e ∈ L, 1 ≤ e.2.2) :
    ((decCell v L).map fun e => e.2.2).sum = (L.map fun e => e.2.2).sum - 1 := by
  induction L with
  | nil => simp at hv
  | cons a A ih =>
      by_cases hva : v = a.2.1
      · have := hp a (List.mem_cons_self a A)
        simp [decCell, hva]
        omega
      · have hvA : v ∈ A.map fun e => e.2.1 := by
          rcases List.mem_map.1 hv with ⟨x, hx, hxe⟩
          rcases List.mem_cons.1 hx with rfl | hx2
          · exact absurd hxe.symm (by simpa using hva)
          · exact List.mem_map.2 ⟨x, hx2, hxe⟩
        have hsum : 1 ≤ (A.map fun e => e.2.2).sum := by
          rcases List.mem_map.1 hvA with ⟨x, hx, _⟩
          calc 1 ≤ x.2.2 := hp x (List.mem_cons_of_mem a hx)
          _ ≤ (A.map fun e => e.2.2).sum := List.single_le_sum (by simp) _ (List.mem_map.2 ⟨x, hx, rfl⟩)
        simp [decCell, hva, ih hvA fun x hx => hp x (List.mem_cons_of_mem a hx)]
        omega

theorem cells_ne_nil (i : Nat) (d : α) (c : Nat) (h : Int) (l r : NodeT α) :
    cells (NodeT.node i d c h l r) ≠ [] := by simp

theorem head?_append_left {β : Type} (A B : List β) (h : A ≠ []) :
    (A ++ B).head? = A.head? := List.head?_append_of_ne_nil A h

theorem getLast?_append_right {β : Type} (A B : List β) (h : B ≠ []) :
    (A ++ B).getLast? = B.getLast? := by
  rw [List.getLast?_append]
  cases B with
  | nil => exact absurd rfl h
  | cons b B =>
      rw [List.getLast?_eq_getLast (b :: B) (by simp)]
      rfl

theorem leftmostId_eq (t : NodeT α) :
    MultiAVL.leftmostId t = ((cells t).head?).map fun e => e.1 := by
  induction t with
  | nil => rfl
  | node i d c h l r ihl ihr =>
      cases l with
      | nil => simp [MultiAVL.leftmostId]
      | node li ld lc lh ll lr =>
          have h1 : MultiAVL.leftmostId (NodeT.node i d c h (NodeT.node li ld lc lh ll lr) r)
              = MultiAVL.leftmostId (NodeT.node li ld lc lh ll lr) := rfl
          rw [h1, ihl]
          conv_rhs => rw [cells_node i d c h (NodeT.node li ld lc lh ll lr) r]
          rw [head?_append_left _ _ (cells_ne_nil li ld lc lh ll lr)]

theorem rightmostId_eq (t : NodeT α) :
    MultiAVL.rightmostId t = ((cells t).getLast?).map fun e => e.1 := by
  induction t with
  | nil => rfl
  | node i d c h l r ihl ihr =>
      cases r with
      | nil =>
          have h1 : MultiAVL.rightmostId (NodeT.node i d c h l .nil) = some i := rfl
          rw [h1]
          conv_rhs => rw [cells_node i d c h l .nil]
          rw [getLast?_append_right _ _ (by simp)]
          rfl
      | node ri rd rcc rh rl rr =>
          have h1 : MultiAVL.rightmostId (NodeT.node i d c h l (NodeT.node ri rd rcc rh rl rr))
              = MultiAVL.rightmostId (NodeT.node ri rd rcc rh rl rr) := rfl
          rw [h1, ihr]
          conv_rhs => rw [cells_node i d c h l (NodeT.node ri rd rcc rh rl rr)]
          rw [getLast?_append_right _ _ (by simp),
            show ((i, d, c) :: cells (NodeT.node ri rd rcc rh rl rr))
              = [(i, d, c)] ++ cells (NodeT.node ri rd rcc rh rl rr) from rfl,
            getLast?_append_right _ _ (cells_ne_nil ri rd rcc rh rl rr)]

theorem containsId_iff_mem (tid : Nat) (t : NodeT α) :
    containsId tid t = true ↔ tid ∈ idList t := by
  induction t with
  | nil => simp [containsId, idList]
  | node i d c h l r ihl ihr =>
      simp only [containsId, idList_node, Bool.or_eq_true, decide_eq_true_eq, List.mem_append,
        List.mem_cons, ihl, ihr]
      tauto

theorem insCell_ne_nil (nid : Nat) (v : α) (L : List (Nat × α × Nat)) :
    insCell nid v L ≠ [] := by
  cases L with
  | nil => simp [insCell]
  | cons a A =>
      by_cases hva : v ≤ a.2.1 <;> simp [insCell, hva]

theorem getLast?_cons_of_ne_nil {β : Type} (e : β) (B : List β) (h : B ≠ []) :
    (e :: B).getLast? = B.getLast? :=
  getLast?_append_right [e] B h

theorem insCell_eq_cons (nid : Nat) (v : α) (L : List (Nat × α × Nat))
    (hall : ∀ x ∈ L.map fun e => e.2.1, v < x) : insCell nid v L = (nid, v, 1) :: L := by
  cases L with
  | nil => rfl
  | cons a A =>
      have := hall a.2.1 (by simp)
      simp [insCell, le_of_lt this]

theorem insCell_eq_append (nid : Nat) (v : α) (L : List (Nat × α × Nat))
    (hall : ∀ x ∈ L.map fun e => e.2.1, x < v) : insCell nid v L = L ++ [(nid, v, 1)] := by
  induction L with
  | nil => rfl
  | cons a A ih =>
      have ha := hall a.2.1 (by simp)
      simp only [insCell, if_neg (not_le.2 ha), List.cons_append]
      rw [ih fun x hx => hall x (by simp [hx])]

theorem insCell_getLast_of_gt (nid : Nat) (v : α) (L : List (Nat × α × Nat)) (x : α)
    (hs : (L.map fun e => e.2.1).Pairwise (· < ·))
    (hx : x ∈ L.map fun e => e.2.1) (hvx : v < x) :
    (insCell nid v L).getLast? = L.getLast? := by
  induction L with
  | nil => simp at hx
  | cons a A ih =>
      simp only [List.map_cons, List.pairwise_cons] at hs
      by_cases hva : v ≤ a.2.1
      · rw [show insCell nid v (a :: A) = (nid, v, 1) :: a :: A by simp [insCell, hva]]
        exact getLast?_cons_of_ne_nil _ _ (by simp)
      · have hax : x ∈ A.map fun e => e.2.1 := by
          rcases List.mem_cons.1 hx with rfl | hx2
          · exact absurd (le_of_lt hvx) hva
          · exact hx2
        rw [show insCell nid v (a :: A) = a :: insCell nid v A by simp [insCell, hva],
          getLast?_cons_of_ne_nil _ _ (insCell_ne_nil nid v A), ih hs.2 hax,
          getLast?_cons_of_ne_nil _ _ (by rintro rfl; simp at hax)]

theorem insCell_head_of_lt (nid : Nat) (v : α) (L : List (Nat × α × Nat)) (x : α)
    (hs : (L.map fun e => e.2.1).Pairwise (· < ·))
    (hx : x ∈ L.map fun e => e.2.1) (hvx : x < v) :
    (insCell nid v L).head? = L.head? := by
  cases L with
  | nil => simp at hx
  | cons a A =>
      simp only [List.map_cons, List.pairwise_cons] at hs
      have hav : a.2.1 < v := by
        rcases List.mem_cons.1 hx with rfl | hx2
        · exact hvx
        · exact lt_trans (hs.1 x hx2) hvx
      simp [insCell, not_le.2 hav]

/-- The `insert` operation preserves the working invariant. -/
theorem insert_WF (t : MultiAVL α) (v : α) (h : WF t) : WF (t.insert v) := by
  obtain ⟨hs, hhc, hbal, hpos, hnodup, hfresh, hsize, hmin, hmax⟩ := h
  have hs2 : ((cells t.root).map fun e => e.2.1).Pairwise (· < ·) := hs
  rcases heq : insertAux t.nextId v t.root with ⟨root2, grew, mn, mx⟩
  have spec := insertAux_spec t.nextId v t.root root2 grew mn mx heq hhc hbal hs
  obtain ⟨shc, sbal, sh1, sh2, sgt, sgf⟩ := spec
  cases grew with
  | true =>
      obtain ⟨scells, snotin, smn, smx⟩ := sgt rfl
      have hnotin2 : ¬v ∈ (cells t.root).map fun e => e.2.1 := snotin
      have hnid : ¬t.nextId ∈ (cells t.root).map fun e => e.1 := fun hmem =>
        absurd (hfresh t.nextId hmem) (lt_irrefl t.nextId)
      simp only [MultiAVL.insert, heq, if_true]
      refine ⟨?_, shc, sbal, ?_, ?_, ?_, ?_, ?_, ?_⟩
      · show ((cells root2).map fun e => e.2.1).Pairwise (· < ·)
        rw [scells]
        exact insCell_pairwise t.nextId v (cells t.root) hs2 hnotin2
      · intro e he
        rw [scells] at he
        exact insCell_cnt_pos t.nextId v (cells t.root) hpos e he
      · show ((cells root2).map fun e => e.1).Nodup
        rw [scells]
        exact insCell_nodup t.nextId v (cells t.root) hnodup hnid
      · intro j hj
        show j < t.nextId + 1
        have hj2 : j ∈ (cells root2).map fun e => e.1 := hj
        rw [scells] at hj2
        rcases (mem_map1_insCell t.nextId v j (cells t.root)).1 hj2 with rfl | hj3
        · omega
        · exact lt_trans (hfresh j hj3) (by omega)
      · show t.size + 1 = sumCnt root2
        have hr : sumCnt root2 = ((insCell t.nextId v (cells t.root)).map fun e => e.2.2).sum := by
          show ((cells root2).map fun e => e.2.2).sum = _
          rw [scells]
        rw [hr, insCell_cntSum, hsize]
        rfl
      · show (if mn = true then some t.nextId else t.minNode) = MultiAVL.leftmostId root2
        rw [leftmostId_eq, scells]
        cases mn with
        | true =>
            rw [insCell_eq_cons t.nextId v (cells t.root) fun x hx => (smn.1 rfl) x hx]
            simp
        | false =>
            have hnall : ¬∀ x ∈ dataList t.root, v < x := fun hall => by
              have := smn.2 hall
              simp at this
            push_neg at hnall
            obtain ⟨x, hx, hxv⟩ := hnall
            have hxlt : x < v := lt_of_le_of_ne hxv fun hcontr => snotin (hcontr ▸ hx)
            rw [insCell_head_of_lt t.nextId v (cells t.root) x hs2 hx hxlt, ← leftmostId_eq]
            simpa using hmin
      · show (if mx = true then some t.nextId else t.maxNode) = MultiAVL.rightmostId root2
        rw [rightmostId_eq, scells]
        cases mx with
        | true =>
            rw [insCell_eq_append t.nextId v (cells t.root) fun x hx => (smx.1 rfl) x hx,
              getLast?_append_right _ _ (by simp)]
            simp
        | false =>
            have hnall : ¬∀ x ∈ dataList t.root, x < v := fun hall => by
              have := smx.2 hall
              simp at this
            push_neg at hnall
            obtain ⟨x, hx, hxv⟩ := hnall
            have hxgt : v < x := lt_of_le_of_ne hxv fun hcontr => snotin (hcontr.symm ▸ hx)
            rw [insCell_getLast_of_gt t.nextId v (cells t.root) x hs2 hx hxgt, ← rightmostId_eq]
            simpa using hmax
  | false =>
      obtain ⟨scells, sin, shh⟩ := sgf rfl
      have sin2 : v ∈ (cells t.root).map fun e => e.2.1 := sin
      simp only [MultiAVL.insert, heq, Bool.false_eq_true, if_false]
      refine ⟨?_, shc, sbal, ?_, ?_, ?_, ?_, ?_, ?_⟩
      · show ((cells root2).map fun e => e.2.1).Pairwise (· < ·)
        rw [scells, bumpCell_map21]
        exact hs2
      · intro e he
        rw [scells] at he
        exact bumpCell_cnt_pos v (cells t.root) hpos e he
      · show ((cells root2).map fun e => e.1).Nodup
        rw [scells, bumpCell_map1]
        exact hnodup
      · intro j hj
        have hj2 : j ∈ (cells root2).map fun e => e.1 := hj
        rw [scells, bumpCell_map1] at hj2
        exact hfresh j hj2
      · show t.size + 1 = sumCnt root2
        have hr : sumCnt root2 = ((bumpCell v (cells t.root)).map fun e => e.2.2).sum := by
          show ((cells root2).map fun e => e.2.2).sum = _
          rw [scells]
        rw [hr, bumpCell_cntSum v (cells t.root) sin2, hsize]
        rfl
      · show t.minNode = MultiAVL.leftmostId root2
        rw [leftmostId_eq, scells, ← List.head?_map, bumpCell_map1, List.head?_map,
          ← leftmostId_eq]
        exact hmin
      · show t.maxNode = MultiAVL.rightmostId root2
        rw [rightmostId_eq, scells, ← List.getLast?_map, bumpCell_map1, List.getLast?_map,
          ← rightmostId_eq]
        exact hmax

/-- Consuming the erase-descent specification: the bookkeeping performed by the
tail of `erase_node` (size decrement, extrema cache recomputation) restores the
working invariant. -/
theorem applyErase_WF (t : MultiAVL α) (v : α) (root2 : NodeT α) (info : EraseInfo)
    (h : WF t)
    (hd : info = .decremented → HC root2 ∧ BAL root2 ∧ chH root2 = chH t.root ∧
      cells root2 = decCell v (cells t.root) ∧ v ∈ dataList t.root ∧
      (∀ e ∈ cells root2, 1 ≤ e.2.2))
    (hr : ∀ ti ri, info = .removed ti ri →
      HC root2 ∧ BAL root2 ∧ chH t.root - 1 ≤ chH root2 ∧ chH root2 ≤ chH t.root ∧
      (∀ e ∈ cells root2, 1 ≤ e.2.2) ∧
      ∃ X Y, cells t.root = X ++ (ti, v, 1) :: Y ∧
        ((ri = ti ∧ cells root2 = X ++ Y) ∨
         (∃ X2 pd pc, X = X2 ++ [(ri, pd, pc)] ∧ cells root2 = X2 ++ (ti, pd, pc) :: Y))) :
    WF (applyErase t (root2, info)) := by
  obtain ⟨hs, hhc, hbal, hpos, hnodup, hfresh, hsize, hmin, hmax⟩ := h
  have hs2 : ((cells t.root).map fun e => e.2.1).Pairwise (· < ·) := hs
  have hnodup2 : ((cells t.root).map fun e => e.1).Nodup := hnodup
  cases info with
  | notFound =>
      exact ⟨hs, hhc, hbal, hpos, hnodup, hfresh, hsize, hmin, hmax⟩
  | decremented =>
      obtain ⟨dhc, dbal, dhh, dcells, dmem, dpos⟩ := hd rfl
      have dmem2 : v ∈ (cells t.root).map fun e => e.2.1 := dmem
      refine ⟨?_, dhc, dbal, dpos, ?_, ?_, ?_, ?_, ?_⟩
      · show ((cells root2).map fun e => e.2.1).Pairwise (· < ·)
        rw [dcells, decCell_map21]
        exact hs2
      · show ((cells root2).map fun e => e.1).Nodup
        rw [dcells, decCell_map1]
        exact hnodup2
      · intro j hj
        have hj2 : j ∈ (cells root2).map fun e => e.1 := hj
        rw [dcells, decCell_map1] at hj2
        exact hfresh j hj2
      · show t.size - 1 = sumCnt root2
        have hr2 : sumCnt root2 = ((decCell v (cells t.root)).map fun e => e.2.2).sum := by
          show ((cells root2).map fun e => e.2.2).sum = _
          rw [dcells]
        rw [hr2, decCell_cntSum v (cells t.root) dmem2 hpos, hsize]
        rfl
      · show t.minNode = MultiAVL.leftmostId root2
        rw [leftmostId_eq, dcells, ← List.head?_map, decCell_map1, List.head?_map,
          ← leftmostId_eq]
        exact hmin
      · show t.maxNode = MultiAVL.rightmostId root2
        rw [rightmostId_eq, dcells, ← List.getLast?_map, decCell_map1, List.getLast?_map,
          ← rightmostId_eq]
        exact hmax
  | removed ti ri =>
      obtain ⟨rhc, rbal, rh1, rh2, rpos, X, Y, hXY, hsplit⟩ := hr ti ri rfl
      have hsubData : ((cells root2).map fun e => e.2.1).Sublist
          ((cells t.root).map fun e => e.2.1) := by
        rcases hsplit with ⟨hri, hA⟩ | ⟨X2, pd, pc, hX2, hA⟩
        · rw [hA, hXY]
          simp only [List.map_append, List.map_cons]
          exact List.Sublist.append_left (List.sublist_cons_self _ _) _
        · rw [hA, hXY, hX2]
          simp only [List.map_append, List.map_cons, List.append_assoc, List.singleton_append,
            List.map_nil]
          exact List.Sublist.append_left (List.Sublist.cons₂ _ (List.sublist_cons_self _ _)) _
      have hsubId : ((cells root2).map fun e => e.1).Sublist
          ((cells t.root).map fun e => e.1) := by
        rcases hsplit with ⟨hri, hA⟩ | ⟨X2, pd, pc, hX2, hA⟩
        · rw [hA, hXY]
          simp only [List.map_append, List.map_cons]
          exact List.Sublist.append_left (List.sublist_cons_self _ _) _
        · rw [hA, hXY, hX2]
          simp only [List.map_append, List.map_cons, List.append_assoc, List.singleton_append,
            List.map_nil]
          exact List.Sublist.append_left (List.sublist_cons_self _ _) _
      refine ⟨?_, rhc, rbal, rpos, ?_, ?_, ?_, ?_, ?_⟩
      · exact hs2.sublist hsubData
      · exact hnodup2.sublist hsubId
      · intro j hj
        exact hfresh j (hsubId.subset hj)
      · show t.size - 1 = sumCnt root2
        have h1 : sumCnt t.root
            = (X.map fun e => e.2.2).sum + (1 + (Y.map fun e => e.2.2).sum) := by
          show ((cells t.root).map fun e => e.2.2).sum = _
          rw [hXY]
          simp [List.map_append, List.sum_append]
        rcases hsplit with ⟨hri, hA⟩ | ⟨X2, pd, pc, hX2, hA⟩
        · have h2 : sumCnt root2 = (X.map fun e => e.2.2).sum + (Y.map fun e => e.2.2).sum := by
            show ((cells root2).map fun e => e.2.2).sum = _
            rw [hA]
            simp [List.map_append, List.sum_append]
          rw [hsize, h1, h2]
          omega
        · have h2 : sumCnt root2
              = (X2.map fun e => e.2.2).sum + (pc + (Y.map fun e => e.2.2).sum) := by
            show ((cells root2).map fun e => e.2.2).sum = _
            rw [hA]
            simp [List.map_append, List.sum_append]
          have h3 : (X.map fun e => e.2.2).sum = (X2.map fun e => e.2.2).sum + pc := by
            rw [hX2]
            simp [List.map_append, List.sum_append]
          rw [hsize, h1, h2, h3]
          omega
      · show (if t.minNode = some ti ∨ t.minNode = some ri then MultiAVL.leftmostId root2
            else t.minNode) = MultiAVL.leftmostId root2
        by_cases hflag : t.minNode = some ti ∨ t.minNode = some ri
        · rw [if_pos hflag]
        · rw [if_neg hflag]
          push_neg at hflag
          obtain ⟨hne1, hne2⟩ := hflag
          rcases hsplit with ⟨hri, hA⟩ | ⟨X2, pd, pc, hX2, hA⟩
          · cases X with
            | nil =>
                exfalso
                refine hne1 ?_
                rw [hmin, leftmostId_eq, hXY]
                simp
            | cons x X0 =>
                rw [hmin, leftmostId_eq, leftmostId_eq, hXY, hA]
                simp
          · cases X2 with
            | nil =>
                exfalso
                refine hne2 ?_
                rw [hmin, leftmostId_eq, hXY, hX2]
                simp
            | cons x X0 =>
                rw [hmin, leftmostId_eq, leftmostId_eq, hXY, hA, hX2]
                simp
      · show (if t.maxNode = some ti ∨ t.maxNode = some ri then MultiAVL.rightmostId root2
            else t.maxNode) = MultiAVL.rightmostId root2
        by_cases hflag : t.maxNode = some ti ∨ t.maxNode = some ri
        · rw [if_pos hflag]
        · rw [if_neg hflag]
          push_neg at hflag
          obtain ⟨hne1, hne2⟩ := hflag
          rcases hsplit with ⟨hri, hA⟩ | ⟨X2, pd, pc, hX2, hA⟩
          · cases Y with
            | nil =>
                exfalso
                refine hne1 ?_
                rw [hmax, rightmostId_eq, hXY, getLast?_append_right _ _ (by simp)]
                simp
            | cons y Y0 =>
                rw [hmax, rightmostId_eq, rightmostId_eq, hXY, hA,
                  getLast?_append_right _ _ (by simp), getLast?_append_right _ _ (by simp),
                  getLast?_cons_of_ne_nil _ _ (by simp)]
          · cases Y with
            | nil =>
                exfalso
                refine hne1 ?_
                rw [hmax, rightmostId_eq, hXY, getLast?_append_right _ _ (by simp)]
                simp
            | cons y Y0 =>
                rw [hmax, rightmostId_eq, rightmostId_eq, hXY, hA]
                conv_lhs => rw [getLast?_append_right _ _ (by simp),
                  getLast?_cons_of_ne_nil _ _ (by simp)]
                conv_rhs => rw [getLast?_append_right _ _ (by simp),
                  getLast?_cons_of_ne_nil _ _ (by simp)]

/-- `MultiAVL::erase` preserves the working invariant. -/
theorem erase_WF (t : MultiAVL α) (v : α) (h : WF t) : WF (t.erase v) := by
  obtain ⟨root2, info, heq⟩ : ∃ r i, eraseAux v t.root = (r, i) := ⟨_, _, rfl⟩
  obtain ⟨hs, hhc, hbal, hpos, hnodup, hfresh, hsize, hmin, hmax⟩ := h
  obtain ⟨hn, hd, hr⟩ := eraseAux_spec v t.root root2 info heq hhc hbal hs hpos
  show WF (applyErase t (eraseAux v t.root))
  rw [heq]
  exact applyErase_WF t v root2 info
    ⟨hs, hhc, hbal, hpos, hnodup, hfresh, hsize, hmin, hmax⟩ hd hr

/-- When the iterator's target id is not in the tree (the weak reference fails
to upgrade into the structure), the id-guided erase descent finds nothing and
changes nothing. -/
theorem eraseIdAux_notFound (tid : Nat) :
    ∀ t : NodeT α, containsId tid t = false → eraseIdAux tid t = (t, .notFound)
  | .nil, _ => rfl
  | .node i d c h l r, hc => by
      simp only [containsId, Bool.or_eq_false_iff, decide_eq_false_iff_not] at hc
      obtain ⟨⟨hi, hl⟩, hr⟩ := hc
      simp only [eraseIdAux]
      rw [if_neg hi, if_neg (by simp [hl]), if_neg (by simp [hr])]

/-- On a search tree with sorted in-order data, the id-guided erase descent of
`erase_iter` coincides with the value-guided descent of `erase` at the data
value stored in the target cell. -/
theorem eraseIdAux_eq (tid : Nat) :
    ∀ t : NodeT α, (dataList t).Pairwise (· < ·) → containsId tid t = true →
      ∃ dv, dv ∈ dataList t ∧ eraseIdAux tid t = eraseAux dv t
  | .nil, _, hc => by simp [containsId] at hc
  | .node i d c h l r, hs, hc => by
      obtain ⟨hsl, hsr, hdl, hdr⟩ := pairwise_decomp i d c h l r hs
      by_cases hi : i = tid
      · refine ⟨d, ?_, ?_⟩
        · simp [dataList_node]
        · simp only [eraseIdAux, eraseAux]
          rw [if_pos hi, if_pos trivial]
      · by_cases hcl : containsId tid l = true
        · obtain ⟨dv, hdv, hrec⟩ := eraseIdAux_eq tid l hsl hcl
          have hlt : dv < d := hdl dv hdv
          obtain ⟨l2, info, heq⟩ : ∃ a b, eraseAux dv l = (a, b) := ⟨_, _, rfl⟩
          refine ⟨dv, ?_, ?_⟩
          · simp [dataList_node, hdv]
          · simp only [eraseIdAux, eraseAux]
            rw [if_neg hi, if_pos hcl, if_neg (ne_of_lt hlt), if_pos hlt, hrec, heq]
        · have hcr : containsId tid r = true := by
            simp only [containsId, Bool.or_eq_true, decide_eq_true_eq] at hc
            rcases hc with (hc | hc) | hc
            · exact absurd hc hi
            · exact absurd hc hcl
            · exact hc
          obtain ⟨dv, hdv, hrec⟩ := eraseIdAux_eq tid r hsr hcr
          have hgt : d < dv := hdr dv hdv
          obtain ⟨r2, info, heq⟩ : ∃ a b, eraseAux dv r = (a, b) := ⟨_, _, rfl⟩
          refine ⟨dv, ?_, ?_⟩
          · simp [dataList_node, hdv]
          · simp only [eraseIdAux, eraseAux]
            rw [if_neg hi, if_neg (by simp [hcl]), if_pos hcr, if_neg (ne_of_gt hgt),
              if_neg (not_lt.2 (le_of_lt hgt)), hrec, heq]

/-- `MultiAVL::erase_iter` preserves the working invariant: it is either a
no-op (dangling or exhausted iterator) or coincides with an `erase` of the
value held in the iterator's cell. -/
theorem eraseIter_WF (t : MultiAVL α) (it : MIter) (h : WF t) : WF (t.eraseIter it) := by
  cases hnow : it.now with
  | none =>
      simp only [eraseIter, hnow]
      exact h
  | some tid =>
      simp only [eraseIter, hnow]
      by_cases hc : containsId tid t.root = true
      · obtain ⟨dv, _, hrec⟩ := eraseIdAux_eq tid t.root h.1 hc
        rw [hrec]
        exact erase_WF t dv h
      · rw [eraseIdAux_notFound tid t.root (by simpa using hc)]
        exact h

/-- The empty tree produced by `MultiAVL::new` satisfies the working
invariant. -/
theorem new_WF : WF (MultiAVL.new : MultiAVL α) :=
  ⟨List.Pairwise.nil, trivial, trivial, by simp [MultiAVL.new], List.nodup_nil,
    by simp [MultiAVL.new, idList], rfl, rfl, rfl⟩

/-- Every tree reachable by the public mutating operations satisfies the
working invariant. -/
theorem reachable_WF {t : MultiAVL α} (h : Reachable t) : WF t := by
  induction h with
  | new => exact new_WF
  | insert t v _ ih => exact insert_WF t v ih
  | erase t v _ ih => exact erase_WF t v ih
  | eraseIter t it _ ih => exact eraseIter_WF t it ih

/-! ## From the working invariant to the six specification invariants -/

theorem bstOrder_of_pairwise : ∀ t : NodeT α, (dataList t).Pairwise (· < ·) → bstOrder t
  | .nil, _ => trivial
  | .node i d c h l r, hs => by
      obtain ⟨hsl, hsr, hdl, hdr⟩ := pairwise_decomp i d c h l r hs
      exact ⟨hdl, hdr, bstOrder_of_pairwise l hsl, bstOrder_of_pairwise r hsr⟩

theorem sumCnt_eq_zero_iff (t : NodeT α) (hpos : ∀ e ∈ cells t, 1 ≤ e.2.2) :
    sumCnt t = 0 ↔ t = .nil := by
  cases t with
  | nil => simp
  | node i d c h l r =>
      constructor
      · intro h0
        have hc : 1 ≤ c := hpos (i, d, c) (by simp [cells_node])
        rw [sumCnt_node] at h0
        omega
      · intro hcontr
        exact absurd hcontr (by simp)

theorem ownerSlots_node (i : Nat) (d : α) (c : Nat) (h : Int) (l r : NodeT α) (pid cid : Nat) :
    ownerSlots (NodeT.node i d c h l r) pid cid
      = (if i = pid then
           (if rootId l = some cid then 1 else 0) + (if rootId r = some cid then 1 else 0)
         else 0) + (ownerSlots l pid cid + ownerSlots r pid cid) := by
  simp [ownerSlots, subtrees, List.map_append, List.sum_append, List.map_cons, List.sum_cons]

theorem ownerSlots_pos_mem : ∀ (t : NodeT α) (pid cid : Nat),
    ownerSlots t pid cid ≠ 0 → pid ∈ idList t
  | .nil, _, _, hne => absurd rfl hne
  | .node i d c h l r, pid, cid, hne => by
      rw [ownerSlots_node] at hne
      rw [idList_node]
      by_cases hi : i = pid
      · subst hi
        exact List.mem_append.2 (Or.inr (List.mem_cons_self _ _))
      · rw [if_neg hi] at hne
        rcases Nat.eq_zero_or_pos (ownerSlots l pid cid) with hl0 | hlp
        · have hrne : ownerSlots r pid cid ≠ 0 := by omega
          exact List.mem_append.2
            (Or.inr (List.mem_cons_of_mem _ (ownerSlots_pos_mem r pid cid hrne)))
        · exact List.mem_append.2 (Or.inl (ownerSlots_pos_mem l pid cid (by omega)))

theorem ownerSlots_eq_zero (t : NodeT α) (pid cid : Nat) (h : pid ∉ idList t) :
    ownerSlots t pid cid = 0 := by
  by_contra hne
  exact h (ownerSlots_pos_mem t pid cid hne)

theorem rootId_mem_idList : ∀ {t : NodeT α} {cid : Nat}, rootId t = some cid → cid ∈ idList t := by
  intro t cid h
  cases t with
  | nil => simp [rootId] at h
  | node i d c hh l r =>
      simp only [rootId, Option.some.injEq] at h
      subst h
      simp

theorem idNodup_decomp (i : Nat) (d : α) (c : Nat) (h : Int) (l r : NodeT α)
    (hn : (idList (NodeT.node i d c h l r)).Nodup) :
    (idList l).Nodup ∧ (idList r).Nodup ∧ i ∉ idList l ∧ i ∉ idList r ∧
      ∀ j ∈ idList l, j ∉ idList r := by
  rw [idList_node, List.nodup_append] at hn
  obtain ⟨hnl, hnir, hdisj⟩ := hn
  rw [List.nodup_cons] at hnir
  obtain ⟨hir, hnr⟩ := hnir
  refine ⟨hnl, hnr, ?_, hir, ?_⟩
  · intro hmem
    exact hdisj hmem (List.mem_cons_self _ _)
  · intro j hj hjr
    exact hdisj hj (List.mem_cons_of_mem _ hjr)

theorem parentPairs_slots : ∀ (t : NodeT α), (idList t).Nodup →
    ∀ (q : Option Nat) (cid pid : Nat), (cid, some pid) ∈ parentPairs t q →
      (rootId t = some cid ∧ q = some pid) ∨ ownerSlots t pid cid = 1
  | .nil, _, q, cid, pid, hmem => by simp [parentPairs] at hmem
  | .node i d c h l r, hn, q, cid, pid, hmem => by
      obtain ⟨hnl, hnr, hil, hir, hdisj⟩ := idNodup_decomp i d c h l r hn
      simp only [parentPairs, List.mem_append, List.mem_cons] at hmem
      rcases hmem with hmem | hmem | hmem
      · rcases parentPairs_slots l hnl (some i) cid pid hmem with ⟨hroot, hq⟩ | hone
        · injection hq with hq2
          subst hq2
          right
          have hcr : rootId r ≠ some cid := fun hc2 =>
            hdisj cid (rootId_mem_idList hroot) (rootId_mem_idList hc2)
          rw [ownerSlots_node, if_pos rfl, hroot, if_pos rfl, if_neg hcr,
            ownerSlots_eq_zero l i cid hil, ownerSlots_eq_zero r i cid hir]
        · right
          have hpl : pid ∈ idList l := ownerSlots_pos_mem l pid cid (by omega)
          have hpi : i ≠ pid := fun he => hil (by rw [he]; exact hpl)
          have hpr : pid ∉ idList r := fun hr2 => hdisj pid hpl hr2
          rw [ownerSlots_node, if_neg hpi, hone, ownerSlots_eq_zero r pid cid hpr]
      · left
        rw [Prod.mk.injEq] at hmem
        obtain ⟨h1, h2⟩ := hmem
        subst h1
        exact ⟨rfl, h2.symm⟩
      · rcases parentPairs_slots r hnr (some i) cid pid hmem with ⟨hroot, hq⟩ | hone
        · injection hq with hq2
          subst hq2
          right
          have hcl : rootId l ≠ some cid := fun hc2 =>
            hdisj cid (rootId_mem_idList hc2) (rootId_mem_idList hroot)
          rw [ownerSlots_node, if_pos rfl, if_neg hcl, hroot, if_pos rfl,
            ownerSlots_eq_zero l i cid hil, ownerSlots_eq_zero r i cid hir]
        · right
          have hpr : pid ∈ idList r := ownerSlots_pos_mem r pid cid (by omega)
          have hpi : i ≠ pid := fun he => hir (by rw [he]; exact hpr)
          have hpl : pid ∉ idList l := fun hl2 => hdisj pid hl2 hpr
          rw [ownerSlots_node, if_neg hpi, hone, ownerSlots_eq_zero l pid cid hpl]

theorem parentPairs_none : ∀ (t : NodeT α) (q : Option Nat) (cid : Nat),
    (cid, (none : Option Nat)) ∈ parentPairs t q → q = none ∧ rootId t = some cid
  | .nil, q, cid, hmem => by simp [parentPairs] at hmem
  | .node i d c h l r, q, cid, hmem => by
      simp only [parentPairs, List.mem_append, List.mem_cons] at hmem
      rcases hmem with hmem | hmem | hmem
      · obtain ⟨hq, _⟩ := parentPairs_none l (some i) cid hmem
        exact absurd hq (by simp)
      · rw [Prod.mk.injEq] at hmem
        obtain ⟨h1, h2⟩ := hmem
        subst h1
        exact ⟨h2.symm, rfl⟩
      · obtain ⟨hq, _⟩ := parentPairs_none r (some i) cid hmem
        exact absurd hq (by simp)

theorem parentOk_of_nodup (t : NodeT α) (hn : (idList t).Nodup) : parentOk t := by
  intro p hp
  obtain ⟨cid, po⟩ := p
  cases po with
  | none => exact (parentPairs_none t none cid hp).2
  | some pid =>
      rcases parentPairs_slots t hn none cid pid hp with ⟨_, hq⟩ | hone
      · exact absurd hq (by simp)
      · exact hone

theorem WF_invariantsSix (t : MultiAVL α) (h : WF t) : InvariantsSix t := by
  obtain ⟨hs, hhc, hbal, hpos, hnodup, _, hsize, hmin, hmax⟩ := h
  refine ⟨bstOrder_of_pairwise t.root hs, hbal, hhc, parentOk_of_nodup t.root hnodup,
    ⟨hsize, ?_⟩, fun _ => ⟨hmin, hmax⟩⟩
  rw [hsize]
  exact sumCnt_eq_zero_iff t.root hpos

/-! ## Claim C1 -/

/-- C1: for every tree reachable from `new()` by any sequence of the public
operations `insert`, `erase`, `erase_iter`, after each operation all six
structural invariants hold simultaneously: BST order, AVL balance, height
correctness, parent consistency, size consistency (size equals the sum of the
counters and size is zero exactly when the root is absent), and extrema
consistency (the min/max caches point at the leftmost/rightmost cells whenever
the tree is non-empty). -/
theorem claim_C1 (t : MultiAVL α) (h : Reachable t) : InvariantsSix t :=
  WF_invariantsSix t (reachable_WF h)

/-- Witness for C1: the tree obtained by inserting 2, 1, 3 and erasing 2 is
reachable, and the six invariants hold on it. -/
theorem claim_C1_witness :
    InvariantsSix (((((MultiAVL.new : MultiAVL Int).insert 2).insert 1).insert 3).erase 2) :=
  claim_C1 _ (Reachable.erase _ 2
    (Reachable.insert _ 3 (Reachable.insert _ 1 (Reachable.insert _ 2 Reachable.new))))

/-! ## Claim C4 -/

/-- C4: starting from an empty tree, inserting 2, 1, 3 and calling `erase(2)`
dispatches the two-children deletion case (the target cell has two children;
the in-order predecessor is the maximum of the left subtree, here the cell with
id 1 holding value 1; after the data/counter swap the recursion deallocates
that predecessor cell, id 1, not the target cell, id 0), and the resulting
tree has a root holding value 1 with no left child and a right child holding
value 3, with size 2 and `contains(2)` false. -/
theorem claim_C4 :
    ((((MultiAVL.new : MultiAVL Int).insert 2).insert 1).insert 3).root
        = .node 0 2 1 1 (.node 1 1 1 0 .nil .nil) (.node 2 3 1 0 .nil .nil) ∧
    countChildren ((((MultiAVL.new : MultiAVL Int).insert 2).insert 1).insert 3).root = 2 ∧
    rightmostId (NodeT.node 1 (1 : Int) 1 0 .nil .nil) = some 1 ∧
    eraseAux 2 ((((MultiAVL.new : MultiAVL Int).insert 2).insert 1).insert 3).root
        = ((((((MultiAVL.new : MultiAVL Int).insert 2).insert 1).insert 3).erase 2).root,
            .removed 0 1) ∧
    (((((MultiAVL.new : MultiAVL Int).insert 2).insert 1).insert 3).erase 2).root
        = .node 0 1 1 1 .nil (.node 2 3 1 0 .nil .nil) ∧
    MultiAVL.sizeOf (((((MultiAVL.new : MultiAVL Int).insert 2).insert 1).insert 3).erase 2) = 2 ∧
    (((((MultiAVL.new : MultiAVL Int).insert 2).insert 1).insert 3).erase 2).contains 2 = false := by
  decide

/-! ## Claim C9 -/

/-- Once `next()` has returned `None`, the iterator state is unchanged and
every further `next()` also returns `None`. -/
theorem iterNext_exhausted (tr : NodeT α) (it : MIter) (h : (iterNext tr it).1 = none) :
    iterNext tr ((iterNext tr it).2) = (none, it) := by
  have h2 : iterNext tr it = (none, it) := by
    cases hnow : it.now with
    | none => simp [iterNext, hnow]
    | some tid =>
        cases hc : lookupCell tid tr with
        | none => simp [iterNext, hnow, hc]
        | some s =>
            cases s with
            | nil => simp [iterNext, hnow, hc]
            | node i d c hh l r =>
                exfalso
                simp only [iterNext, hnow, hc] at h
                by_cases hcc : it.counter + 1 ≤ c <;> simp [hcc] at h
  rw [h2]
  exact h2

/-- C9: on an empty tree `min_iter()` and `max_iter()` return `None` (no
iterator at all), `iter()` returns an iterator whose first `next()` yields
`None` and leaves its state unchanged, and — on any tree — once `next()` has
returned `None`, repeated calls keep returning `None`. -/
theorem claim_C9 (t : MultiAVL α) (h : WF t) (he : t.root = .nil) :
    minIter t = none ∧ maxIter t = none ∧
    iterNext t.root (iter t) = (none, iter t) ∧
    ∀ (tr : NodeT α) (it : MIter), (iterNext tr it).1 = none →
      iterNext tr ((iterNext tr it).2) = (none, it) := by
  obtain ⟨_, _, _, _, _, _, _, hmin, hmax⟩ := h
  have hmn : t.minNode = none := by rw [hmin, he]; rfl
  have hmx : t.maxNode = none := by rw [hmax, he]; rfl
  refine ⟨by simp [minIter, hmn], by simp [maxIter, hmx], ?_, iterNext_exhausted⟩
  have hit : iter t = { now := none, counter := 0 } := by
    simp [iter, minIter, hmn]
  rw [hit]
  simp [iterNext]

/-- Witness for C9 on the empty tree over `Int`. -/
theorem claim_C9_witness :
    minIter (MultiAVL.new : MultiAVL Int) = none ∧
    maxIter (MultiAVL.new : MultiAVL Int) = none ∧
    iterNext (MultiAVL.new : MultiAVL Int).root (iter (MultiAVL.new : MultiAVL Int))
      = (none, iter (MultiAVL.new : MultiAVL Int)) ∧
    ∀ (tr : NodeT Int) (it : MIter), (iterNext tr it).1 = none →
      iterNext tr ((iterNext tr it).2) = (none, it) :=
  claim_C9 MultiAVL.new new_WF rfl

/-! ## Claim C8 -/

/-- C8: on every reachable tree no internal fatal branch can fire: every cell
has at most two children (the `_ => panic` arm of the `count_children` match in
`erase_node` is unreachable), and every parent back-reference resolves to the
live cell that owns the child in exactly one child slot (so the unwraps along
`erase`, `get_node_position`, the rotations and the rebalance walk all
succeed). -/
theorem claim_C8 (t : MultiAVL α) (h : Reachable t) :
    (∀ s ∈ subtrees t.root, countChildren s ≤ 2) ∧ parentOk t.root := by
  refine ⟨?_, (WF_invariantsSix t (reachable_WF h)).2.2.2.1⟩
  intro s _
  cases s with
  | nil => simp [countChildren]
  | node i d c hh l r =>
      simp only [countChildren]
      cases l <;> cases r <;> simp

/-- Witness for C8 at a concrete reachable tree with a duplicate insert. -/
theorem claim_C8_witness :
    (∀ s ∈ subtrees ((((MultiAVL.new : MultiAVL Int).insert 5).insert 1).insert 5).root,
        countChildren s ≤ 2) ∧
    parentOk ((((MultiAVL.new : MultiAVL Int).insert 5).insert 1).insert 5).root :=
  claim_C8 _ (Reachable.insert _ 5 (Reachable.insert _ 1 (Reachable.insert _ 5 Reachable.new)))

/-! ## BST search characterisation and no-op erase -/

theorem findNode_isSome_iff (v : α) : ∀ t : NodeT α, (dataList t).Pairwise (· < ·) →
    ((findNode v t).isSome = true ↔ v ∈ dataList t)
  | .nil, _ => by simp [findNode, dataList]
  | .node i d c h l r, hs => by
      obtain ⟨hsl, hsr, hdl, hdr⟩ := pairwise_decomp i d c h l r hs
      by_cases hvd : v = d
      · subst hvd
        simp [findNode, dataList_node]
      · by_cases hlt : v < d
        · have hnr : v ∉ dataList r := fun hm => lt_asymm hlt (hdr v hm)
          simp only [findNode, if_neg hvd, if_pos hlt, dataList_node, List.mem_append,
            List.mem_cons]
          rw [findNode_isSome_iff v l hsl]
          constructor
          · intro hm
            exact Or.inl hm
          · rintro (hm | hm | hm)
            · exact hm
            · exact absurd hm hvd
            · exact absurd hm hnr
        · have hgt : d < v := lt_of_le_of_ne (not_lt.1 hlt) (Ne.symm hvd)
          have hnl : v ∉ dataList l := fun hm => lt_asymm hgt (hdl v hm)
          simp only [findNode, if_neg hvd, if_neg hlt, dataList_node, List.mem_append,
            List.mem_cons]
          rw [findNode_isSome_iff v r hsr]
          constructor
          · intro hm
            exact Or.inr (Or.inr hm)
          · rintro (hm | hm | hm)
            · exact absurd hm hnl
            · exact absurd hm hvd
            · exact hm

theorem eraseAux_not_mem (v : α) : ∀ t : NodeT α, v ∉ dataList t →
    eraseAux v t = (t, .notFound)
  | .nil, _ => rfl
  | .node i d c h l r, hv => by
      have hvd : ¬v = d := fun he => hv (by simp [dataList_node, he])
      have hvl : v ∉ dataList l := fun hm => hv (by simp [dataList_node, hm])
      have hvr : v ∉ dataList r := fun hm => hv (by simp [dataList_node, hm])
      simp only [eraseAux]
      rw [if_neg hvd]
      by_cases hlt : v < d
      · rw [if_pos hlt, eraseAux_not_mem v l hvl]
      · rw [if_neg hlt, eraseAux_not_mem v r hvr]

theorem erase_no_op (t : MultiAVL α) (v : α) (h : WF t) (hc : t.contains v = false) :
    t.erase v = t := by
  have hnm : v ∉ dataList t.root := by
    intro hm
    have hsome := (findNode_isSome_iff v t.root h.1).2 hm
    simp only [MultiAVL.contains] at hc
    rw [hsome] at hc
    exact absurd hc (by simp)
  show applyErase t (eraseAux v t.root) = t
  rw [eraseAux_not_mem v t.root hnm]
  rfl

/-! ## Insert observables -/

theorem insert_size (t : MultiAVL α) (v : α) :
    MultiAVL.sizeOf (t.insert v) = MultiAVL.sizeOf t + 1 := by
  obtain ⟨root2, grew, mn, mx, heq⟩ : ∃ a b c d, insertAux t.nextId v t.root = (a, b, c, d) :=
    ⟨_, _, _, _, rfl⟩
  simp only [MultiAVL.insert, MultiAVL.sizeOf, heq]
  cases grew <;> simp

theorem insert_root_eq (t : MultiAVL α) (v : α) (root2 : NodeT α) (grew mn mx : Bool)
    (heq : insertAux t.nextId v t.root = (root2, grew, mn, mx)) :
    (t.insert v).root = root2 := by
  simp only [MultiAVL.insert, heq]
  cases grew <;> simp

theorem insert_mem_data (t : MultiAVL α) (v : α) (h : WF t) :
    v ∈ dataList (t.insert v).root := by
  obtain ⟨root2, grew, mn, mx, heq⟩ : ∃ a b c d, insertAux t.nextId v t.root = (a, b, c, d) :=
    ⟨_, _, _, _, rfl⟩
  obtain ⟨_, _, _, _, hg, hng⟩ :=
    insertAux_spec t.nextId v t.root root2 grew mn mx heq h.2.1 h.2.2.1 h.1
  rw [insert_root_eq t v root2 grew mn mx heq]
  cases grew with
  | false =>
      obtain ⟨hcells, hmem, _⟩ := hng rfl
      have hdl : dataList root2 = dataList t.root := by
        show (cells root2).map _ = _
        rw [hcells, bumpCell_map21]
        rfl
      rw [hdl]
      exact hmem
  | true =>
      obtain ⟨hcells, _, _, _⟩ := hg rfl
      show v ∈ (cells root2).map fun e => e.2.1
      rw [hcells]
      exact (mem_map21_insCell t.nextId v v (cells t.root)).2 (Or.inl rfl)

theorem insert_contains (t : MultiAVL α) (v : α) (h : WF t) :
    (t.insert v).contains v = true := by
  have h2 := insert_WF t v h
  have hm := insert_mem_data t v h
  simpa [MultiAVL.contains] using (findNode_isSome_iff v (t.insert v).root h2.1).2 hm

theorem insertAux_mem_eq (nid : Nat) (v : α) :
    ∀ t : NodeT α, (dataList t).Pairwise (· < ·) → v ∈ dataList t →
      ∃ mn mx, insertAux nid v t = (bumpNode v t, false, mn, mx)
  | .nil, _, hm => by simp [dataList] at hm
  | .node i d c h l r, hs, hm => by
      obtain ⟨hsl, hsr, hdl, hdr⟩ := pairwise_decomp i d c h l r hs
      by_cases hvd : v = d
      · refine ⟨true, true, ?_⟩
        simp only [insertAux, bumpNode]
        rw [if_pos hvd, if_pos hvd]
      · by_cases hlt : v < d
        · have hml : v ∈ dataList l := by
            simp only [dataList_node, List.mem_append, List.mem_cons] at hm
            rcases hm with hm | hm | hm
            · exact hm
            · exact absurd hm hvd
            · exact absurd (hdr v hm) (lt_asymm hlt)
          obtain ⟨mn, mx, hrec⟩ := insertAux_mem_eq nid v l hsl hml
          refine ⟨mn, false, ?_⟩
          simp only [insertAux, bumpNode]
          rw [if_neg hvd, if_pos hlt, if_neg hvd, if_pos hlt, hrec]
          simp
        · have hgt : d < v := lt_of_le_of_ne (not_lt.1 hlt) (Ne.symm hvd)
          have hmr : v ∈ dataList r := by
            simp only [dataList_node, List.mem_append, List.mem_cons] at hm
            rcases hm with hm | hm | hm
            · exact absurd (hdl v hm) (lt_asymm hgt)
            · exact absurd hm hvd
            · exact hm
          obtain ⟨mn, mx, hrec⟩ := insertAux_mem_eq nid v r hsr hmr
          refine ⟨false, mx, ?_⟩
          simp only [insertAux, bumpNode]
          rw [if_neg hvd, if_neg hlt, if_neg hvd, if_neg hlt, hrec]
          simp

theorem bumpNode_heightMap (v : α) : ∀ t : NodeT α, heightMap (bumpNode v t) = heightMap t
  | .nil => rfl
  | .node i d c h l r => by
      simp only [bumpNode]
      by_cases hvd : v = d
      · rw [if_pos hvd]
        simp [heightMap]
      · rw [if_neg hvd]
        by_cases hlt : v < d
        · rw [if_pos hlt]
          simp [heightMap, bumpNode_heightMap v l]
        · rw [if_neg hlt]
          simp [heightMap, bumpNode_heightMap v r]

/-! ## Claims C3 and C7 -/

/-- C3: after `insert(v)` on a reachable tree, `contains(v)` is true and `size`
has grown by exactly one; when `v` was already present, the insert only bumps
the counter of the cell holding `v` (`bumpNode`): ids, cached heights and the
stored values are all unchanged, and no rebalance takes place. -/
theorem claim_C3 (t : MultiAVL α) (v : α) (h : Reachable t) :
    (t.insert v).contains v = true ∧
    MultiAVL.sizeOf (t.insert v) = MultiAVL.sizeOf t + 1 ∧
    (v ∈ dataList t.root →
      (t.insert v).root = bumpNode v t.root ∧
      heightMap (t.insert v).root = heightMap t.root ∧
      idList (t.insert v).root = idList t.root ∧
      dataList (t.insert v).root = dataList t.root) := by
  have hwf := reachable_WF h
  refine ⟨insert_contains t v hwf, insert_size t v, fun hm => ?_⟩
  obtain ⟨mn, mx, heq⟩ := insertAux_mem_eq t.nextId v t.root hwf.1 hm
  have hroot := insert_root_eq t v (bumpNode v t.root) false mn mx heq
  obtain ⟨_, _, _, _, _, hng⟩ :=
    insertAux_spec t.nextId v t.root (bumpNode v t.root) false mn mx heq hwf.2.1 hwf.2.2.1 hwf.1
  obtain ⟨hcells, _, _⟩ := hng rfl
  refine ⟨hroot, ?_, ?_, ?_⟩
  · rw [hroot]
    exact bumpNode_heightMap v t.root
  · rw [hroot]
    show (cells (bumpNode v t.root)).map (fun e => e.1) = (cells t.root).map fun e => e.1
    rw [hcells, bumpCell_map1]
  · rw [hroot]
    show (cells (bumpNode v t.root)).map (fun e => e.2.1) = (cells t.root).map fun e => e.2.1
    rw [hcells, bumpCell_map21]

/-- Witness for C3: inserting 5 into a tree already holding 5. -/
theorem claim_C3_witness :
    (((MultiAVL.new : MultiAVL Int).insert 5).insert 5).contains 5 = true ∧
    MultiAVL.sizeOf (((MultiAVL.new : MultiAVL Int).insert 5).insert 5)
      = MultiAVL.sizeOf ((MultiAVL.new : MultiAVL Int).insert 5) + 1 ∧
    (5 ∈ dataList ((MultiAVL.new : MultiAVL Int).insert 5).root →
      (((MultiAVL.new : MultiAVL Int).insert 5).insert 5).root
          = bumpNode 5 ((MultiAVL.new : MultiAVL Int).insert 5).root ∧
      heightMap (((MultiAVL.new : MultiAVL Int).insert 5).insert 5).root
          = heightMap ((MultiAVL.new : MultiAVL Int).insert 5).root ∧
      idList (((MultiAVL.new : MultiAVL Int).insert 5).insert 5).root
          = idList ((MultiAVL.new : MultiAVL Int).insert 5).root ∧
      dataList (((MultiAVL.new : MultiAVL Int).insert 5).insert 5).root
          = dataList ((MultiAVL.new : MultiAVL Int).insert 5).root) :=
  claim_C3 _ 5 (Reachable.insert _ 5 Reachable.new)

/-- C7: erasing a value the tree does not contain is a no-op: the whole state
is unchanged, so in particular `size`, every `contains` query, `min_value`,
`max_value`, and the sequence produced by `iter` are all unchanged. -/
theorem claim_C7 (t : MultiAVL α) (v : α) (h : Reachable t) (hc : t.contains v = false) :
    t.erase v = t ∧ MultiAVL.sizeOf (t.erase v) = MultiAVL.sizeOf t ∧
    (∀ u, (t.erase v).contains u = t.contains u) ∧
    minValue (t.erase v) = minValue t ∧ maxValue (t.erase v) = maxValue t ∧
    ∀ n, iterTake (t.erase v).root (iter (t.erase v)) n = iterTake t.root (iter t) n := by
  have he : t.erase v = t := erase_no_op t v (reachable_WF h) hc
  rw [he]
  exact ⟨rfl, rfl, fun u => rfl, rfl, rfl, fun n => rfl⟩

/-- Witness for C7: erasing 2 from a tree holding only 1. -/
theorem claim_C7_witness :
    ((MultiAVL.new : MultiAVL Int).insert 1).contains 2 = false ∧
    ((MultiAVL.new : MultiAVL Int).insert 1).erase 2 = (MultiAVL.new : MultiAVL Int).insert 1 :=
  ⟨by decide, (claim_C7 _ 2 (Reachable.insert _ 1 Reachable.new) (by decide)).1⟩

/-! ## Multiplicity accounting -/

@[simp] theorem cntCells_nil (v : α) : cntCells v ([] : List (Nat × α × Nat)) = 0 := rfl

@[simp] theorem cntCells_cons (v : α) (e : Nat × α × Nat) (cs : List (Nat × α × Nat)) :
    cntCells v (e :: cs) = (if e.2.1 = v then e.2.2 else 0) + cntCells v cs := by
  simp [cntCells]

@[simp] theorem cntCells_append (v : α) (A B : List (Nat × α × Nat)) :
    cntCells v (A ++ B) = cntCells v A + cntCells v B := by
  simp [cntCells]

theorem cntCells_eq_zero (v : α) : ∀ cs : List (Nat × α × Nat),
    v ∉ cs.map (fun e => e.2.1) → cntCells v cs = 0
  | [], _ => rfl
  | e :: rest, hv => by
      have h1 : ¬e.2.1 = v := fun he => hv (by simp [he])
      have h2 : v ∉ rest.map (fun e => e.2.1) := fun hm => hv (by simp [hm])
      rw [cntCells_cons, if_neg h1, cntCells_eq_zero v rest h2]

theorem insCell_cntCells (nid : Nat) (v : α) : ∀ cs : List (Nat × α × Nat),
    cntCells v (insCell nid v cs) = cntCells v cs + 1
  | [] => by simp [insCell]
  | e :: rest => by
      simp only [insCell]
      by_cases hle : v ≤ e.2.1
      · rw [if_pos hle]
        simp
        omega
      · rw [if_neg hle]
        rw [cntCells_cons, cntCells_cons, insCell_cntCells nid v rest]
        omega

theorem bumpCell_cntCells (v : α) : ∀ cs : List (Nat × α × Nat),
    v ∈ cs.map (fun e => e.2.1) → cntCells v (bumpCell v cs) = cntCells v cs + 1
  | [], hv => by simp at hv
  | e :: rest, hv => by
      simp only [bumpCell]
      by_cases hve : v = e.2.1
      · rw [if_pos hve, cntCells_cons, cntCells_cons, if_pos hve.symm, if_pos hve.symm]
        simp <;> omega
      · have hv2 := hv
        rw [List.map_cons, List.mem_cons] at hv2
        have h2 : v ∈ rest.map (fun e => e.2.1) := by
          rcases hv2 with hm | hm
          · exact absurd hm hve
          · exact hm
        rw [if_neg hve, cntCells_cons, cntCells_cons, bumpCell_cntCells v rest h2]
        omega

theorem cntCells_pos_of_mem (v : α) : ∀ cs : List (Nat × α × Nat),
    v ∈ cs.map (fun e => e.2.1) → (∀ e ∈ cs, 1 ≤ e.2.2) → 1 ≤ cntCells v cs
  | [], hv, _ => by simp at hv
  | x :: xs, hv, hp => by
      rw [cntCells_cons]
      rw [List.map_cons, List.mem_cons] at hv
      rcases hv with hm | hm
      · have hx1 : 1 ≤ x.2.2 := hp x (List.mem_cons_self _ _)
        rw [if_pos hm.symm]
        omega
      · have := cntCells_pos_of_mem v xs hm (fun y hy => hp y (List.mem_cons_of_mem _ hy))
        omega

theorem decCell_cntCells (v : α) : ∀ cs : List (Nat × α × Nat),
    v ∈ cs.map (fun e => e.2.1) → (∀ e ∈ cs, 1 ≤ e.2.2) →
      cntCells v (decCell v cs) = cntCells v cs - 1
  | [], hv, _ => by simp at hv
  | e :: rest, hv, hp => by
      simp only [decCell]
      by_cases hve : v = e.2.1
      · rw [if_pos hve, cntCells_cons, cntCells_cons, if_pos hve.symm, if_pos hve.symm]
        have he1 : 1 ≤ e.2.2 := hp e (List.mem_cons_self _ _)
        simp <;> omega
      · have hv2 := hv
        rw [List.map_cons, List.mem_cons] at hv2
        have h2 : v ∈ rest.map (fun e => e.2.1) := by
          rcases hv2 with hm | hm
          · exact absurd hm hve
          · exact hm
        have hp2 : ∀ x ∈ rest, 1 ≤ x.2.2 := fun x hx => hp x (List.mem_cons_of_mem _ hx)
        rw [if_neg hve, cntCells_cons, cntCells_cons, decCell_cntCells v rest h2 hp2]
        have hcr : 1 ≤ cntCells v rest := cntCells_pos_of_mem v rest h2 hp2
        omega

theorem findNode_eq (v : α) : ∀ t s : NodeT α, findNode v t = some s →
    ∃ i c hh l r, s = NodeT.node i v c hh l r ∧ (i, v, c) ∈ cells t
  | .nil, s, heq => by simp [findNode] at heq
  | .node i d c h l r, s, heq => by
      simp only [findNode] at heq
      by_cases hvd : v = d
      · rw [if_pos hvd] at heq
        injection heq with heq2
        subst hvd
        exact ⟨i, c, h, l, r, heq2.symm, by simp [cells_node]⟩
      · rw [if_neg hvd] at heq
        by_cases hlt : v < d
        · rw [if_pos hlt] at heq
          obtain ⟨i2, c2, hh2, l2, r2, hs2, hmem⟩ := findNode_eq v l s heq
          exact ⟨i2, c2, hh2, l2, r2, hs2, by simp [cells_node, hmem]⟩
        · rw [if_neg hlt] at heq
          obtain ⟨i2, c2, hh2, l2, r2, hs2, hmem⟩ := findNode_eq v r s heq
          exact ⟨i2, c2, hh2, l2, r2, hs2, by simp [cells_node, hmem]⟩

theorem cntOf_eq_cntCells (v : α) : ∀ t : NodeT α, (dataList t).Pairwise (· < ·) →
    cntOf v t = cntCells v (cells t)
  | .nil, _ => rfl
  | .node i d c h l r, hs => by
      obtain ⟨hsl, hsr, hdl, hdr⟩ := pairwise_decomp i d c h l r hs
      rw [cells_node, cntCells_append, cntCells_cons]
      by_cases hvd : v = d
      · subst hvd
        have hzl : cntCells v (cells l) = 0 :=
          cntCells_eq_zero v (cells l) (fun hm => lt_irrefl v (hdl v hm))
        have hzr : cntCells v (cells r) = 0 :=
          cntCells_eq_zero v (cells r) (fun hm => lt_irrefl v (hdr v hm))
        have hfn : cntOf v (NodeT.node i v c h l r) = c := by
          simp [cntOf, findNode]
        rw [hfn, hzl, hzr, if_pos rfl]
        simp
      · by_cases hlt : v < d
        · have hzr : cntCells v (cells r) = 0 :=
            cntCells_eq_zero v (cells r) (fun hm => lt_asymm hlt (hdr v hm))
          have hfn : cntOf v (NodeT.node i d c h l r) = cntOf v l := by
            simp [cntOf, findNode, hvd, hlt]
          rw [hfn, cntOf_eq_cntCells v l hsl, hzr, if_neg (fun he => hvd he.symm)]
          omega
        · have hgt : d < v := lt_of_le_of_ne (not_lt.1 hlt) (Ne.symm hvd)
          have hzl : cntCells v (cells l) = 0 :=
            cntCells_eq_zero v (cells l) (fun hm => lt_asymm hgt (hdl v hm))
          have hfn : cntOf v (NodeT.node i d c h l r) = cntOf v r := by
            simp [cntOf, findNode, hvd, hlt]
          rw [hfn, cntOf_eq_cntCells v r hsr, hzl, if_neg (fun he => hvd he.symm)]
          omega

theorem contains_iff_cnt (t : MultiAVL α) (v : α) (h : WF t) :
    t.contains v = true ↔ 0 < cntOf v t.root := by
  constructor
  · intro hc
    simp only [MultiAVL.contains, Option.isSome_iff_exists] at hc
    obtain ⟨s, hs⟩ := hc
    obtain ⟨i, c, hh, l, r, rfl, hmem⟩ := findNode_eq v t.root s hs
    have hpos : 1 ≤ c := h.2.2.2.1 (i, v, c) hmem
    simp only [cntOf, hs]
    omega
  · intro hc
    cases hf : findNode v t.root with
    | none =>
        simp [cntOf, hf] at hc
    | some s =>
        simp [MultiAVL.contains, hf]

theorem cnt_insert (t : MultiAVL α) (v : α) (h : WF t) :
    cntOf v (t.insert v).root = cntOf v t.root + 1 := by
  obtain ⟨root2, grew, mn, mx, heq⟩ : ∃ a b c d, insertAux t.nextId v t.root = (a, b, c, d) :=
    ⟨_, _, _, _, rfl⟩
  obtain ⟨_, _, _, _, hg, hng⟩ :=
    insertAux_spec t.nextId v t.root root2 grew mn mx heq h.2.1 h.2.2.1 h.1
  have hroot := insert_root_eq t v root2 grew mn mx heq
  have hs2 : (dataList root2).Pairwise (· < ·) := by
    have hw := (insert_WF t v h).1
    rwa [hroot] at hw
  rw [hroot, cntOf_eq_cntCells v root2 hs2, cntOf_eq_cntCells v t.root h.1]
  cases grew with
  | true =>
      obtain ⟨hcells, _, _, _⟩ := hg rfl
      rw [hcells, insCell_cntCells]
  | false =>
      obtain ⟨hcells, hmem, _⟩ := hng rfl
      rw [hcells, bumpCell_cntCells v (cells t.root) hmem]

theorem removed_dataSublist (root t2 : NodeT α) (ti ri : Nat) (v : α)
    (X Y : List (Nat × α × Nat)) (hXY : cells root = X ++ (ti, v, 1) :: Y)
    (hsplit : (ri = ti ∧ cells t2 = X ++ Y) ∨
      ∃ X2 pd pc, X = X2 ++ [(ri, pd, pc)] ∧ cells t2 = X2 ++ (ti, pd, pc) :: Y) :
    (dataList t2).Sublist (dataList root) := by
  show ((cells t2).map fun e => e.2.1).Sublist ((cells root).map fun e => e.2.1)
  rcases hsplit with ⟨hri, hA⟩ | ⟨X2, pd, pc, hX2, hA⟩
  · rw [hA, hXY]
    simp only [List.map_append, List.map_cons]
    exact List.Sublist.append_left (List.sublist_cons_self _ _) _
  · rw [hA, hXY, hX2]
    simp only [List.map_append, List.map_cons, List.append_assoc, List.singleton_append,
      List.map_nil]
    exact List.Sublist.append_left (List.Sublist.cons₂ _ (List.sublist_cons_self _ _)) _

theorem cnt_erase (t : MultiAVL α) (v : α) (h : WF t) :
    cntOf v (t.erase v).root = cntOf v t.root - 1 := by
  obtain ⟨root2, info, heq⟩ : ∃ a b, eraseAux v t.root = (a, b) := ⟨_, _, rfl⟩
  obtain ⟨hn, hd, hr⟩ := eraseAux_spec v t.root root2 info heq h.2.1 h.2.2.1 h.1 h.2.2.2.1
  have hroot : (t.erase v).root = (applyErase t (root2, info)).root := by
    show (applyErase t (eraseAux v t.root)).root = _
    rw [heq]
  rw [hroot]
  cases info with
  | notFound =>
      obtain ⟨he2, hnm⟩ := hn rfl
      have hcnt0 : cntOf v t.root = 0 := by
        cases hf : findNode v t.root with
        | none => simp [cntOf, hf]
        | some s =>
            obtain ⟨i, c, hh, l, r, rfl, hmem⟩ := findNode_eq v t.root s hf
            exact absurd (List.mem_map.2 ⟨(i, v, c), hmem, rfl⟩) hnm
      show cntOf v t.root = cntOf v t.root - 1
      rw [hcnt0]
  | decremented =>
      obtain ⟨_, _, _, hcells, hmem, _⟩ := hd rfl
      have hs2 : (dataList root2).Pairwise (· < ·) := by
        have he : dataList root2 = dataList t.root := by
          show (cells root2).map _ = (cells t.root).map _
          rw [hcells, decCell_map21]
        rw [he]
        exact h.1
      show cntOf v root2 = cntOf v t.root - 1
      rw [cntOf_eq_cntCells v root2 hs2, cntOf_eq_cntCells v t.root h.1, hcells,
        decCell_cntCells v (cells t.root) hmem h.2.2.2.1]
  | removed ti ri =>
      obtain ⟨_, _, _, _, _, X, Y, hXY, hsplit⟩ := hr ti ri rfl
      have hs2 : (dataList root2).Pairwise (· < ·) :=
        h.1.sublist (removed_dataSublist t.root root2 ti ri v X Y hXY hsplit)
      show cntOf v root2 = cntOf v t.root - 1
      rw [cntOf_eq_cntCells v root2 hs2, cntOf_eq_cntCells v t.root h.1, hXY]
      rcases hsplit with ⟨hri, hA⟩ | ⟨X2, pd, pc, hX2, hA⟩
      · rw [hA]
        simp <;> omega
      · rw [hA, hX2]
        simp <;> omega

/-! ## Claim C6 -/

theorem reachable_insert_iterate (v : α) : ∀ (n : Nat) (s : MultiAVL α), Reachable s →
    Reachable ((fun x : MultiAVL α => x.insert v)^[n] s)
  | 0, _, hs => hs
  | n + 1, s, hs => by
      rw [Function.iterate_succ_apply]
      exact reachable_insert_iterate v n _ (Reachable.insert s v hs)

theorem reachable_erase_iterate (v : α) : ∀ (n : Nat) (s : MultiAVL α), Reachable s →
    Reachable ((fun x : MultiAVL α => x.erase v)^[n] s)
  | 0, _, hs => hs
  | n + 1, s, hs => by
      rw [Function.iterate_succ_apply]
      exact reachable_erase_iterate v n _ (Reachable.erase s v hs)

theorem cnt_insert_iterate (v : α) : ∀ (n : Nat) (s : MultiAVL α), Reachable s →
    cntOf v ((fun x : MultiAVL α => x.insert v)^[n] s).root = cntOf v s.root + n
  | 0, _, _ => rfl
  | n + 1, s, hs => by
      rw [Function.iterate_succ_apply',
        cnt_insert _ v (reachable_WF (reachable_insert_iterate v n s hs)),
        cnt_insert_iterate v n s hs]
      omega

theorem cnt_erase_iterate (v : α) : ∀ (j : Nat) (s : MultiAVL α), Reachable s →
    cntOf v ((fun x : MultiAVL α => x.erase v)^[j] s).root = cntOf v s.root - j
  | 0, _, _ => rfl
  | j + 1, s, hs => by
      rw [Function.iterate_succ_apply',
        cnt_erase _ v (reachable_WF (reachable_erase_iterate v j s hs)),
        cnt_erase_iterate v j s hs]
      omega

theorem erase_phase (T : MultiAVL α) (v : α) (k : Nat) (hT : Reachable T)
    (hcntT : cntOf v T.root = k) :
    (∀ j, j < k → ((fun x : MultiAVL α => x.erase v)^[j] T).contains v = true) ∧
    (∀ j, k ≤ j → ((fun x : MultiAVL α => x.erase v)^[j] T).contains v = false) ∧
    (∀ j, k ≤ j →
      (fun x : MultiAVL α => x.erase v)^[j + 1] T = (fun x : MultiAVL α => x.erase v)^[j] T) := by
  have hreachE : ∀ j, Reachable ((fun x : MultiAVL α => x.erase v)^[j] T) :=
    fun j => reachable_erase_iterate v j T hT
  have hcntE : ∀ j, cntOf v ((fun x : MultiAVL α => x.erase v)^[j] T).root = k - j := by
    intro j
    rw [cnt_erase_iterate v j T hT, hcntT]
  have hcontains : ∀ j, k ≤ j →
      ((fun x : MultiAVL α => x.erase v)^[j] T).contains v = false := by
    intro j hj
    have h0 : cntOf v ((fun x : MultiAVL α => x.erase v)^[j] T).root = 0 := by
      rw [hcntE j]
      omega
    cases hcc : ((fun x : MultiAVL α => x.erase v)^[j] T).contains v with
    | false => rfl
    | true =>
        have hlt := (contains_iff_cnt _ v (reachable_WF (hreachE j))).1 hcc
        omega
  refine ⟨?_, hcontains, ?_⟩
  · intro j hj
    refine (contains_iff_cnt _ v (reachable_WF (hreachE j))).2 ?_
    rw [hcntE j]
    omega
  · intro j hj
    rw [Function.iterate_succ_apply']
    exact erase_no_op _ v (reachable_WF (hreachE j)) (hcontains j hj)

/-- C6: starting from a reachable tree not containing `v`, after inserting `v`
`k` times (`k ≥ 1`) and then erasing it repeatedly, `contains(v)` stays true
through the first `k - 1` erases, becomes false at exactly the `k`-th erase,
and stays false afterwards, every erase beyond the `k`-th being a no-op that
leaves the whole state (in particular `size`) unchanged. -/
theorem claim_C6 (t0 : MultiAVL α) (v : α) (k : Nat) (h : Reachable t0) (hk : 1 ≤ k)
    (hv : t0.contains v = false) :
    (∀ j, j < k → ((fun x : MultiAVL α => x.erase v)^[j]
        ((fun x : MultiAVL α => x.insert v)^[k] t0)).contains v = true) ∧
    (∀ j, k ≤ j → ((fun x : MultiAVL α => x.erase v)^[j]
        ((fun x : MultiAVL α => x.insert v)^[k] t0)).contains v = false) ∧
    (∀ j, k ≤ j →
      (fun x : MultiAVL α => x.erase v)^[j + 1] ((fun x : MultiAVL α => x.insert v)^[k] t0)
        = (fun x : MultiAVL α => x.erase v)^[j] ((fun x : MultiAVL α => x.insert v)^[k] t0) ∧
      MultiAVL.sizeOf ((fun x : MultiAVL α => x.erase v)^[j + 1]
          ((fun x : MultiAVL α => x.insert v)^[k] t0))
        = MultiAVL.sizeOf ((fun x : MultiAVL α => x.erase v)^[j]
          ((fun x : MultiAVL α => x.insert v)^[k] t0))) := by
  have hcnt0 : cntOf v t0.root = 0 := by
    by_contra hne
    have hct := (contains_iff_cnt t0 v (reachable_WF h)).2 (Nat.pos_of_ne_zero hne)
    rw [hv] at hct
    exact absurd hct (by simp)
  have hT : Reachable ((fun x : MultiAVL α => x.insert v)^[k] t0) :=
    reachable_insert_iterate v k t0 h
  have hcntT : cntOf v ((fun x : MultiAVL α => x.insert v)^[k] t0).root = k := by
    rw [cnt_insert_iterate v k t0 h, hcnt0]
    omega
  obtain ⟨h1, h2, h3⟩ := erase_phase ((fun x : MultiAVL α => x.insert v)^[k] t0) v k hT hcntT
  exact ⟨h1, h2, fun j hj => ⟨h3 j hj, by rw [h3 j hj]⟩⟩

/-- Witness for C6 with k = 2 over the empty tree. -/
theorem claim_C6_witness :
    (∀ j, j < 2 → ((fun x : MultiAVL Int => x.erase 7)^[j]
        ((fun x : MultiAVL Int => x.insert 7)^[2] MultiAVL.new)).contains 7 = true) ∧
    (∀ j, 2 ≤ j → ((fun x : MultiAVL Int => x.erase 7)^[j]
        ((fun x : MultiAVL Int => x.insert 7)^[2] MultiAVL.new)).contains 7 = false) ∧
    (∀ j, 2 ≤ j →
      (fun x : MultiAVL Int => x.erase 7)^[j + 1] ((fun x : MultiAVL Int => x.insert 7)^[2] MultiAVL.new)
        = (fun x : MultiAVL Int => x.erase 7)^[j] ((fun x : MultiAVL Int => x.insert 7)^[2] MultiAVL.new) ∧
      MultiAVL.sizeOf ((fun x : MultiAVL Int => x.erase 7)^[j + 1]
          ((fun x : MultiAVL Int => x.insert 7)^[2] MultiAVL.new))
        = MultiAVL.sizeOf ((fun x : MultiAVL Int => x.erase 7)^[j]
          ((fun x : MultiAVL Int => x.insert 7)^[2] MultiAVL.new))) :=
  claim_C6 MultiAVL.new 7 2 Reachable.new (by decide) (by decide)

/-! ## Claim C5 -/

/-- Counterexample to the frame stated for C5: in the configuration reached by
inserting 10, 5, 7 (parent cell id 0 of height 2, its left child id 1 holding
5 with a right child id 2 holding 7), `rotate_left` on cell 1 changes the
cached height of the former parent, cell 0, from 2 to 1: `link_node(parent,
promoted)` recomputes the parent's height from the promoted child's
intermediate height, so a third cell's height field is written. -/
theorem claim_C5_counterexample :
    (heightMap (NodeT.node 0 (10 : Int) 1 2
        (NodeT.node 1 5 1 1 .nil (NodeT.node 2 7 1 0 .nil .nil)) .nil)).lookup 0 = some 2 ∧
    (heightMap (rotateLeftAtL (NodeT.node 0 (10 : Int) 1 2
        (NodeT.node 1 5 1 1 .nil (NodeT.node 2 7 1 0 .nil .nil)) .nil))).lookup 0 = some 1 := by
  decide

/-- C5 (amended): a rotation on a cell `x` with the appropriate child rewrites
the cached heights of the rotated cell, the promoted child, and — when `x` has
a parent — that former parent as well, whether `x` sits in the parent's left
or right slot (`link_node` recomputes the parent's height from the promoted
cell's intermediate height); when `x` is the root only the two rotated cells'
heights change.  In every case, every cell of the carried subtrees and of the
parent's other subtree keeps its height verbatim and the in-order id sequence
is preserved.  Covered configurations: `rotate_left` and `rotate_right`, each
on a left-slot child (`rotateLeftAtL`/`rotateRightAtL`), on a right-slot child
(`rotateLeftAtR`/`rotateRightAtR`), and at the root
(`rotateLeftT`/`rotateRightT`), together with the corresponding before-maps
showing which entries moved. -/
theorem claim_C5 (pi : Nat) (pd : α) (pc : Nat) (ph : Int) (xi : Nat) (xd : α) (xc : Nat)
    (xh : Int) (ci : Nat) (cd : α) (cc : Nat) (ch : Int) (xl cl cr xr sib : NodeT α) :
    (∃ h1 h2 h3,
      heightMap (rotateLeftAtL (NodeT.node pi pd pc ph
          (NodeT.node xi xd xc xh xl (NodeT.node ci cd cc ch cl cr)) sib))
        = heightMap xl ++ (xi, h1) :: heightMap cl ++ (ci, h2) :: heightMap cr
            ++ (pi, h3) :: heightMap sib) ∧
    (∃ h1 h2 h3,
      heightMap (rotateRightAtL (NodeT.node pi pd pc ph
          (NodeT.node xi xd xc xh (NodeT.node ci cd cc ch cl cr) xr) sib))
        = heightMap cl ++ (ci, h2) :: heightMap cr ++ (xi, h1) :: heightMap xr
            ++ (pi, h3) :: heightMap sib) ∧
    (∃ h1 h2 h3,
      heightMap (rotateLeftAtR (NodeT.node pi pd pc ph sib
          (NodeT.node xi xd xc xh xl (NodeT.node ci cd cc ch cl cr))))
        = heightMap sib ++ (pi, h3) :: heightMap xl ++ (xi, h1) :: heightMap cl
            ++ (ci, h2) :: heightMap cr) ∧
    (∃ h1 h2 h3,
      heightMap (rotateRightAtR (NodeT.node pi pd pc ph sib
          (NodeT.node xi xd xc xh (NodeT.node ci cd cc ch cl cr) xr)))
        = heightMap sib ++ (pi, h3) :: heightMap cl ++ (ci, h2) :: heightMap cr
            ++ (xi, h1) :: heightMap xr) ∧
    (∃ h1 h2,
      heightMap (rotateLeftT (NodeT.node xi xd xc xh xl (NodeT.node ci cd cc ch cl cr)))
        = heightMap xl ++ (xi, h1) :: heightMap cl ++ (ci, h2) :: heightMap cr) ∧
    (∃ h1 h2,
      heightMap (rotateRightT (NodeT.node xi xd xc xh (NodeT.node ci cd cc ch cl cr) xr))
        = heightMap cl ++ (ci, h2) :: heightMap cr ++ (xi, h1) :: heightMap xr) ∧
    heightMap (NodeT.node pi pd pc ph
        (NodeT.node xi xd xc xh xl (NodeT.node ci cd cc ch cl cr)) sib)
      = heightMap xl ++ (xi, xh) :: heightMap cl ++ (ci, ch) :: heightMap cr
          ++ (pi, ph) :: heightMap sib ∧
    heightMap (NodeT.node pi pd pc ph
        (NodeT.node xi xd xc xh (NodeT.node ci cd cc ch cl cr) xr) sib)
      = heightMap cl ++ (ci, ch) :: heightMap cr ++ (xi, xh) :: heightMap xr
          ++ (pi, ph) :: heightMap sib ∧
    heightMap (NodeT.node pi pd pc ph sib
        (NodeT.node xi xd xc xh xl (NodeT.node ci cd cc ch cl cr)))
      = heightMap sib ++ (pi, ph) :: heightMap xl ++ (xi, xh) :: heightMap cl
          ++ (ci, ch) :: heightMap cr ∧
    heightMap (NodeT.node pi pd pc ph sib
        (NodeT.node xi xd xc xh (NodeT.node ci cd cc ch cl cr) xr))
      = heightMap sib ++ (pi, ph) :: heightMap cl ++ (ci, ch) :: heightMap cr
          ++ (xi, xh) :: heightMap xr := by
  refine ⟨⟨max (chH xl) (chH cl), max (max (chH xl) (chH cl) + 1) (chH cr),
      max (max 0 (chH cr) + 1) (chH sib), ?_⟩,
    ⟨max (chH cr) (chH xr), max (chH cl) (max (chH cr) (chH xr) + 1),
      max (max (chH cl) 0 + 1) (chH sib), ?_⟩,
    ⟨max (chH xl) (chH cl), max (max (chH xl) (chH cl) + 1) (chH cr),
      max (chH sib) (max 0 (chH cr) + 1), ?_⟩,
    ⟨max (chH cr) (chH xr), max (chH cl) (max (chH cr) (chH xr) + 1),
      max (chH sib) (max (chH cl) 0 + 1), ?_⟩,
    ⟨max (chH xl) (chH cl), max (max (chH xl) (chH cl) + 1) (chH cr), ?_⟩,
    ⟨max (chH cr) (chH xr), max (chH cl) (max (chH cr) (chH xr) + 1), ?_⟩,
    ?_, ?_, ?_, ?_⟩
  · simp [rotateLeftAtL, heightMap, List.append_assoc]
  · simp [rotateRightAtL, heightMap, List.append_assoc]
  · simp [rotateLeftAtR, heightMap, List.append_assoc]
  · simp [rotateRightAtR, heightMap, List.append_assoc]
  · simp [rotateLeftT, heightMap, List.append_assoc]
  · simp [rotateRightT, heightMap, List.append_assoc]
  · simp [heightMap, List.append_assoc]
  · simp [heightMap, List.append_assoc]
  · simp [heightMap, List.append_assoc]
  · simp [heightMap, List.append_assoc]

/-! ## Iterator machinery: locating a cell and the in-order successor -/

theorem cell_eq_of_id (cs : List (Nat × α × Nat)) (hn : (cs.map fun e => e.1).Nodup)
    (e1 e2 : Nat × α × Nat) (h1 : e1 ∈ cs) (h2 : e2 ∈ cs) (hid : e1.1 = e2.1) : e1 = e2 :=
  List.inj_on_of_nodup_map hn h1 h2 hid

theorem split_unique {β : Type} : ∀ (A B A2 B2 : List (Nat × β)) (e e2 : Nat × β),
    ((A ++ e :: B).map fun x => x.1).Nodup → A ++ e :: B = A2 ++ e2 :: B2 → e.1 = e2.1 →
    A = A2 ∧ e = e2 ∧ B = B2
  | [], B, [], B2, e, e2, _, heq, _ => by
      simp only [List.nil_append] at heq
      injection heq with h1 h2
      exact ⟨rfl, h1, h2⟩
  | [], B, a2 :: A2, B2, e, e2, hn, heq, hid => by
      simp only [List.nil_append, List.cons_append] at heq
      injection heq with h1 h2
      exfalso
      rw [List.nil_append, List.map_cons, List.nodup_cons] at hn
      refine hn.1 ?_
      rw [h2]
      exact List.mem_map.2 ⟨e2, by simp, hid.symm⟩
  | a :: A, B, [], B2, e, e2, hn, heq, hid => by
      simp only [List.nil_append, List.cons_append] at heq
      injection heq with h1 h2
      exfalso
      rw [List.cons_append, List.map_cons, List.nodup_cons] at hn
      refine hn.1 ?_
      rw [h1, ← hid]
      exact List.mem_map.2 ⟨e, by simp, rfl⟩
  | a :: A, B, a2 :: A2, B2, e, e2, hn, heq, hid => by
      simp only [List.cons_append] at heq
      injection heq with h1 h2
      rw [List.cons_append, List.map_cons, List.nodup_cons] at hn
      obtain ⟨hA, hE, hB⟩ := split_unique A B A2 B2 e e2 hn.2 h2 hid
      exact ⟨by rw [h1, hA], hE, hB⟩

theorem lookupCell_none (tid : Nat) : ∀ t : NodeT α,
    (∀ e ∈ cells t, e.1 ≠ tid) → lookupCell tid t = none
  | .nil, _ => rfl
  | .node i d c h l r, hne => by
      have hi : ¬i = tid := hne (i, d, c) (by simp [cells_node])
      have hl : lookupCell tid l = none :=
        lookupCell_none tid l fun e he => hne e (by simp [cells_node, he])
      have hr : lookupCell tid r = none :=
        lookupCell_none tid r fun e he => hne e (by simp [cells_node, he])
      simp only [lookupCell]
      rw [if_neg hi, hl, hr]

theorem lookupCell_some (tid : Nat) (d : α) (c : Nat) : ∀ t : NodeT α,
    (idList t).Nodup → (tid, d, c) ∈ cells t →
    ∃ hh l r, lookupCell tid t = some (NodeT.node tid d c hh l r)
  | .node i d0 c0 h l r, hn, hmem => by
      obtain ⟨hnl, hnr, hil, hir, hdisj⟩ := idNodup_decomp i d0 c0 h l r hn
      rw [cells_node] at hmem
      rcases List.mem_append.1 hmem with hml | hmr
      · have hit : ¬i = tid := by
          intro he
          exact hil (by rw [he]; exact List.mem_map.2 ⟨(tid, d, c), hml, rfl⟩)
        obtain ⟨hh2, l2, r2, hfound⟩ := lookupCell_some tid d c l hnl hml
        refine ⟨hh2, l2, r2, ?_⟩
        simp only [lookupCell]
        rw [if_neg hit, hfound]
      · rcases List.mem_cons.1 hmr with hmid | hmr2
        · have he1 : tid = i := congrArg (fun e => e.1) hmid
          have he2 : d = d0 := congrArg (fun e => e.2.1) hmid
          have he3 : c = c0 := congrArg (fun e => e.2.2) hmid
          subst he1 he2 he3
          refine ⟨h, l, r, ?_⟩
          simp only [lookupCell]
          rw [if_pos trivial]
        · have htr : tid ∈ idList r := List.mem_map.2 ⟨(tid, d, c), hmr2, rfl⟩
          have hit : ¬i = tid := by
            intro he
            exact hir (by rw [he]; exact htr)
          have hlnone : lookupCell tid l = none := by
            refine lookupCell_none tid l fun e he hid => ?_
            exact hdisj tid (by rw [← hid]; exact List.mem_map.2 ⟨e, he, rfl⟩) htr
          obtain ⟨hh2, l2, r2, hfound⟩ := lookupCell_some tid d c r hnr hmr2
          refine ⟨hh2, l2, r2, ?_⟩
          simp only [lookupCell]
          rw [if_neg hit, hlnone, hfound]

theorem succFrom_eq (tid : Nat) : ∀ (t : NodeT α) (anc : Option Nat)
    (A B : List (Nat × α × Nat)) (d : α) (c : Nat),
    (idList t).Nodup → cells t = A ++ (tid, d, c) :: B →
    succFrom tid anc t = (match B with | [] => anc | e :: _ => some e.1)
  | .nil, anc, A, B, d, c, _, heq => absurd heq.symm (by simp [cells])
  | .node i d0 c0 h l r, anc, A, B, d, c, hn, heq => by
      obtain ⟨hnl, hnr, hil, hir, hdisj⟩ := idNodup_decomp i d0 c0 h l r hn
      have hn2 : ((cells l ++ (i, d0, c0) :: cells r).map fun e => e.1).Nodup := by
        have hx := hn
        rw [idList, cells_node] at hx
        exact hx
      rw [cells_node] at heq
      simp only [succFrom]
      by_cases hit : i = tid
      · rw [if_pos hit]
        subst hit
        obtain ⟨hA, hE, hB⟩ :=
          split_unique (cells l) (cells r) A B (i, d0, c0) (i, d, c) hn2 heq rfl
        cases r with
        | nil =>
            have hBnil : B = [] := by
              rw [← hB]
              rfl
            rw [hBnil]
        | node ri rd rc rh rl rr =>
            cases hcr : cells (NodeT.node ri rd rc rh rl rr) with
            | nil => exact absurd hcr (cells_ne_nil ri rd rc rh rl rr)
            | cons e0 cs0 =>
                have hBc : B = e0 :: cs0 := by rw [← hB, hcr]
                rw [hBc]
                show MultiAVL.leftmostId (NodeT.node ri rd rc rh rl rr) = some e0.1
                rw [leftmostId_eq, hcr]
                rfl
      · rw [if_neg hit]
        have hmem : (tid, d, c) ∈ cells l ++ (i, d0, c0) :: cells r := by
          rw [heq]
          exact List.mem_append.2 (Or.inr (List.mem_cons_self _ _))
        rcases List.mem_append.1 hmem with hml | hmr
        · have htl : tid ∈ idList l := List.mem_map.2 ⟨(tid, d, c), hml, rfl⟩
          have hcl : containsId tid l = true := (containsId_iff_mem tid l).2 htl
          rw [if_pos hcl]
          obtain ⟨A1, B1, hsplitl⟩ := List.append_of_mem hml
          have heq2 : A1 ++ (tid, d, c) :: (B1 ++ (i, d0, c0) :: cells r)
              = A ++ (tid, d, c) :: B := by
            rw [← heq, hsplitl]
            simp [List.append_assoc]
          have hn3 : ((A1 ++ (tid, d, c) :: (B1 ++ (i, d0, c0) :: cells r)).map
              fun e => e.1).Nodup := by
            rw [heq2, ← heq]
            exact hn2
          obtain ⟨hA2, hE2, hB2⟩ := split_unique A1 (B1 ++ (i, d0, c0) :: cells r) A B
            (tid, d, c) (tid, d, c) hn3 heq2 rfl
          rw [succFrom_eq tid l (some i) A1 B1 d c hnl hsplitl]
          cases B1 with
          | nil =>
              rw [← hB2]
              simp
          | cons e1 B1x =>
              rw [← hB2]
              simp
        · have hmr2 : (tid, d, c) ∈ cells r := by
            rcases List.mem_cons.1 hmr with hmid | hm
            · exact absurd (congrArg (fun e => e.1) hmid).symm hit
            · exact hm
          have htr : tid ∈ idList r := List.mem_map.2 ⟨(tid, d, c), hmr2, rfl⟩
          have hcl : containsId tid l = false := by
            cases hcc : containsId tid l with
            | false => rfl
            | true => exact absurd htr (hdisj tid ((containsId_iff_mem tid l).1 hcc))
          rw [if_neg (by simp [hcl])]
          obtain ⟨A1, B1, hsplitr⟩ := List.append_of_mem hmr2
          have heq2 : (cells l ++ (i, d0, c0) :: A1) ++ (tid, d, c) :: B1
              = A ++ (tid, d, c) :: B := by
            rw [← heq, hsplitr]
            simp [List.append_assoc]
          have hn3 : (((cells l ++ (i, d0, c0) :: A1) ++ (tid, d, c) :: B1).map
              fun e => e.1).Nodup := by
            rw [heq2, ← heq]
            exact hn2
          obtain ⟨hA2, hE2, hB2⟩ := split_unique (cells l ++ (i, d0, c0) :: A1) B1 A B
            (tid, d, c) (tid, d, c) hn3 heq2 rfl
          rw [succFrom_eq tid r anc A1 B1 d c hnr hsplitr, hB2]

theorem iterTake_none (t : NodeT α) (k : Nat) : ∀ n,
    iterTake t { now := none, counter := k } n = []
  | 0 => rfl
  | _ + 1 => by simp [iterTake, iterNext]

theorem iterAfter_none (t : NodeT α) (k : Nat) : ∀ n,
    iterAfter t { now := none, counter := k } n = { now := none, counter := k }
  | 0 => rfl
  | n + 1 => iterAfter_none t k n

theorem iter_run (t : NodeT α) (hn : (idList t).Nodup)
    (hp : ∀ e ∈ cells t, 1 ≤ e.2.2) :
    ∀ (m : Nat) (A B : List (Nat × α × Nat)) (tid : Nat) (d : α) (c k : Nat),
      cells t = A ++ (tid, d, c) :: B → 1 ≤ k → k ≤ c →
      m = (c - k + 1) + (B.map fun e => e.2.2).sum →
      iterTake t { now := some tid, counter := k } m
          = List.replicate (c - k + 1) d ++ (B.flatMap fun e => List.replicate e.2.2 e.2.1) ∧
      (iterNext t (iterAfter t { now := some tid, counter := k } m)).1 = none := by
  intro m
  induction m with
  | zero =>
      intro A B tid d c k heq hk1 hkc hm
      exact absurd hm (by omega)
  | succ m2 IH =>
      intro A B tid d c k heq hk1 hkc hm
      have hmem : (tid, d, c) ∈ cells t := by
        rw [heq]
        simp
      obtain ⟨hh2, l2, r2, hfound⟩ := lookupCell_some tid d c t hn hmem
      by_cases hcc : k + 1 ≤ c
      · have hstep : iterNext t { now := some tid, counter := k }
            = (some d, { now := some tid, counter := k + 1 }) := by
          simp [iterNext, hfound, hcc]
        obtain ⟨ih1, ih2⟩ := IH A B tid d c (k + 1) heq (by omega) hcc (by omega)
        constructor
        · simp only [iterTake, hstep]
          rw [ih1]
          have h21 : c - k + 1 = (c - (k + 1) + 1) + 1 := by omega
          rw [h21]
          simp [List.replicate_succ]
        · simp only [iterAfter]
          rw [hstep]
          exact ih2
      · have hkc2 : k = c := by omega
        subst hkc2
        cases B with
        | nil =>
            have hsucc : succFrom tid none t = none :=
              succFrom_eq tid t none A [] d k hn heq
            have hstep : iterNext t { now := some tid, counter := k }
                = (some d, { now := none, counter := 1 }) := by
              simp [iterNext, hfound, hcc, hsucc]
            constructor
            · simp only [iterTake, hstep]
              rw [iterTake_none]
              have h1 : k - k + 1 = 1 := by omega
              rw [h1]
              simp
            · simp only [iterAfter]
              rw [hstep, iterAfter_none]
              simp [iterNext]
        | cons e2 B2 =>
            obtain ⟨ti2, d2, c2⟩ := e2
            have hsucc : succFrom tid none t = some ti2 :=
              succFrom_eq tid t none A ((ti2, d2, c2) :: B2) d k hn heq
            have hstep : iterNext t { now := some tid, counter := k }
                = (some d, { now := some ti2, counter := 1 }) := by
              simp [iterNext, hfound, hcc, hsucc]
            have hp2 : 1 ≤ c2 := hp (ti2, d2, c2) (by rw [heq]; simp)
            have heq2 : cells t = (A ++ [(tid, d, k)]) ++ (ti2, d2, c2) :: B2 := by
              rw [heq]
              simp [List.append_assoc]
            obtain ⟨ih1, ih2⟩ := IH (A ++ [(tid, d, k)]) B2 ti2 d2 c2 1 heq2 (by omega) hp2
              (by
                simp only [List.map_cons, List.sum_cons] at hm
                omega)
            constructor
            · simp only [iterTake, hstep]
              rw [ih1]
              have h21 : c2 - 1 + 1 = c2 := by omega
              have h1 : k - k + 1 = 1 := by omega
              rw [h21, h1]
              simp
            · simp only [iterAfter]
              rw [hstep]
              exact ih2

theorem flatCells_length : ∀ cs : List (Nat × α × Nat),
    (cs.flatMap fun e => List.replicate e.2.2 e.2.1).length = (cs.map fun e => e.2.2).sum
  | [] => rfl
  | e :: rest => by simp [List.flatMap_cons, flatCells_length rest]

theorem flat_eq_flatMap (t : NodeT α) :
    flat t = (cells t).flatMap fun e => List.replicate e.2.2 e.2.1 := by
  show ((cells t).map fun e => e.2).flatMap (fun e => List.replicate e.2 e.1) = _
  induction cells t with
  | nil => rfl
  | cons e cs ih => simp [List.flatMap_cons, ih]

theorem iter_correct (t : MultiAVL α) (h : WF t) :
    iterTake t.root (iter t) (MultiAVL.sizeOf t) = flat t.root ∧
    (iterNext t.root (iterAfter t.root (iter t) (MultiAVL.sizeOf t))).1 = none := by
  obtain ⟨hs, hhc, hbal, hpos, hnodup, hfresh, hsize, hmin, hmax⟩ := h
  cases hcs : cells t.root with
  | nil =>
      have hroot : t.root = .nil := by
        cases hroot2 : t.root with
        | nil => rfl
        | node i d c hh l r =>
            rw [hroot2] at hcs
            exact absurd hcs (cells_ne_nil i d c hh l r)
      have hmn : t.minNode = none := by
        rw [hmin, hroot]
        rfl
      have hsz : MultiAVL.sizeOf t = 0 := by
        show t.size = 0
        rw [hsize]
        show ((cells t.root).map fun e => e.2.2).sum = 0
        rw [hcs]
        rfl
      have hit : iter t = { now := none, counter := 0 } := by simp [iter, minIter, hmn]
      rw [hit, hsz]
      refine ⟨?_, ?_⟩
      · show ([] : List α) = flat t.root
        rw [flat_eq_flatMap, hcs]
        rfl
      · simp [iterAfter, iterNext]
  | cons e0 CS =>
      obtain ⟨ti0, d0, c0⟩ := e0
      have hp0 : 1 ≤ c0 := hpos (ti0, d0, c0) (by rw [hcs]; simp)
      have hmn : t.minNode = some ti0 := by
        rw [hmin, leftmostId_eq, hcs]
        rfl
      have hit : iter t = { now := some ti0, counter := 1 } := by simp [iter, minIter, hmn]
      have hsz : MultiAVL.sizeOf t = (c0 - 1 + 1) + (CS.map fun e => e.2.2).sum := by
        show t.size = _
        rw [hsize]
        show ((cells t.root).map fun e => e.2.2).sum = _
        rw [hcs]
        simp only [List.map_cons, List.sum_cons]
        omega
      obtain ⟨h1, h2⟩ := iter_run t.root hnodup hpos (MultiAVL.sizeOf t) [] CS ti0 d0 c0 1
        (by rw [hcs]; rfl) (by omega) hp0 hsz
      rw [hit]
      refine ⟨?_, h2⟩
      rw [h1]
      have hc01 : c0 - 1 + 1 = c0 := by omega
      rw [hc01, flat_eq_flatMap, hcs]
      simp [List.flatMap_cons]

/-- `Reachable` holds of every tree built by inserting a list of values. -/
theorem buildList_reachable_aux : ∀ (l : List α) (s : MultiAVL α), Reachable s →
    Reachable (l.foldl (fun s v => s.insert v) s)
  | [], _, hs => hs
  | v :: rest, s, hs =>
      buildList_reachable_aux rest (s.insert v) (Reachable.insert s v hs)

theorem buildList_reachable (l : List α) : Reachable (buildList l) :=
  buildList_reachable_aux l MultiAVL.new Reachable.new

/-! ## Claim C2 -/

/-- C2: on any reachable tree, iterating from `iter()` (which starts at the
cached minimum) with no interleaved mutation yields exactly the stored
multiset in ascending order — the flattening of the in-order (value, count)
entries: each distinct value exactly `count` times consecutively, distinct
values strictly ascending, total yield equal to `size()` — after which `next()`
returns `None`. -/
theorem claim_C2 (t : MultiAVL α) (h : Reachable t) :
    iterTake t.root (iter t) (MultiAVL.sizeOf t) = flat t.root ∧
    (iterNext t.root (iterAfter t.root (iter t) (MultiAVL.sizeOf t))).1 = none ∧
    ((entries t.root).map fun e => e.1).Pairwise (· < ·) ∧
    (∀ e ∈ entries t.root, 1 ≤ e.2) ∧
    (flat t.root).length = MultiAVL.sizeOf t := by
  have hw := reachable_WF h
  obtain ⟨hrun, hend⟩ := iter_correct t hw
  refine ⟨hrun, hend, ?_, ?_, ?_⟩
  · have hmap : ((entries t.root).map fun e => e.1) = dataList t.root := by
      show ((cells t.root).map fun e => e.2).map _ = (cells t.root).map _
      rw [List.map_map]
      rfl
    rw [hmap]
    exact hw.1
  · intro e he
    obtain ⟨ce, hce, hee⟩ := List.mem_map.1 he
    have hcp := hw.2.2.2.1 ce hce
    rw [← hee]
    exact hcp
  · rw [flat_eq_flatMap, flatCells_length]
    exact (hw.2.2.2.2.2.2.1).symm

/-- Witness for C2: the tree built by inserting 1, 1, 1, 2, 5, 5 holds the
entries (1,3), (2,1), (5,2), and its full iteration yields the literal
sequence [1, 1, 1, 2, 5, 5] and then exhausts. -/
theorem claim_C2_witness :
    iterTake (buildList ([1, 1, 1, 2, 5, 5] : List Int)).root
        (iter (buildList ([1, 1, 1, 2, 5, 5] : List Int)))
        (MultiAVL.sizeOf (buildList ([1, 1, 1, 2, 5, 5] : List Int)))
      = flat (buildList ([1, 1, 1, 2, 5, 5] : List Int)).root ∧
    (iterNext (buildList ([1, 1, 1, 2, 5, 5] : List Int)).root
        (iterAfter (buildList ([1, 1, 1, 2, 5, 5] : List Int)).root
          (iter (buildList ([1, 1, 1, 2, 5, 5] : List Int)))
          (MultiAVL.sizeOf (buildList ([1, 1, 1, 2, 5, 5] : List Int))))).1 = none ∧
    entries (buildList ([1, 1, 1, 2, 5, 5] : List Int)).root = [(1, 3), (2, 1), (5, 2)] ∧
    flat (buildList ([1, 1, 1, 2, 5, 5] : List Int)).root = [1, 1, 1, 2, 5, 5] ∧
    MultiAVL.sizeOf (buildList ([1, 1, 1, 2, 5, 5] : List Int)) = 6 :=
  ⟨(claim_C2 _ (buildList_reachable _)).1, (claim_C2 _ (buildList_reachable _)).2.1,
    by decide, by decide, by decide⟩

/-! ## Claim C10: machinery -/

theorem insCell_cntCells_ne (nid : Nat) (u v : α) (hne : ¬u = v) :
    ∀ cs : List (Nat × α × Nat), cntCells v (insCell nid u cs) = cntCells v cs
  | [] => by simp [insCell, hne]
  | e :: rest => by
      simp only [insCell]
      by_cases hle : u ≤ e.2.1
      · rw [if_pos hle]
        simp [hne]
      · rw [if_neg hle, cntCells_cons, cntCells_cons, insCell_cntCells_ne nid u v hne rest]

theorem bumpCell_cntCells_ne (u v : α) (hne : ¬u = v) :
    ∀ cs : List (Nat × α × Nat), cntCells v (bumpCell u cs) = cntCells v cs
  | [] => rfl
  | e :: rest => by
      simp only [bumpCell]
      by_cases hue : u = e.2.1
      · rw [if_pos hue, cntCells_cons, cntCells_cons]
        have hev : ¬e.2.1 = v := by
          rw [← hue]
          exact hne
        rw [if_neg hev, if_neg hev]
      · rw [if_neg hue, cntCells_cons, cntCells_cons, bumpCell_cntCells_ne u v hne rest]

theorem cnt_insert_ne (t : MultiAVL α) (u v : α) (hne : ¬u = v) (h : WF t) :
    cntOf v (t.insert u).root = cntOf v t.root := by
  obtain ⟨root2, grew, mn, mx, heq⟩ : ∃ a b c d, insertAux t.nextId u t.root = (a, b, c, d) :=
    ⟨_, _, _, _, rfl⟩
  obtain ⟨_, _, _, _, hg, hng⟩ :=
    insertAux_spec t.nextId u t.root root2 grew mn mx heq h.2.1 h.2.2.1 h.1
  have hroot := insert_root_eq t u root2 grew mn mx heq
  have hs2 : (dataList root2).Pairwise (· < ·) := by
    have hw := (insert_WF t u h).1
    rwa [hroot] at hw
  rw [hroot, cntOf_eq_cntCells v root2 hs2, cntOf_eq_cntCells v t.root h.1]
  cases grew with
  | true =>
      obtain ⟨hcells, _, _, _⟩ := hg rfl
      rw [hcells, insCell_cntCells_ne t.nextId u v hne]
  | false =>
      obtain ⟨hcells, _, _⟩ := hng rfl
      rw [hcells, bumpCell_cntCells_ne u v hne]

theorem buildList_cnt_aux (v : α) : ∀ (l : List α) (s : MultiAVL α), Reachable s →
    cntOf v ((l.foldl (fun s v => s.insert v) s)).root = cntOf v s.root + l.count v
  | [], s, _ => by simp
  | a :: rest, s, hs => by
      show cntOf v ((rest.foldl (fun s v => s.insert v) (s.insert a))).root = _
      rw [buildList_cnt_aux v rest (s.insert a) (Reachable.insert s a hs)]
      by_cases hav : a = v
      · subst hav
        rw [cnt_insert s a (reachable_WF hs)]
        simp [List.count_cons]
        omega
      · rw [cnt_insert_ne s a v hav (reachable_WF hs)]
        simp [List.count_cons, hav]

theorem buildList_cnt (v : α) (l : List α) :
    cntOf v (buildList l).root = l.count v := by
  have h := buildList_cnt_aux v l MultiAVL.new Reachable.new
  simpa [buildList, cntOf, MultiAVL.new, findNode] using h

theorem buildList_size_aux : ∀ (l : List α) (s : MultiAVL α),
    MultiAVL.sizeOf (l.foldl (fun s v => s.insert v) s) = MultiAVL.sizeOf s + l.length
  | [], _ => rfl
  | a :: rest, s => by
      show MultiAVL.sizeOf (rest.foldl (fun s v => s.insert v) (s.insert a)) = _
      rw [buildList_size_aux rest (s.insert a), insert_size]
      simp
      omega

theorem buildList_size (l : List α) :
    MultiAVL.sizeOf (buildList l) = l.length := by
  have h := buildList_size_aux l (MultiAVL.new : MultiAVL α)
  simpa [buildList, MultiAVL.sizeOf, MultiAVL.new] using h

theorem mem_dataList_iff_cnt (t : NodeT α) (v : α) (hs : (dataList t).Pairwise (· < ·))
    (hp : ∀ e ∈ cells t, 1 ≤ e.2.2) :
    v ∈ dataList t ↔ 0 < cntOf v t := by
  rw [cntOf_eq_cntCells v t hs]
  constructor
  · intro hm
    exact cntCells_pos_of_mem v (cells t) hm hp
  · intro hc
    by_contra hnm
    rw [cntCells_eq_zero v (cells t) hnm] at hc
    omega

theorem buildList_mem (v : α) (l : List α) :
    v ∈ dataList (buildList l).root ↔ v ∈ l := by
  have hw := reachable_WF (buildList_reachable l)
  rw [mem_dataList_iff_cnt (buildList l).root v hw.1 hw.2.2.2.1, buildList_cnt]
  exact List.count_pos_iff

theorem entries_eq_of_cnt : ∀ (cs1 cs2 : List (Nat × α × Nat)),
    (cs1.map fun e => e.2.1).Pairwise (· < ·) →
    cs1.map (fun e => e.2.1) = cs2.map (fun e => e.2.1) →
    (∀ v, cntCells v cs1 = cntCells v cs2) →
    cs1.map (fun e => e.2) = cs2.map (fun e => e.2)
  | [], [], _, _, _ => rfl
  | [], e2 :: cs2, _, hmap, _ => by simp at hmap
  | e1 :: cs1, [], _, hmap, _ => by simp at hmap
  | e1 :: cs1, e2 :: cs2, hs, hmap, hcnt => by
      rw [List.map_cons, List.map_cons] at hmap
      injection hmap with h1 h2
      rw [List.map_cons, List.pairwise_cons] at hs
      have hni : e1.2.1 ∉ cs1.map (fun e => e.2.1) := fun hm => lt_irrefl _ (hs.1 _ hm)
      have hz1 : cntCells e1.2.1 cs1 = 0 := cntCells_eq_zero _ _ hni
      have hni2 : e1.2.1 ∉ cs2.map (fun e => e.2.1) := by
        rw [← h2]
        exact hni
      have hz2 : cntCells e1.2.1 cs2 = 0 := cntCells_eq_zero _ _ hni2
      have hc := hcnt e1.2.1
      rw [cntCells_cons, cntCells_cons, if_pos rfl, if_pos h1.symm, hz1, hz2] at hc
      have hcnt2 : ∀ v, cntCells v cs1 = cntCells v cs2 := by
        intro v
        have hcv := hcnt v
        rw [cntCells_cons, cntCells_cons] at hcv
        by_cases hv1 : e1.2.1 = v
        · rw [← hv1, hz1, hz2]
        · rw [if_neg hv1, if_neg (by rw [← h1]; exact hv1)] at hcv
          omega
      have htail := entries_eq_of_cnt cs1 cs2 hs.2 h2 hcnt2
      rw [List.map_cons, List.map_cons, htail]
      have he2 : e1.2 = e2.2 := Prod.ext h1 (by omega)
      rw [he2]

theorem mem_of_getLast_eq {β : Type} {l : List β} {a : β} (h : l.getLast? = some a) :
    a ∈ l := by
  obtain ⟨hne, heq⟩ := List.mem_getLast?_eq_getLast (show a ∈ l.getLast? by rw [h]; rfl)
  rw [heq]
  exact List.getLast_mem hne

theorem lookupData_none (tid : Nat) : ∀ t : NodeT α,
    (∀ e ∈ cells t, e.1 ≠ tid) → lookupData tid t = none
  | .nil, _ => rfl
  | .node i d c h l r, hne => by
      have hi : ¬i = tid := hne (i, d, c) (by simp [cells_node])
      have hl : lookupData tid l = none :=
        lookupData_none tid l fun e he => hne e (by simp [cells_node, he])
      have hr : lookupData tid r = none :=
        lookupData_none tid r fun e he => hne e (by simp [cells_node, he])
      simp only [lookupData]
      rw [if_neg hi, hl, hr]

theorem lookupData_some (tid : Nat) (d : α) (c : Nat) : ∀ t : NodeT α,
    (idList t).Nodup → (tid, d, c) ∈ cells t → lookupData tid t = some d
  | .node i d0 c0 h l r, hn, hmem => by
      obtain ⟨hnl, hnr, hil, hir, hdisj⟩ := idNodup_decomp i d0 c0 h l r hn
      rw [cells_node] at hmem
      rcases List.mem_append.1 hmem with hml | hmr
      · have hit : ¬i = tid := by
          intro he
          exact hil (by rw [he]; exact List.mem_map.2 ⟨(tid, d, c), hml, rfl⟩)
        have hfound := lookupData_some tid d c l hnl hml
        simp only [lookupData]
        rw [if_neg hit, hfound]
      · rcases List.mem_cons.1 hmr with hmid | hmr2
        · have he1 : tid = i := congrArg (fun e => e.1) hmid
          have he2 : d = d0 := congrArg (fun e => e.2.1) hmid
          subst he1 he2
          simp only [lookupData]
          rw [if_pos trivial]
        · have htr : tid ∈ idList r := List.mem_map.2 ⟨(tid, d, c), hmr2, rfl⟩
          have hit : ¬i = tid := by
            intro he
            exact hir (by rw [he]; exact htr)
          have hlnone : lookupData tid l = none := by
            refine lookupData_none tid l fun e he hid => ?_
            exact hdisj tid (by rw [← hid]; exact List.mem_map.2 ⟨e, he, rfl⟩) htr
          have hfound := lookupData_some tid d c r hnr hmr2
          simp only [lookupData]
          rw [if_neg hit, hlnone, hfound]

theorem minValue_eq (t : MultiAVL α) (h : WF t) :
    minValue t = (dataList t.root).head? := by
  obtain ⟨hs, hhc, hbal, hpos, hnodup, hfresh, hsize, hmin, hmax⟩ := h
  cases hcs : cells t.root with
  | nil =>
      have hmn : t.minNode = none := by
        rw [hmin, leftmostId_eq, hcs]
        rfl
      show minValue t = ((cells t.root).map fun e => e.2.1).head?
      rw [hcs]
      simp [minValue, hmn]
  | cons e0 CS =>
      have hmn : t.minNode = some e0.1 := by
        rw [hmin, leftmostId_eq, hcs]
        rfl
      have hmem : (e0.1, e0.2.1, e0.2.2) ∈ cells t.root := by
        rw [hcs]
        simp
      have hld := lookupData_some e0.1 e0.2.1 e0.2.2 t.root hnodup hmem
      show minValue t = ((cells t.root).map fun e => e.2.1).head?
      rw [hcs]
      simp [minValue, hmn, hld]

theorem maxValue_eq (t : MultiAVL α) (h : WF t) :
    maxValue t = (dataList t.root).getLast? := by
  obtain ⟨hs, hhc, hbal, hpos, hnodup, hfresh, hsize, hmin, hmax⟩ := h
  cases hcs : (cells t.root).getLast? with
  | none =>
      have hcnil : cells t.root = [] := by
        cases hc0 : cells t.root with
        | nil => rfl
        | cons e0 CS =>
            rw [hc0] at hcs
            rw [List.getLast?_eq_getLast (e0 :: CS) (by simp)] at hcs
            exact absurd hcs (by simp)
      have hmx : t.maxNode = none := by
        rw [hmax, rightmostId_eq, hcnil]
        rfl
      show maxValue t = ((cells t.root).map fun e => e.2.1).getLast?
      rw [hcnil]
      simp [maxValue, hmx]
  | some e0 =>
      have hmx : t.maxNode = some e0.1 := by
        rw [hmax, rightmostId_eq, hcs]
        rfl
      have hmem : (e0.1, e0.2.1, e0.2.2) ∈ cells t.root := mem_of_getLast_eq hcs
      have hld := lookupData_some e0.1 e0.2.1 e0.2.2 t.root hnodup hmem
      show maxValue t = ((cells t.root).map fun e => e.2.1).getLast?
      rw [List.getLast?_map, hcs]
      simp [maxValue, hmx, hld]

/-- C10: insertion order does not affect observable contents: inserting two
permutations of the same value list element-by-element into fresh trees yields
trees that agree on `size`, on every `contains` query, on `min_value` and
`max_value`, on their (value, count) entries, and whose full iterations yield
identical sequences (the internal shapes may differ). -/
theorem claim_C10 (l1 l2 : List α) (hp : l1.Perm l2) :
    MultiAVL.sizeOf (buildList l1) = MultiAVL.sizeOf (buildList l2) ∧
    (∀ v, (buildList l1).contains v = (buildList l2).contains v) ∧
    minValue (buildList l1) = minValue (buildList l2) ∧
    maxValue (buildList l1) = maxValue (buildList l2) ∧
    entries (buildList l1).root = entries (buildList l2).root ∧
    iterTake (buildList l1).root (iter (buildList l1)) (MultiAVL.sizeOf (buildList l1))
      = iterTake (buildList l2).root (iter (buildList l2))
        (MultiAVL.sizeOf (buildList l2)) := by
  have hw1 := reachable_WF (buildList_reachable l1)
  have hw2 := reachable_WF (buildList_reachable l2)
  have hnd1 : (dataList (buildList l1).root).Nodup := hw1.1.imp ne_of_lt
  have hnd2 : (dataList (buildList l2).root).Nodup := hw2.1.imp ne_of_lt
  have hmemiff : ∀ v, v ∈ dataList (buildList l1).root ↔ v ∈ dataList (buildList l2).root := by
    intro v
    rw [buildList_mem, buildList_mem]
    exact hp.mem_iff
  have hpermd := (List.perm_ext_iff_of_nodup hnd1 hnd2).2 hmemiff
  haveI : IsAntisymm α (· < ·) := ⟨fun a b ha hb => absurd hb (lt_asymm ha)⟩
  have hdl : dataList (buildList l1).root = dataList (buildList l2).root :=
    List.eq_of_perm_of_sorted hpermd hw1.1 hw2.1
  have hcnt : ∀ v, cntCells v (cells (buildList l1).root)
      = cntCells v (cells (buildList l2).root) := by
    intro v
    rw [← cntOf_eq_cntCells v _ hw1.1, ← cntOf_eq_cntCells v _ hw2.1,
      buildList_cnt, buildList_cnt]
    exact hp.count_eq v
  have hent : entries (buildList l1).root = entries (buildList l2).root :=
    entries_eq_of_cnt (cells (buildList l1).root) (cells (buildList l2).root) hw1.1 hdl hcnt
  refine ⟨?_, ?_, ?_, ?_, hent, ?_⟩
  · rw [buildList_size, buildList_size]
    exact hp.length_eq
  · intro v
    rw [Bool.eq_iff_iff]
    show (findNode v (buildList l1).root).isSome = true
      ↔ (findNode v (buildList l2).root).isSome = true
    rw [findNode_isSome_iff v _ hw1.1, findNode_isSome_iff v _ hw2.1, hdl]
  · rw [minValue_eq _ hw1, minValue_eq _ hw2, hdl]
  · rw [maxValue_eq _ hw1, maxValue_eq _ hw2, hdl]
  · obtain ⟨hr1, _⟩ := iter_correct _ hw1
    obtain ⟨hr2, _⟩ := iter_correct _ hw2
    rw [hr1, hr2]
    show (entries (buildList l1).root).flatMap _ = (entries (buildList l2).root).flatMap _
    rw [hent]

/-- Witness for C10 on the permutations [3, 1, 2] and [2, 3, 1]. -/
theorem claim_C10_witness :
    MultiAVL.sizeOf (buildList ([3, 1, 2] : List Int))
      = MultiAVL.sizeOf (buildList ([2, 3, 1] : List Int)) ∧
    (∀ v, (buildList ([3, 1, 2] : List Int)).contains v
      = (buildList ([2, 3, 1] : List Int)).contains v) ∧
    minValue (buildList ([3, 1, 2] : List Int)) = minValue (buildList ([2, 3, 1] : List Int)) ∧
    maxValue (buildList ([3, 1, 2] : List Int)) = maxValue (buildList ([2, 3, 1] : List Int)) ∧
    entries (buildList ([3, 1, 2] : List Int)).root
      = entries (buildList ([2, 3, 1] : List Int)).root ∧
    iterTake (buildList ([3, 1, 2] : List Int)).root (iter (buildList ([3, 1, 2] : List Int)))
        (MultiAVL.sizeOf (buildList ([3, 1, 2] : List Int)))
      = iterTake (buildList ([2, 3, 1] : List Int)).root (iter (buildList ([2, 3, 1] : List Int)))
        (MultiAVL.sizeOf (buildList ([2, 3, 1] : List Int))) :=
  claim_C10 [3, 1, 2] [2, 3, 1] (by decide)

end MultiAVLSpec
